import Mathlib

/-! Aerospike C client, admin protocol (`src/main/aerospike/as_admin.c`).

A shallow embedding of the admin wire codec: the field and command encoders,
the proto framing, the record parser and the streaming block reader.

Conventions of the embedding:
* memory is a map from integer addresses to bytes; a pointer is an `Int`;
* a C `int` is an `Int` kept in range by `toI32`, an unsigned value is a `Nat`
  reduced by an explicit modulus;
* a `const char*` argument is the list of bytes found at that address, the
  copy routines stop at the first NUL as the C library does.
-/

namespace AsAdmin

/-! ## Memory -/

/-- Byte-addressed memory. A cell is read modulo 256. -/
abbrev Mem := Int → Nat

/-- Read of one `uint8_t`. -/
def load8 (m : Mem) (a : Int) : Nat := m a % 256

/-- Write of one `uint8_t`. -/
def store8 (m : Mem) (a : Int) (v : Nat) : Mem :=
  fun x => if x = a then v % 256 else m x

/-- Consecutive byte writes starting at `a` (the effect of `memcpy` from a byte list). -/
def storeBytes : Mem → Int → List Nat → Mem
  | m, _, [] => m
  | m, a, b :: bs => storeBytes (store8 m a b) (a + 1) bs

/-- The `n` bytes found at `a`. -/
def loadBytes (m : Mem) (a : Int) : Nat → List Nat
  | 0 => []
  | n + 1 => load8 m a :: loadBytes m (a + 1) n

/-- An all-zero memory, used for concrete evaluations. -/
def zeroMem : Mem := fun _ => 0

/-! ## Machine integers and byte order -/

/-- Conversion to `int` (two's complement, 32 bits). -/
def toI32 (x : Int) : Int := (x + 2 ^ 31) % 2 ^ 32 - 2 ^ 31

/-- Conversion to `uint32_t`. -/
def toU32 (x : Int) : Nat := (x % 2 ^ 32).toNat

/-- Conversion to `uint8_t`. -/
def toU8 (x : Int) : Nat := (x % 256).toNat

/-- Conversion to `uint64_t`. -/
def toU64 (x : Int) : Nat := (x % 2 ^ 64).toNat

/-- The `w` low bytes of `v`, least significant first. -/
def leBytes : Nat → Nat → List Nat
  | 0, _ => []
  | w + 1, v => v % 256 :: leBytes w (v / 256)

/-- The `w` low bytes of `v`, most significant first. -/
def beBytes (w v : Nat) : List Nat := (leBytes w v).reverse

/-- Value of a byte list read least significant first. -/
def ofLE : List Nat → Nat
  | [] => 0
  | b :: bs => b + 256 * ofLE bs

/-- Value of a byte list read most significant first. -/
def ofBE (bs : List Nat) : Nat := ofLE bs.reverse

/-- Byte order of the machine the client runs on. -/
inductive ByteOrder
  | little
  | big
  deriving DecidableEq, Repr

/-- In-memory bytes of a `w`-byte integer on the host. -/
def hostBytes (host : ByteOrder) (w v : Nat) : List Nat :=
  match host with
  | .little => leBytes w v
  | .big => beBytes w v

/-- Value of a `w`-byte integer read from memory bytes on the host. -/
def ofHost (host : ByteOrder) (bs : List Nat) : Nat :=
  match host with
  | .little => ofLE bs
  | .big => ofBE bs

/-- Reversal of the `w` bytes of `v`. -/
def bswap (w v : Nat) : Nat := ofLE (beBytes w v)

/-- Modelled from the spec: `cf_swap_to_be32` of `citrusleaf/cf_byte_order.h`
(not part of the sources at hand) turns a host-order 32-bit value into the
big-endian one: a byte swap on a little-endian host, nothing on a big-endian one. -/
def cf_swap_to_be32 (host : ByteOrder) (v : Nat) : Nat :=
  match host with
  | .little => bswap 4 v
  | .big => v % 2 ^ 32

/-- Modelled from the spec: `cf_swap_from_be32` of `citrusleaf/cf_byte_order.h`,
the inverse conversion (the same byte swap). -/
def cf_swap_from_be32 (host : ByteOrder) (v : Nat) : Nat :=
  match host with
  | .little => bswap 4 v
  | .big => v % 2 ^ 32

/-- Modelled from the spec: `cf_swap_to_be64` of `citrusleaf/cf_byte_order.h`. -/
def cf_swap_to_be64 (host : ByteOrder) (v : Nat) : Nat :=
  match host with
  | .little => bswap 8 v
  | .big => v % 2 ^ 64

/-- Modelled from the spec: `cf_swap_from_be64` of `citrusleaf/cf_byte_order.h`. -/
def cf_swap_from_be64 (host : ByteOrder) (v : Nat) : Nat :=
  match host with
  | .little => bswap 8 v
  | .big => v % 2 ^ 64

/-- The store `*(int*)p = v` (host byte order). -/
def store32 (host : ByteOrder) (m : Mem) (p : Int) (v : Nat) : Mem :=
  storeBytes m p (hostBytes host 4 v)

/-- The load `*(int*)p`, as an unsigned 32-bit pattern (host byte order). -/
def load32 (host : ByteOrder) (m : Mem) (p : Int) : Nat :=
  ofHost host (loadBytes m p 4)

/-- The store `*(uint64_t*)p = v` (host byte order). -/
def store64 (host : ByteOrder) (m : Mem) (p : Int) (v : Nat) : Mem :=
  storeBytes m p (hostBytes host 8 v)

/-- The load `*(uint64_t*)p` (host byte order). -/
def load64 (host : ByteOrder) (m : Mem) (p : Int) : Nat :=
  ofHost host (loadBytes m p 8)

/-! ## Constants of `as_admin.c` -/

def AUTHENTICATE : Nat := 0
def CREATE_USER : Nat := 1
def DROP_USER : Nat := 2
def SET_PASSWORD : Nat := 3
def CHANGE_PASSWORD : Nat := 4
def GRANT_ROLES : Nat := 5
def REVOKE_ROLES : Nat := 6
def REPLACE_ROLES : Nat := 7
def CREATE_ROLE : Nat := 8
def QUERY_USERS : Nat := 9
def QUERY_ROLES : Nat := 10

def USER : Nat := 0
def PASSWORD : Nat := 1
def OLD_PASSWORD : Nat := 2
def CREDENTIAL : Nat := 3
def ROLES : Nat := 10
def PRIVILEGES : Nat := 11

def MSG_VERSION : Nat := 0
def MSG_TYPE : Nat := 2
def FIELD_HEADER_SIZE : Int := 5
def HEADER_SIZE : Nat := 24
def HEADER_REMAINING : Nat := 16
def RESULT_CODE : Int := 9
def QUERY_END : Int := 50
def DEFAULT_TIMEOUT : Nat := 60000

/-! ## Field and command encoders -/

/-- The C library `stpcpy(dst, src)`: copies the string at `src` with its
terminator and returns the address of the terminator written. -/
def stpcpy (m : Mem) (dst : Int) (src : List Nat) : Mem × Int :=
  let s := src.takeWhile (fun b => b != 0)
  (storeBytes m dst (s ++ [0]), dst + s.length)

/-- Source `write_header` (lines 57-64). -/
def write_header (m : Mem) (p : Int) (command field_count : Nat) : Mem × Int :=
  let m := storeBytes m p (List.replicate HEADER_REMAINING 0)
  let m := store8 m (p + 2) command
  let m := store8 m (p + 3) field_count
  (m, p + HEADER_REMAINING)

/-- Source `write_field_header` (lines 66-73). -/
def write_field_header (host : ByteOrder) (m : Mem) (p : Int) (id : Nat) (size : Int) :
    Mem × Int :=
  let m := store32 host m p (cf_swap_to_be32 host (toU32 (size + 1)))
  let p := p + 4
  let m := store8 m p id
  (m, p + 1)

/-- Source `write_field_string` (lines 75-81). -/
def write_field_string (host : ByteOrder) (m : Mem) (p : Int) (id : Nat) (val : List Nat) :
    Mem × Int :=
  let (m, q) := stpcpy m (p + FIELD_HEADER_SIZE) val
  let (m, _) := write_field_header host m p id (toI32 (q - p - FIELD_HEADER_SIZE))
  (m, q)

/-- Body of the `for` loop of `write_roles` (lines 90-94), over the role
strings still to be written; `q` is the slot of the next length byte. -/
def write_roles_loop : List (List Nat) → Mem → Int → Mem × Int
  | [], m, q => (m, q)
  | role :: rest, m, q =>
    let (m, r) := stpcpy m (q + 1) role
    let m := store8 m q (toU8 (r - q - 1))
    write_roles_loop rest m r

/-- Source `write_roles` (lines 83-98). `roles` is the caller's array and
`length` its element count; the loop visits `roles[0 .. length)`. -/
def write_roles (host : ByteOrder) (m : Mem) (p : Int) (roles : List (List Nat))
    (length : Int) : Mem × Int :=
  let q := p + FIELD_HEADER_SIZE
  let m := store8 m q (toU8 length)
  let q := q + 1
  let (m, q) := write_roles_loop (roles.take (toU32 length)) m q
  let (m, _) := write_field_header host m p ROLES (toI32 (q - p - FIELD_HEADER_SIZE))
  (m, q)

/-! ## Build parameters and collaborators

The headers `aerospike/as_admin.h`, `aerospike/as_status.h`,
`aerospike/as_command.h` and the password module are not among the sources at
hand; what this file takes from them is collected here as parameters. -/

/-- Constants and pure collaborators the admin module is compiled against.
`AS_USER_SIZE` and `AS_ROLE_SIZE` are sizes of character arrays that hold a
terminator, so they are at least 1 in any build. -/
structure Config where
  /-- byte order of the host -/
  host : ByteOrder
  /-- size of the `user` array of a record, terminator included -/
  AS_USER_SIZE : Nat
  /-- size of one `roles[i]` array of a record, terminator included -/
  AS_ROLE_SIZE : Nat
  /-- size of the on-stack request and reply buffer -/
  AS_STACK_BUF_SIZE : Nat
  /-- status for "no node available" -/
  AEROSPIKE_ERR_CLIENT : Int
  /-- status for a failed send on the streaming path -/
  AEROSPIKE_ERR_TIMEOUT : Int
  /-- the password hash, as the C string left in `hash` -/
  as_password_get_constant_hash : List Nat → List Nat

/-- A configuration with the values of the released client, for concrete
evaluations; the hash stands in for the real one. -/
def sampleConfig : Config where
  host := .little
  AS_USER_SIZE := 64
  AS_ROLE_SIZE := 32
  AS_STACK_BUF_SIZE := 16384
  AEROSPIKE_ERR_CLIENT := -1
  AEROSPIKE_ERR_TIMEOUT := 9
  as_password_get_constant_hash := fun pw => 36 :: pw.reverse

/-- Modelled from the spec: the record `as_user_roles` of `aerospike/as_admin.h`
(a user name, a role count and the role names in wire order). A character
array is given by the bytes written to it, from index 0 through the
terminator: `user` is what `strcpy` leaves in the `user` array (empty as long
as nothing was written), `roles[i]` what `as_parse_roles` leaves in the
`i`-th role array. -/
structure as_user_roles where
  user : List Nat
  roles_size : Nat
  roles : List (List Nat)
  deriving DecidableEq, Repr

/-- How a run of a loop of the model ends. -/
inductive Run (α : Type) where
  /-- the call returned -/
  | ret (a : α)
  /-- undefined behaviour that cannot be given a value: `memcpy` with a negative size -/
  | crash
  /-- the step budget of the model ran out before the loop ended -/
  | exhausted
  deriving DecidableEq, Repr

/-! ## Record parser -/

/-- The `for` loop of `as_parse_roles` (lines 304-311) for the `k` entries
still to read: the decoded role arrays and the cursor after them. The bound
`AS_ROLE_SIZE - 1` is computed in the naturals (`AS_ROLE_SIZE` is at least 1). -/
def as_parse_roles_loop (cfg : Config) (m : Mem) : Nat → Int → List (List Nat) × Int
  | 0, p => ([], p)
  | k + 1, p =>
    let len := load8 m p
    let p := p + 1
    let sz := if len ≤ cfg.AS_ROLE_SIZE - 1 then len else cfg.AS_ROLE_SIZE - 1
    let role := loadBytes m p sz ++ [0]
    let p := p + len
    let (rest, p) := as_parse_roles_loop cfg m k p
    (role :: rest, p)

/-- Source `as_parse_roles` (lines 294-314): the new record (its `user` not
yet set) and the cursor after the role list. -/
def as_parse_roles (cfg : Config) (m : Mem) (p : Int) : as_user_roles × Int :=
  let size := load8 m p
  let p := p + 1
  let (roles, p) := as_parse_roles_loop cfg m size p
  ({ user := [], roles_size := size, roles := roles }, p)

/-- Locals of `as_parse_users` that live across the fields of one record:
the cursor, the bytes written to the array `user` (through its terminator)
and the `user_roles` pointer (`none` is the null pointer). -/
structure FieldState where
  p : Int
  user : List Nat
  user_roles : Option as_user_roles
  deriving DecidableEq, Repr

/-- Field header decode of `as_parse_users` (lines 344-347): the payload
size `len`, the field id and the cursor after the 5 header bytes. The
conversion of the 32-bit pattern to `int` and `len--` wrap in two's complement. -/
def parse_field_header (cfg : Config) (m : Mem) (p : Int) : Int × Nat × Int :=
  let len := toI32 (cf_swap_from_be32 cfg.host (load32 cfg.host m p))
  let p := p + 4
  let id := load8 m p
  let p := p + 1
  let len := toI32 (len - 1)
  (len, id, p)

/-- One turn of the field loop of `as_parse_users` (lines 344-360).
`none`: `memcpy` was called with a negative size. -/
def parse_field (cfg : Config) (m : Mem) (st : FieldState) : Option FieldState :=
  let (len, id, p) := parse_field_header cfg m st.p
  if id = USER then
    let sz : Int := if len ≤ (cfg.AS_USER_SIZE : Int) - 1 then len else (cfg.AS_USER_SIZE : Int) - 1
    if sz < 0 then none
    else some { p := p + len, user := loadBytes m p sz.toNat ++ [0], user_roles := st.user_roles }
  else if id = ROLES then
    let (ur, p) := as_parse_roles cfg m p
    some { p := p, user := st.user, user_roles := some ur }
  else
    some { p := p + len, user := st.user, user_roles := st.user_roles }

/-- The field loop of `as_parse_users` (lines 343-361) for the `k` fields
still to read. -/
def parse_fields (cfg : Config) (m : Mem) : Nat → FieldState → Option FieldState
  | 0, st => some st
  | k + 1, st =>
    match parse_field cfg m st with
    | none => none
    | some st => parse_fields cfg m k st

/-- The C string held in a character array whose written bytes are `a`:
the bytes ahead of the first NUL. -/
def cstr (a : List Nat) : List Nat := a.takeWhile (fun b => b != 0)

/-- Tail of the record loop of `as_parse_users` (lines 363-372): the result
vector after the record that the field loop left in `st`. -/
def emit_record (st : FieldState) (users : List as_user_roles) : List as_user_roles :=
  if st.user.headD 0 = 0 ∧ st.user_roles = none then users
  else
    let user_roles : as_user_roles :=
      match st.user_roles with
      | some ur => ur
      | none => { user := [], roles_size := 0, roles := [] }
    users ++ [{ user_roles with user := cstr st.user ++ [0] }]

/-- The `while (p < end)` loop of `as_parse_users` (lines 330-374), with a
step budget: the status returned, the result vector and the cursor at exit. -/
def as_parse_users_loop (cfg : Config) (m : Mem) (end_ : Int) :
    Nat → Int → List as_user_roles → Run (Int × List as_user_roles × Int)
  | 0, _, _ => .exhausted
  | fuel + 1, p, users =>
    if p < end_ then
      let result := load8 m (p + 1)
      if result ≠ 0 then .ret (result, users, p)
      else
        let field_count := load8 m (p + 3)
        let p := p + HEADER_REMAINING
        match parse_fields cfg m field_count { p := p, user := [0], user_roles := none } with
        | none => .crash
        | some st => as_parse_users_loop cfg m end_ fuel st.p (emit_record st users)
    else .ret (0, users, p)

/-- Source `as_parse_users` (lines 316-375): the status returned and the
result vector. -/
def as_parse_users (cfg : Config) (m : Mem) (buffer : Int) (size : Int)
    (users : List as_user_roles) (fuel : Nat) : Run (Int × List as_user_roles) :=
  match as_parse_users_loop cfg m (buffer + size) fuel buffer users with
  | .ret (status, users, _) => .ret (status, users)
  | .crash => .crash
  | .exhausted => .exhausted

/-! ## Reads of the record parser

The byte ranges of the decode buffer that the parser reads, as pairs of a
start address and a byte count, in the order of the reads. -/

/-- Ranges read by the `for` loop of `as_parse_roles` (lines 304-311): per
entry the length byte `*p++` and the `sz` bytes taken by `memcpy`. -/
def as_parse_roles_loop_reads (cfg : Config) (m : Mem) : Nat → Int → List (Int × Nat)
  | 0, _ => []
  | k + 1, p =>
    let len := load8 m p
    let sz := if len ≤ cfg.AS_ROLE_SIZE - 1 then len else cfg.AS_ROLE_SIZE - 1
    (p, 1) :: (p + 1, sz) :: as_parse_roles_loop_reads cfg m k (p + 1 + len)

/-- Ranges read by `as_parse_roles` (lines 294-314): the count byte, then
the entries. -/
def as_parse_roles_reads (cfg : Config) (m : Mem) (p : Int) : List (Int × Nat) :=
  (p, 1) :: as_parse_roles_loop_reads cfg m (load8 m p) (p + 1)

/-- Ranges read by one turn of the field loop of `as_parse_users` (lines
344-360): the 4 length bytes, the id byte, and what the branch of the id reads. -/
def parse_field_reads (cfg : Config) (m : Mem) (st : FieldState) : List (Int × Nat) :=
  let (len, id, p) := parse_field_header cfg m st.p
  (st.p, 4) :: (st.p + 4, 1) ::
    (if id = USER then
      let sz : Int :=
        if len ≤ (cfg.AS_USER_SIZE : Int) - 1 then len else (cfg.AS_USER_SIZE : Int) - 1
      if sz < 0 then [] else [(p, sz.toNat)]
    else if id = ROLES then as_parse_roles_reads cfg m p
    else [])

/-- Ranges read by the field loop of `as_parse_users` for the `k` fields
still to read. -/
def parse_fields_reads (cfg : Config) (m : Mem) : Nat → FieldState → List (Int × Nat)
  | 0, _ => []
  | k + 1, st =>
    parse_field_reads cfg m st ++
      match parse_field cfg m st with
      | none => []
      | some st => parse_fields_reads cfg m k st

/-- Ranges read by the `while (p < end)` loop of `as_parse_users` (lines
330-374): per record the result byte `p[1]`, the field count `p[3]` and the
reads of the field loop. -/
def as_parse_users_loop_reads (cfg : Config) (m : Mem) (end_ : Int) :
    Nat → Int → List (Int × Nat)
  | 0, _ => []
  | fuel + 1, p =>
    if p < end_ then
      (p + 1, 1) ::
        (if load8 m (p + 1) ≠ 0 then []
        else
          (p + 3, 1) ::
            (parse_fields_reads cfg m (load8 m (p + 3))
                { p := p + HEADER_REMAINING, user := [0], user_roles := none } ++
              match parse_fields cfg m (load8 m (p + 3))
                  { p := p + HEADER_REMAINING, user := [0], user_roles := none } with
              | none => []
              | some st => as_parse_users_loop_reads cfg m end_ fuel st.p))
    else []

/-- Ranges of the decode buffer read by `as_parse_users` (lines 316-375). -/
def as_parse_users_reads (cfg : Config) (m : Mem) (buffer : Int) (size : Int) (fuel : Nat) :
    List (Int × Nat) :=
  as_parse_users_loop_reads cfg m (buffer + size) fuel buffer

/-- Every range of the list lies inside `[lo, hi)`. -/
def ReadsWithin (lo hi : Int) (spans : List (Int × Nat)) : Prop :=
  ∀ s ∈ spans, lo ≤ s.1 ∧ s.1 + (s.2 : Int) ≤ hi

instance (lo hi : Int) (spans : List (Int × Nat)) : Decidable (ReadsWithin lo hi spans) := by
  unfold ReadsWithin; infer_instance

/-- The declared wire length of the field at `p` (4 bytes, big-endian) lies
between 1 and 2^31 - 1. -/
def fieldLengthLegal (m : Mem) (p : Int) : Bool :=
  decide (1 ≤ ofBE (loadBytes m p 4) ∧ ofBE (loadBytes m p 4) ≤ 2 ^ 31 - 1)

/-- Every field that the field loop of `as_parse_users` meets in its `k`
turns from `st` declares a wire length between 1 and 2^31 - 1. -/
def fieldLengthsLegal (cfg : Config) (m : Mem) : Nat → FieldState → Bool
  | 0, _ => true
  | k + 1, st =>
    fieldLengthLegal m st.p &&
      match parse_field cfg m st with
      | none => true
      | some st => fieldLengthsLegal cfg m k st

/-- Every field that the record loop of `as_parse_users` meets in its first
`n` turns from `p` declares a wire length between 1 and 2^31 - 1. -/
def recordsLegal (cfg : Config) (m : Mem) (end_ : Int) : Nat → Int → Bool
  | 0, _ => true
  | n + 1, p =>
    if p < end_ ∧ load8 m (p + 1) = 0 then
      fieldLengthsLegal cfg m (load8 m (p + 3))
          { p := p + HEADER_REMAINING, user := [0], user_roles := none } &&
        match parse_fields cfg m (load8 m (p + 3))
            { p := p + HEADER_REMAINING, user := [0], user_roles := none } with
        | none => true
        | some st => recordsLegal cfg m end_ n st.p
    else true

/-! ## Transport

The cluster, the connection pool and the sockets are external collaborators.
The spec gives their interface: `acquire_node() -> Node | None`,
`lease_connection(node) -> Connection | Err`, `return_connection`,
`close_connection`, `release_node`, `read_exact(conn, n, deadline)`,
`write_all(conn, bytes, deadline)`. A `World` fixes what each of them answers
during one call and records what the client did to them. Deadlines are
passed through unchanged by the client and are not part of the model. -/

/-- Calls on the node and connection collaborators, in the order made. -/
inductive Event where
  | as_node_get_random
  | as_node_get_connection
  | as_socket_write (bytes : List Nat)
  | as_socket_read (n : Nat)
  | as_close
  | as_node_put_connection
  | as_node_release
  deriving DecidableEq, Repr

/-- Modelled from the spec: the collaborators of one administrative call. -/
structure World where
  /-- whether `as_node_get_random` finds a node -/
  node_available : Bool
  /-- status of `as_node_get_connection` (0: a connection was leased) -/
  connection_status : Int
  /-- status of `as_socket_write_deadline` (0: all bytes written) -/
  write_status : Int
  /-- status of an `as_socket_read_deadline` that cannot be served -/
  read_failure : Int
  /-- the bytes the server sends on the connection, not yet read -/
  incoming : List Nat
  /-- address returned by `cf_malloc` for a request of the given size -/
  cf_malloc : Int → Int
  /-- calls made so far, oldest first -/
  events : List Event

/-- Records a collaborator call. -/
def World.log (w : World) (e : Event) : World := { w with events := w.events ++ [e] }

/-- Modelled from the spec: `as_socket_read_deadline` as `read_exact`: the
next `n` bytes of the connection are stored at `buf` and the status is 0,
or the read fails with a nonzero status when the server does not send `n`
bytes before the deadline (nothing more can then be read from the connection). -/
def as_socket_read_deadline (w : World) (m : Mem) (buf : Int) (n : Nat) :
    World × Mem × Int :=
  let w := w.log (.as_socket_read n)
  if n ≤ w.incoming.length then
    ({ w with incoming := w.incoming.drop n }, storeBytes m buf (w.incoming.take n), 0)
  else
    ({ w with incoming := [] }, m, w.read_failure)

/-- Modelled from the spec: `as_socket_write_deadline` as `write_all`: the
`len` bytes at `buffer` are handed to the connection. -/
def as_socket_write_deadline (w : World) (m : Mem) (buffer : Int) (len : Nat) :
    World × Int :=
  (w.log (.as_socket_write (loadBytes m buffer len)), w.write_status)

/-- Source `as_send` (lines 100-108). -/
def as_send (cfg : Config) (w : World) (m : Mem) (buffer end_ : Int) : World × Mem × Int :=
  let len := toU64 (end_ - buffer)
  let proto := toU64 ((len : Int) - 8) ||| (MSG_VERSION <<< 56) ||| (MSG_TYPE <<< 48)
  let m := store64 cfg.host m buffer (cf_swap_to_be64 cfg.host proto)
  let (w, status) := as_socket_write_deadline w m buffer len
  (w, m, status)

/-- Source `as_execute` (lines 110-152). The deadline computed in lines
113-117 only travels to the socket calls and is left out. -/
def as_execute (cfg : Config) (w : World) (m : Mem) (buffer end_ : Int) : World × Mem × Int :=
  let w := w.log .as_node_get_random
  if ¬ w.node_available then (w, m, cfg.AEROSPIKE_ERR_CLIENT)
  else
    let w := w.log .as_node_get_connection
    let status := w.connection_status
    if status ≠ 0 then (w.log .as_node_release, m, status)
    else
      let (w, m, status) := as_send cfg w m buffer end_
      if status ≠ 0 then ((w.log .as_close).log .as_node_release, m, status)
      else
        let (w, m, status) := as_socket_read_deadline w m buffer HEADER_SIZE
        if status ≠ 0 then ((w.log .as_close).log .as_node_release, m, status)
        else
          ((w.log .as_node_put_connection).log .as_node_release, m, load8 m (buffer + RESULT_CODE))

/-- Source `aerospike_create_user` (lines 184-198). `m` and `buffer` are the
memory and the address of the on-stack array `buffer[AS_STACK_BUF_SIZE]`
(line 190). The encoders are not told the size of the array: a write behind
its last byte is undefined behaviour and ends the run as `crash`. The last
byte an encoder writes is the final zero of `write_header`, the terminator
that `stpcpy` leaves at the position returned (`write_field_string`, and
`write_roles` when it writes a role), or the count byte just ahead of the
position returned (`write_roles` when it writes no role). -/
def aerospike_create_user (cfg : Config) (w : World) (m : Mem) (buffer : Int)
    (user password : List Nat) (roles : List (List Nat)) (roles_size : Int) :
    Run (World × Mem × Int) :=
  let hash := cfg.as_password_get_constant_hash password
  let limit := buffer + (cfg.AS_STACK_BUF_SIZE : Int)
  let p := buffer + 8
  let (m, p) := write_header m p CREATE_USER 3
  if limit < p then .crash
  else
    let (m, p) := write_field_string cfg.host m p USER user
    if limit < p + 1 then .crash
    else
      let (m, p) := write_field_string cfg.host m p PASSWORD hash
      if limit < p + 1 then .crash
      else
        let (m, p) := write_roles cfg.host m p roles roles_size
        if limit < (if roles.take (toU32 roles_size) = [] then p else p + 1) then .crash
        else .ret (as_execute cfg w m buffer p)

/-- Modelled from the spec: the session state kept in `as->cluster`, the
authenticated user name and the password hash cached for it. -/
structure as_cluster where
  user : List Nat
  password : List Nat
  deriving DecidableEq, Repr

/-- Modelled from the spec: `as_cluster_change_password` of
`aerospike/as_cluster.h` (not part of the sources at hand) updates the
session hash after a successful password change: the cached hash becomes
`password`, the user name stays. -/
def as_cluster_change_password (cluster : as_cluster) (_user : List Nat)
    (password : List Nat) : as_cluster :=
  { cluster with password := password }

/-- Source `aerospike_set_password` (lines 211-232). `user` is `none` for a
null pointer; `cluster` is `as->cluster`, handed back as the call leaves it. -/
def aerospike_set_password (cfg : Config) (w : World) (m : Mem) (buffer : Int)
    (cluster : as_cluster) (user : Option (List Nat)) (password : List Nat) :
    World × Mem × as_cluster × Int :=
  let hash := cfg.as_password_get_constant_hash password
  let user := match user with
    | none => cluster.user
    | some u => u
  let p := buffer + 8
  let (m, p) := write_header m p SET_PASSWORD 2
  let (m, p) := write_field_string cfg.host m p USER user
  let (m, p) := write_field_string cfg.host m p PASSWORD hash
  let (w, m, status) := as_execute cfg w m buffer p
  let cluster := if status = 0 then as_cluster_change_password cluster user hash else cluster
  (w, m, cluster, status)

/-! ## Streaming reader -/

/-- Locals of `as_read_user_blocks` that live across blocks. -/
structure BlockState where
  w : World
  m : Mem
  buf : Int
  buffer_size : Int
  users : List as_user_roles

/-- The branch `if (size > 0)` of the loop of `as_read_user_blocks` (lines
395-409), entered after the header read left the world `w` and the memory
`m`: the state and the status after it, and whether it left the loop through
`break`. `fuel` is the step budget handed to the record parser. -/
def as_read_user_blocks_payload (cfg : Config) (st : BlockState) (w : World) (m : Mem)
    (size : Int) (fuel : Nat) : Run (BlockState × Int × Bool) :=
  let grow : Bool := size > st.buffer_size
  let buffer_size := if grow then size else st.buffer_size
  let buf := if grow then w.cf_malloc size else st.buf
  let (w, m, rd) := as_socket_read_deadline w m buf size.toNat
  if rd ≠ 0 then
    .ret ({ w := w, m := m, buf := buf, buffer_size := buffer_size, users := st.users },
      -1, true)
  else
    match as_parse_users cfg m buf size st.users fuel with
    | .crash => .crash
    | .exhausted => .exhausted
    | .ret (status, users) =>
      .ret ({ w := w, m := m, buf := buf, buffer_size := buffer_size, users := users },
        status, false)

/-- One turn of the `while (status == 0)` loop of `as_read_user_blocks`
(lines 387-413): the state and the status after it, and whether the turn
left the loop through `break`. -/
def as_read_user_blocks_body (cfg : Config) (st : BlockState) (fuel : Nat) :
    Run (BlockState × Int × Bool) :=
  let (w, m, rd) := as_socket_read_deadline st.w st.m st.buf 8
  if rd ≠ 0 then .ret ({ st with w := w, m := m }, -1, true)
  else
    let proto := cf_swap_from_be64 cfg.host (load64 cfg.host m st.buf)
    let size := toI32 ((proto &&& 0xFFFFFFFFFFFF : Nat) : Int)
    if size > 0 then as_read_user_blocks_payload cfg st w m size fuel
    else .ret ({ st with w := w, m := m }, 0, true)

/-- The `while (status == 0)` loop of `as_read_user_blocks` (lines 386-414),
entered with `status == 0`, with a step budget: the state and the status at
the exit of the loop. -/
def as_read_user_blocks_loop (cfg : Config) :
    Nat → BlockState → Run (BlockState × Int)
  | 0, _ => .exhausted
  | fuel + 1, st =>
    match as_read_user_blocks_body cfg st (fuel + 1) with
    | .crash => .crash
    | .exhausted => .exhausted
    | .ret (st, status, left) =>
      if left = false ∧ status = 0 then as_read_user_blocks_loop cfg fuel st
      else .ret (st, status)

/-- Source `as_read_user_blocks` (lines 377-420): the world and memory
after the call, the result vector and the status returned. -/
def as_read_user_blocks (cfg : Config) (w : World) (m : Mem) (buffer : Int)
    (users : List as_user_roles) (fuel : Nat) :
    Run (World × Mem × List as_user_roles × Int) :=
  match as_read_user_blocks_loop cfg fuel
      { w := w, m := m, buf := buffer, buffer_size := cfg.AS_STACK_BUF_SIZE, users := users } with
  | .crash => .crash
  | .exhausted => .exhausted
  | .ret (st, status) =>
    .ret (st.w, st.m, st.users, if status = QUERY_END then 0 else status)

/-- Source `as_read_users` (lines 422-462). The deadline computed in lines
425-429 only travels to the socket calls and is left out. -/
def as_read_users (cfg : Config) (w : World) (m : Mem) (buffer end_ : Int)
    (users : List as_user_roles) (fuel : Nat) :
    Run (World × Mem × List as_user_roles × Int) :=
  let w := w.log .as_node_get_random
  if ¬ w.node_available then .ret (w, m, users, cfg.AEROSPIKE_ERR_CLIENT)
  else
    let w := w.log .as_node_get_connection
    let status := w.connection_status
    if status ≠ 0 then .ret (w.log .as_node_release, m, users, status)
    else
      let (w, m, sent) := as_send cfg w m buffer end_
      if sent ≠ 0 then
        .ret ((w.log .as_close).log .as_node_release, m, users, cfg.AEROSPIKE_ERR_TIMEOUT)
      else
        match as_read_user_blocks cfg w m buffer users fuel with
        | .crash => .crash
        | .exhausted => .exhausted
        | .ret (w, m, users, status) =>
          let w := if status ≥ 0 then w.log .as_node_put_connection else w.log .as_close
          .ret (w.log .as_node_release, m, users, status)

/-- What `aerospike_query_users` hands back: the status, and the output
arguments `*user_roles` (`none` is the null pointer) and `*user_roles_size`. -/
structure QueryUsersResult where
  status : Int
  user_roles : Option (List as_user_roles)
  user_roles_size : Nat
  deriving DecidableEq, Repr

/-- Modelled from the spec: `cf_free` of `citrusleaf/alloc.h` (not part of
the sources at hand) on a heap given by the start addresses of its live
blocks: the block that starts at `a` is released; `none` when `a` is not the
start of a live block, which is undefined behaviour. -/
def cf_free (heap : List Int) (a : Int) : Option (List Int) :=
  if a ∈ heap then some (heap.erase a) else none

/-- Modelled from the spec: the results collection `as_vector` of
`aerospike/as_vector.h` (not part of the sources at hand; the spec treats the
container as an external collaborator) for a vector set up by
`as_vector_init`: `list` is the address of the slot array, a heap block,
`item_size` the size of a slot and `size` the number of items appended. -/
structure as_vector where
  list : Int
  item_size : Nat
  size : Nat
  deriving DecidableEq, Repr

/-- Modelled from the spec: `as_vector_get(vector, index)`, the address of
slot `index` of the slot array. The pointer stored in the slot is what
`as_vector_get_ptr` returns, the accessor used at lines 481, 516 and 523. -/
def as_vector_get (vector : as_vector) (index : Nat) : Int :=
  vector.list + ((vector.item_size * index : Nat) : Int)

/-- Modelled from the spec: `as_vector_destroy` for a vector set up by
`as_vector_init`: the slot array is freed. -/
def as_vector_destroy (heap : List Int) (vector : as_vector) : Option (List Int) :=
  cf_free heap vector.list

/-- The `for` loop of `as_free_users` (lines 467-470) for the `k` indices
from `i` on: `cf_free` is handed what `as_vector_get` returns. -/
def as_free_users_loop (users : as_vector) : Nat → Nat → List Int → Option (List Int)
  | 0, _, heap => some heap
  | k + 1, i, heap =>
    match cf_free heap (as_vector_get users i) with
    | none => none
    | some heap => as_free_users_loop users k (i + 1) heap

/-- Source `as_free_users` (lines 464-472): the heap after the call, `none`
when a `cf_free` of the call is undefined behaviour. -/
def as_free_users (heap : List Int) (users : as_vector) (offset : Int) : Option (List Int) :=
  match as_free_users_loop users (users.size - toU32 offset) (toU32 offset) heap with
  | none => none
  | some heap => as_vector_destroy heap users

/-- Source `aerospike_query_users` (lines 545-568). `m` and `buffer` are the
memory and the address of the on-stack buffer. The vector `users` is set up
by `as_vector_init(&users, sizeof(as_user_roles*), 100)`: its slot array is
the heap block `cf_malloc(8 * 100)` and it holds one pointer per record
appended. The heap handed to `as_free_users` lists the slot array alone: the
blocks of the records are disjoint from it, so that no slot address is the
start of one of them. -/
def aerospike_query_users (cfg : Config) (w : World) (m : Mem) (buffer : Int) (fuel : Nat) :
    Run (World × QueryUsersResult) :=
  let p := buffer + 8
  let (m, p) := write_header m p QUERY_USERS 0
  let list := w.cf_malloc (8 * 100)
  let users : List as_user_roles := []
  match as_read_users cfg w m buffer p users fuel with
  | .crash => .crash
  | .exhausted => .exhausted
  | .ret (w, _, users, status) =>
    if status = 0 then
      .ret (w, { status := status, user_roles := some users, user_roles_size := users.length })
    else
      match as_free_users [list] { list := list, item_size := 8, size := users.length } 0 with
      | none => .crash
      | some _ => .ret (w, { status := status, user_roles := none, user_roles_size := 0 })

/-! ## Wire forms used to state the properties -/

/-- Content of a C string: bytes, none of them NUL. -/
def NulFree (s : List Nat) : Prop := ∀ b ∈ s, 0 < b ∧ b < 256

instance (s : List Nat) : Decidable (NulFree s) := by unfold NulFree; infer_instance

/-- Wire form of the entries of a role list: per role one length byte and
the raw bytes of the name. -/
def roleEntries : List (List Nat) → List Nat
  | [] => []
  | r :: rest => r.length :: (r ++ roleEntries rest)

/-- Wire form of a field: 4-byte big-endian length `payload + 1`, the id
byte, the payload. -/
def fieldBytes (id : Nat) (payload : List Nat) : List Nat :=
  beBytes 4 (payload.length + 1) ++ id :: payload

/-- Wire form of the payload of a Roles field: the count byte and the entries. -/
def rolesPayload (roles : List (List Nat)) : List Nat :=
  roles.length :: roleEntries roles

/-- Wire form of the 16-byte command header. -/
def commandHeader (command field_count : Nat) : List Nat :=
  [0, 0, command, field_count] ++ List.replicate 12 0

/-- Wire form of the 8-byte proto header written by `as_send`. -/
def protoHeader (payload_length : Nat) : List Nat :=
  [MSG_VERSION, MSG_TYPE] ++ beBytes 6 payload_length

/-- Memory `m` holds the bytes `bs` at address `a`. -/
def Holds (m : Mem) (a : Int) (bs : List Nat) : Prop := loadBytes m a bs.length = bs

instance (m : Mem) (a : Int) (bs : List Nat) : Decidable (Holds m a bs) := by
  unfold Holds; infer_instance

/-- A field of a reply record, as the server lays it out. -/
inductive WireField where
  /-- a User field carrying a name -/
  | user (name : List Nat)
  /-- a Roles field carrying role names -/
  | roles (names : List (List Nat))
  /-- a field with any other id -/
  | other (id : Nat) (payload : List Nat)
  deriving DecidableEq, Repr

/-- Bytes of a reply field. -/
def WireField.encode : WireField → List Nat
  | .user name => fieldBytes USER name
  | .roles names => fieldBytes ROLES (rolesPayload names)
  | .other id payload => fieldBytes id payload

/-- Size constraints of the wire format on a reply field: the wire length
fits a positive `int`, a role count and a role length fit a byte, and a field
that is neither User nor Roles has another id byte. -/
def WireField.WF : WireField → Prop
  | .user name => name.length + 1 < 2 ^ 31
  | .roles names => names.length ≤ 255 ∧ ∀ r ∈ names, r.length ≤ 255
  | .other id payload => id < 256 ∧ id ≠ USER ∧ id ≠ ROLES ∧ payload.length + 1 < 2 ^ 31

instance (f : WireField) : Decidable f.WF := by
  cases f <;> unfold WireField.WF <;> infer_instance

/-- A reply record: the 16 header bytes (`b0`, result code, `b2`, field
count, 12 more bytes) and its fields. -/
structure WireRecord where
  b0 : Nat
  result : Nat
  b2 : Nat
  pad : List Nat
  fields : List WireField
  deriving DecidableEq, Repr

/-- Bytes of the fields of a record, in order. -/
def encodeFields : List WireField → List Nat
  | [] => []
  | f :: fs => f.encode ++ encodeFields fs

/-- Bytes of a reply record. -/
def WireRecord.encode (r : WireRecord) : List Nat :=
  [r.b0, r.result, r.b2, r.fields.length] ++ r.pad ++ encodeFields r.fields

/-- Size constraints of the wire format on a reply record. -/
def WireRecord.WF (r : WireRecord) : Prop :=
  r.pad.length = 12 ∧ r.fields.length ≤ 255 ∧ ∀ f ∈ r.fields, f.WF

instance (r : WireRecord) : Decidable r.WF := by
  unfold WireRecord.WF; infer_instance

/-- Bytes of the records of a block, in order. -/
def encodeRecords : List WireRecord → List Nat
  | [] => []
  | r :: rs => r.encode ++ encodeRecords rs

/-- What one field does to the name array and the role record of the record
being decoded, with names cut to the array bounds. -/
def WireField.apply (cfg : Config) (st : List Nat × Option as_user_roles) :
    WireField → List Nat × Option as_user_roles
  | .user name => (name.take (cfg.AS_USER_SIZE - 1) ++ [0], st.2)
  | .roles names =>
    (st.1, some { user := [], roles_size := names.length,
                  roles := names.map (fun r => r.take (cfg.AS_ROLE_SIZE - 1) ++ [0]) })
  | .other _ _ => st

/-- Name array and role record after all the fields of a record. -/
def WireRecord.decoded (cfg : Config) (r : WireRecord) : List Nat × Option as_user_roles :=
  r.fields.foldl (WireField.apply cfg) ([0], none)

/-- The records a reply record contributes to the result: none when it has
neither a nonempty user name nor a Roles field, else one. -/
def WireRecord.emitted (cfg : Config) (r : WireRecord) : List as_user_roles :=
  let d := r.decoded cfg
  if d.1.headD 0 = 0 ∧ d.2 = none then []
  else [{ user := cstr d.1 ++ [0],
          roles_size := (d.2.getD { user := [], roles_size := 0, roles := [] }).roles_size,
          roles := (d.2.getD { user := [], roles_size := 0, roles := [] }).roles }]

/-- The records a block contributes to the result, in wire order. -/
def emittedRecords (cfg : Config) : List WireRecord → List as_user_roles
  | [] => []
  | r :: rs => r.emitted cfg ++ emittedRecords cfg rs

/-- Bytes of one proto-framed block: the 8-byte header (version, type,
48-bit big-endian payload length) and the payload. -/
def blockBytes (version msg_type : Nat) (payload : List Nat) : List Nat :=
  [version, msg_type] ++ beBytes 6 payload.length ++ payload

/-- A block of a streaming reply whose payload is a sequence of records. -/
structure WireBlock where
  version : Nat
  msg_type : Nat
  records : List WireRecord
  deriving DecidableEq, Repr

/-- Bytes of a block of a streaming reply. -/
def WireBlock.encode (b : WireBlock) : List Nat :=
  blockBytes b.version b.msg_type (encodeRecords b.records)

/-- A well-formed block whose records all carry result code 0: it has at
least one record, its payload length fits a positive `int`, and its records
respect the size constraints of the wire format. -/
def WireBlock.WF (b : WireBlock) : Prop :=
  b.records ≠ [] ∧ (encodeRecords b.records).length < 2 ^ 31
    ∧ ∀ r ∈ b.records, r.WF ∧ r.result = 0

instance (b : WireBlock) : Decidable b.WF := by
  unfold WireBlock.WF; infer_instance

/-- Bytes of a sequence of blocks. -/
def encodeBlocks : List WireBlock → List Nat
  | [] => []
  | b :: bs => b.encode ++ encodeBlocks bs

/-- The records a sequence of blocks contributes to the result: block
order, then record order inside a block. -/
def emittedBlocks (cfg : Config) : List WireBlock → List as_user_roles
  | [] => []
  | b :: bs => emittedRecords cfg b.records ++ emittedBlocks cfg bs

/-- State of the block reader after the header and the payload of a block
of `n` bytes were read. -/
def afterBlock (st : BlockState) (hdr payload rest : List Nat) (users : List as_user_roles) :
    BlockState :=
  let grow : Bool := (payload.length : Int) > st.buffer_size
  let buf := if grow then st.w.cf_malloc payload.length else st.buf
  { w := { st.w with
            incoming := rest
            events := st.w.events ++ [.as_socket_read 8] ++ [.as_socket_read payload.length] }
    m := storeBytes (storeBytes st.m st.buf hdr) buf payload
    buf := buf
    buffer_size := if grow then payload.length else st.buffer_size
    users := users }


/-- Conditions on a stream of blocks: every block is well formed with
result codes 0, and everything the server sends is a byte. -/
def StreamOK (bs : List WireBlock) : Prop :=
  ∀ b ∈ bs, b.WF ∧ b.version < 256 ∧ b.msg_type < 256 ∧ ∀ x ∈ encodeRecords b.records, x < 256

instance (bs : List WireBlock) : Decidable (StreamOK bs) := by
  unfold StreamOK; infer_instance

/-- Payload of the request of `aerospike_create_user`, after the proto header. -/
def createUserBody (user hash : List Nat) (roles : List (List Nat)) : List Nat :=
  commandHeader CREATE_USER 3
    ++ (fieldBytes USER user ++ (fieldBytes PASSWORD hash ++ fieldBytes ROLES (rolesPayload roles)))

/-- Payload of the request of `aerospike_set_password`, after the proto header. -/
def setPasswordBody (user hash : List Nat) : List Nat :=
  commandHeader SET_PASSWORD 2 ++ (fieldBytes USER user ++ fieldBytes PASSWORD hash)

/-- Whether a reply field is a Roles field. -/
def WireField.isRoles : WireField → Bool
  | .roles _ => true
  | _ => false

/-- The record `r` with the field `f` inserted ahead of its `k`-th field
(after the last one when `k` is the number of fields); the field count of
the wire form grows by one. -/
def insertField (r : WireRecord) (k : Nat) (f : WireField) : WireRecord :=
  { r with fields := r.fields.take k ++ f :: r.fields.drop k }

/-- Bytes of a record whose fields are `fs1`, a Roles field with the role
names `names` and `fs2`, the 4 length bytes of the Roles field being
`lenBytes` in place of the big-endian payload length plus one. -/
def encodeWithRolesLength (r : WireRecord) (fs1 : List WireField) (names : List (List Nat))
    (fs2 : List WireField) (lenBytes : List Nat) : List Nat :=
  ([r.b0, r.result, r.b2, (fs1 ++ WireField.roles names :: fs2).length] ++ r.pad)
    ++ (encodeFields fs1 ++ ((lenBytes ++ ROLES :: rolesPayload names) ++ encodeFields fs2))

/-! ## Sample data for concrete evaluations -/

/-- A world in which a node is found, a connection is leased, writes
succeed and the server sends `incoming`. -/
def sampleWorld (incoming : List Nat) : World where
  node_available := true
  connection_status := 0
  write_status := 0
  read_failure := 9
  incoming := incoming
  cf_malloc := fun _ => 1000000
  events := []

/-- A record with no User field and a Roles field that lists no role. -/
def emptyRolesRecord : WireRecord :=
  { b0 := 0, result := 0, b2 := 0, pad := List.replicate 12 0, fields := [.roles []] }

/-- The reply record of user "bob" with the role "read". -/
def bobRecord : WireRecord :=
  { b0 := 0, result := 0, b2 := 0, pad := List.replicate 12 0,
    fields := [.user [98, 111, 98], .roles [[114, 101, 97, 100]]] }

/-- The reply record of user "carol", with no Roles field. -/
def carolRecord : WireRecord :=
  { b0 := 0, result := 0, b2 := 0, pad := List.replicate 12 0,
    fields := [.user [99, 97, 114, 111, 108]] }

/-- The block of the records of "bob" and "carol". -/
def bobCarolBlock : WireBlock :=
  { version := 0, msg_type := 2, records := [bobRecord, carolRecord] }

/-- A record header that announces one field, followed in memory by 5 bytes
that are not part of the block. -/
def truncatedRecordMem : Mem :=
  storeBytes zeroMem 0 ([0, 0, 0, 1] ++ List.replicate 12 0 ++ [0, 0, 0, 1, 5])

/-- A block of 32 bytes made of two record headers, the second announcing one
field, followed in memory by 5 bytes that are not part of the block: the
length bytes ff ff ff ec and the id byte 5. -/
def staleFieldMem : Mem :=
  storeBytes zeroMem 0
    (List.replicate 16 0 ++ ([0, 0, 0, 1] ++ List.replicate 12 0) ++ [255, 255, 255, 236, 5])

/-- Every event of the list is a socket read. -/
def OnlyReads (es : List Event) : Prop := ∀ e ∈ es, ∃ n, e = Event.as_socket_read n

/-- Number of node releases in a list of events. -/
def releases (es : List Event) : Nat := es.count .as_node_release

/-- Number of times a connection is closed or returned to the pool. -/
def disposals (es : List Event) : Nat :=
  es.count .as_close + es.count .as_node_put_connection

/-! ## Memory and byte-order lemmas -/

theorem load8_lt (m : Mem) (a : Int) : load8 m a < 256 := by
  unfold load8; omega

theorem load8_store8_same (m : Mem) (a : Int) (v : Nat) :
    load8 (store8 m a v) a = v % 256 := by
  simp [load8, store8]

theorem load8_store8_ne (m : Mem) (a x : Int) (v : Nat) (h : x ≠ a) :
    load8 (store8 m a v) x = load8 m x := by
  simp [load8, store8, h]

theorem load8_storeBytes_out (bs : List Nat) (m : Mem) (a x : Int)
    (h : x < a ∨ a + bs.length ≤ x) :
    load8 (storeBytes m a bs) x = load8 m x := by
  induction bs generalizing m a with
  | nil => rfl
  | cons b bs ih =>
    simp only [storeBytes]
    rw [ih]
    · apply load8_store8_ne
      simp only [List.length_cons, Nat.cast_add, Nat.cast_one] at h
      omega
    · simp only [List.length_cons, Nat.cast_add, Nat.cast_one] at h
      omega

theorem loadBytes_length (m : Mem) (a : Int) (n : Nat) : (loadBytes m a n).length = n := by
  induction n generalizing a with
  | zero => rfl
  | succ n ih => simp [loadBytes, ih]

theorem loadBytes_congr (m m' : Mem) (n : Nat) (a : Int)
    (h : ∀ x, a ≤ x → x < a + n → load8 m x = load8 m' x) :
    loadBytes m a n = loadBytes m' a n := by
  induction n generalizing a with
  | zero => rfl
  | succ n ih =>
    simp only [loadBytes]
    rw [h a (le_refl _) (by push_cast; omega), ih]
    intro x h1 h2
    exact h x (by omega) (by push_cast; omega)

theorem loadBytes_add (m : Mem) (a : Int) (n k : Nat) :
    loadBytes m a (n + k) = loadBytes m a n ++ loadBytes m (a + n) k := by
  induction n generalizing a with
  | zero => simp [loadBytes]
  | succ n ih =>
    rw [Nat.add_right_comm]
    simp only [loadBytes, List.cons_append, ih]
    congr 3
    push_cast; ring

theorem loadBytes_storeBytes_out (bs : List Nat) (m : Mem) (a b : Int) (n : Nat)
    (h : b + n ≤ a ∨ a + bs.length ≤ b) :
    loadBytes (storeBytes m a bs) b n = loadBytes m b n := by
  apply loadBytes_congr
  intro x h1 h2
  apply load8_storeBytes_out
  omega

theorem loadBytes_store8_out (m : Mem) (a b : Int) (v n : Nat)
    (h : b + n ≤ a ∨ a < b) :
    loadBytes (store8 m a v) b n = loadBytes m b n := by
  apply loadBytes_congr
  intro x h1 h2
  apply load8_store8_ne
  omega

theorem loadBytes_storeBytes_same (bs : List Nat) (m : Mem) (a : Int)
    (h : ∀ b ∈ bs, b < 256) :
    loadBytes (storeBytes m a bs) a bs.length = bs := by
  induction bs generalizing m a with
  | nil => rfl
  | cons b bs ih =>
    simp only [storeBytes, List.length_cons, loadBytes]
    rw [ih _ _ (fun x hx => h x (List.mem_cons_of_mem _ hx))]
    rw [load8_storeBytes_out _ _ _ _ (Or.inl (by omega)), load8_store8_same]
    rw [Nat.mod_eq_of_lt (h b (List.mem_cons_self _ _))]

theorem loadBytes_one (m : Mem) (a : Int) : loadBytes m a 1 = [load8 m a] := rfl

/-! byte order -/

theorem leBytes_length (w v : Nat) : (leBytes w v).length = w := by
  induction w generalizing v with
  | zero => rfl
  | succ w ih => simp [leBytes, ih]

theorem beBytes_length (w v : Nat) : (beBytes w v).length = w := by
  simp [beBytes, leBytes_length]

theorem leBytes_lt (w v : Nat) : ∀ b ∈ leBytes w v, b < 256 := by
  induction w generalizing v with
  | zero => simp [leBytes]
  | succ w ih =>
    intro b hb
    simp only [leBytes, List.mem_cons] at hb
    rcases hb with rfl | hb
    · omega
    · exact ih _ b hb

theorem beBytes_lt (w v : Nat) : ∀ b ∈ beBytes w v, b < 256 := by
  intro b hb
  exact leBytes_lt w v b (by simpa [beBytes] using hb)

theorem ofLE_leBytes (w v : Nat) : ofLE (leBytes w v) = v % 256 ^ w := by
  induction w generalizing v with
  | zero => simp [leBytes, ofLE, Nat.mod_one]
  | succ w ih =>
    simp only [leBytes, ofLE, ih]
    rw [pow_succ, Nat.mul_comm (256 ^ w) 256, Nat.mod_mul]

theorem leBytes_ofLE (bs : List Nat) (h : ∀ b ∈ bs, b < 256) :
    leBytes bs.length (ofLE bs) = bs := by
  induction bs with
  | nil => rfl
  | cons b bs ih =>
    have hb := h b (List.mem_cons_self _ _)
    simp only [List.length_cons, leBytes, ofLE]
    rw [Nat.add_mul_mod_self_left, Nat.mod_eq_of_lt hb]
    have : (b + 256 * ofLE bs) / 256 = ofLE bs := by omega
    rw [this, ih (fun x hx => h x (List.mem_cons_of_mem _ hx))]

theorem leBytes_mod (w v : Nat) : leBytes w (v % 256 ^ w) = leBytes w v := by
  induction w generalizing v with
  | zero => rfl
  | succ w ih =>
    simp only [leBytes]
    have h1 : v % 256 ^ (w + 1) % 256 = v % 256 := by
      rw [pow_succ, Nat.mul_comm]
      exact Nat.mod_mul_right_mod _ _ _
    have h2 : v % 256 ^ (w + 1) / 256 = (v / 256) % 256 ^ w := by
      rw [pow_succ, Nat.mul_comm, Nat.mod_mul_right_div_self]
    rw [h1, h2, ih]

theorem ofLE_lt (bs : List Nat) (h : ∀ b ∈ bs, b < 256) : ofLE bs < 256 ^ bs.length := by
  induction bs with
  | nil => simp [ofLE]
  | cons b bs ih =>
    have hb := h b (List.mem_cons_self _ _)
    have := ih (fun x hx => h x (List.mem_cons_of_mem _ hx))
    simp only [ofLE, List.length_cons, pow_succ]
    omega

theorem hostBytes_to_be32 (host : ByteOrder) (v : Nat) :
    hostBytes host 4 (cf_swap_to_be32 host v) = beBytes 4 v := by
  cases host
  · simp only [hostBytes, cf_swap_to_be32, bswap]
    have := leBytes_ofLE (beBytes 4 v) (beBytes_lt 4 v)
    rwa [beBytes_length] at this
  · simp only [hostBytes, cf_swap_to_be32, beBytes]
    rw [show (2:Nat) ^ 32 = 256 ^ 4 by norm_num, leBytes_mod]

theorem hostBytes_to_be64 (host : ByteOrder) (v : Nat) :
    hostBytes host 8 (cf_swap_to_be64 host v) = beBytes 8 v := by
  cases host
  · simp only [hostBytes, cf_swap_to_be64, bswap]
    have := leBytes_ofLE (beBytes 8 v) (beBytes_lt 8 v)
    rwa [beBytes_length] at this
  · simp only [hostBytes, cf_swap_to_be64, beBytes]
    rw [show (2:Nat) ^ 64 = 256 ^ 8 by norm_num, leBytes_mod]

theorem from_be_ofHost (host : ByteOrder) (w : Nat) (bs : List Nat) (hl : bs.length = w)
    (h : ∀ b ∈ bs, b < 256) :
    (match host with
      | .little => bswap w (ofHost host bs)
      | .big => ofHost host bs % 256 ^ w) = ofBE bs := by
  cases host
  · simp only [bswap, ofHost, beBytes, ofBE]
    rw [← hl, leBytes_ofLE bs h]
  · simp only [ofHost, ofBE]
    apply Nat.mod_eq_of_lt
    have := ofLE_lt bs.reverse (by simpa using h)
    simpa [hl] using this

theorem loadBytes_lt (m : Mem) (a : Int) (n : Nat) : ∀ b ∈ loadBytes m a n, b < 256 := by
  induction n generalizing a with
  | zero => simp [loadBytes]
  | succ n ih =>
    intro b hb
    simp only [loadBytes, List.mem_cons] at hb
    rcases hb with rfl | hb
    · exact load8_lt _ _
    · exact ih _ b hb

theorem from_be32_load32 (host : ByteOrder) (m : Mem) (p : Int) :
    cf_swap_from_be32 host (load32 host m p) = ofBE (loadBytes m p 4) := by
  have := from_be_ofHost host 4 (loadBytes m p 4) (loadBytes_length _ _ _) (loadBytes_lt _ _ _)
  rw [← this]
  cases host <;> rfl

theorem from_be64_load64 (host : ByteOrder) (m : Mem) (p : Int) :
    cf_swap_from_be64 host (load64 host m p) = ofBE (loadBytes m p 8) := by
  have := from_be_ofHost host 8 (loadBytes m p 8) (loadBytes_length _ _ _) (loadBytes_lt _ _ _)
  rw [← this]
  cases host <;> rfl

theorem store32_to_be32 (host : ByteOrder) (m : Mem) (p : Int) (v : Nat) :
    store32 host m p (cf_swap_to_be32 host v) = storeBytes m p (beBytes 4 v) := by
  simp only [store32, hostBytes_to_be32]

theorem ofBE_beBytes (w v : Nat) : ofBE (beBytes w v) = v % 256 ^ w := by
  simp [ofBE, beBytes, ofLE_leBytes]

/-! ## Encoder lemmas -/

theorem takeWhile_nulFree (s : List Nat) (h : NulFree s) :
    s.takeWhile (fun b => b != 0) = s := by
  rw [List.takeWhile_eq_self_iff]
  intro b hb
  have := (h b hb).1
  simp; omega

theorem NulFree.bytes_lt {s : List Nat} (h : NulFree s) : ∀ b ∈ s, b < 256 := fun b hb => (h b hb).2

theorem stpcpy_nulFree (m : Mem) (dst : Int) (s : List Nat) (h : NulFree s) :
    stpcpy m dst s = (storeBytes m dst (s ++ [0]), dst + s.length) := by
  simp only [stpcpy, takeWhile_nulFree s h]

theorem storeBytes_append (xs ys : List Nat) (m : Mem) (a : Int) :
    storeBytes m a (xs ++ ys) = storeBytes (storeBytes m a xs) (a + xs.length) ys := by
  induction xs generalizing m a with
  | nil => simp [storeBytes]
  | cons x xs ih =>
    show storeBytes (store8 m a x) (a + 1) (xs ++ ys) = _
    rw [ih]
    simp only [storeBytes, List.length_cons]
    rw [show a + ((xs.length + 1 : Nat) : Int) = a + 1 + (xs.length : Int) by push_cast; ring]

theorem toU32_toI32 (x : Int) : toU32 (toI32 x + 1) = toU32 (x + 1) := by
  unfold toU32 toI32
  congr 1
  omega

theorem toU32_of_nat (n : Nat) (h : n < 2 ^ 32) : toU32 (n : Int) = n := by
  unfold toU32
  omega

/-- Memory effect of `write_field_header` in terms of big-endian bytes. -/
theorem write_field_header_eq (host : ByteOrder) (m : Mem) (p : Int) (id : Nat) (size : Int) :
    write_field_header host m p id size =
      (store8 (storeBytes m p (beBytes 4 (toU32 (size + 1)))) (p + 4) id, p + 5) := by
  simp only [write_field_header, store32_to_be32]
  rw [show p + 4 + 1 = p + 5 by ring]

theorem write_field_string_mem (host : ByteOrder) (m : Mem) (p : Int) (id : Nat) (s : List Nat)
    (hs : NulFree s) :
    write_field_string host m p id s =
      (store8 (storeBytes (storeBytes m (p + 5) (s ++ [0])) p
        (beBytes 4 (toU32 ((s.length : Int) + 1)))) (p + 4) id, p + 5 + s.length) := by
  simp only [write_field_string, FIELD_HEADER_SIZE, stpcpy_nulFree _ _ _ hs,
    write_field_header_eq, toU32_toI32]
  rw [show p + 5 + (s.length : Int) - p - 5 = (s.length : Int) by ring]


theorem roleEntries_length (roles : List (List Nat)) :
    (roleEntries roles).length = (roles.map (fun r => 1 + r.length)).sum := by
  induction roles with
  | nil => rfl
  | cons r rest ih => simp [roleEntries, ih]; omega

theorem toU8_of_nat (n : Nat) (h : n < 256) : toU8 (n : Int) = n := by
  unfold toU8; omega

theorem write_roles_loop_spec (roles : List (List Nat)) (m : Mem) (q : Int)
    (hr : ∀ r ∈ roles, NulFree r ∧ r.length ≤ 255) :
    (write_roles_loop roles m q).2 = q + (roleEntries roles).length
    ∧ loadBytes (write_roles_loop roles m q).1 q (roleEntries roles).length = roleEntries roles
    ∧ (∀ x, x < q ∨ q + (roleEntries roles).length < x →
        load8 (write_roles_loop roles m q).1 x = load8 m x)
    ∧ (roles ≠ [] → load8 (write_roles_loop roles m q).1 (q + (roleEntries roles).length) = 0) := by
  induction roles generalizing m q with
  | nil =>
    refine ⟨by simp [write_roles_loop, roleEntries], rfl, fun _ _ => rfl, fun h => absurd rfl h⟩
  | cons r rest ih =>
    obtain ⟨hnf, hlen⟩ := hr r (List.mem_cons_self _ _)
    have hrest : ∀ r ∈ rest, NulFree r ∧ r.length ≤ 255 :=
      fun x hx => hr x (List.mem_cons_of_mem _ hx)
    have hstep : write_roles_loop (r :: rest) m q =
        write_roles_loop rest (store8 (storeBytes m (q + 1) (r ++ [0])) q r.length)
          (q + 1 + r.length) := by
      simp only [write_roles_loop, stpcpy_nulFree _ _ _ hnf]
      rw [show q + 1 + (r.length : Int) - q - 1 = (r.length : Int) by ring,
        toU8_of_nat _ (by omega)]
    rw [hstep]
    obtain ⟨ih1, ih2, ih3, ih4⟩ :=
      ih (store8 (storeBytes m (q + 1) (r ++ [0])) q r.length) (q + 1 + r.length) hrest
    have hl : (roleEntries (r :: rest)).length = 1 + (r.length + (roleEntries rest).length) := by
      simp [roleEntries]; omega
    refine ⟨?_, ?_, ?_, ?_⟩
    · rw [ih1, hl]; push_cast; ring
    · rw [hl, loadBytes_add, loadBytes_add]
      simp only [roleEntries, Nat.cast_one]
      rw [loadBytes_one, ih2]
      rw [ih3 q (Or.inl (by omega)), load8_store8_same, Nat.mod_eq_of_lt (by omega)]
      simp only [List.singleton_append, List.cons.injEq, true_and, List.append_cancel_right_eq]
      apply Eq.trans (loadBytes_congr _ (store8 (storeBytes m (q + 1) (r ++ [0])) q r.length) _ _ _)
      · rw [loadBytes_store8_out _ _ _ _ _ (Or.inr (by omega)), storeBytes_append]
        rw [loadBytes_storeBytes_out _ _ _ _ _ (Or.inl (by omega))]
        exact loadBytes_storeBytes_same r m (q + 1) hnf.bytes_lt
      · intro x h1 h2
        exact ih3 x (Or.inl (by omega))
    · intro x hx
      rw [hl] at hx
      rw [ih3 x (by push_cast at hx; omega), load8_store8_ne _ _ _ _ (by omega)]
      rw [load8_storeBytes_out _ _ _ _ (by
        simp only [List.length_append, List.length_singleton]; push_cast at hx ⊢; omega)]
    · intro _
      rw [hl]
      by_cases hrest0 : rest = []
      · subst hrest0
        simp only [write_roles_loop, roleEntries, List.length_nil, Nat.add_zero]
        rw [load8_store8_ne _ _ _ _ (by push_cast; omega), storeBytes_append]
        simp only [storeBytes]
        rw [show q + ((1 + r.length : Nat) : Int) = q + 1 + (r.length : Int) by push_cast; ring]
        exact load8_store8_same _ _ _
      · have := ih4 hrest0
        rw [show q + ((1 + (r.length + (roleEntries rest).length) : Nat) : Int)
          = q + 1 + (r.length : Int) + ((roleEntries rest).length : Int) by push_cast; ring]
        exact this

theorem roleEntries_length_le (roles : List (List Nat)) (hr : ∀ r ∈ roles, r.length ≤ 255) :
    (roleEntries roles).length ≤ 256 * roles.length := by
  induction roles with
  | nil => simp [roleEntries]
  | cons r rest ih =>
    have h1 := hr r (List.mem_cons_self _ _)
    have h2 := ih (fun x hx => hr x (List.mem_cons_of_mem _ hx))
    simp only [roleEntries, List.length_cons, List.length_append]
    omega

/-- Memory and cursor after `write_roles` for a list of valid role names. -/
theorem write_roles_spec (host : ByteOrder) (m : Mem) (p : Int) (roles : List (List Nat))
    (hk : roles.length ≤ 255) (hr : ∀ r ∈ roles, NulFree r ∧ r.length ≤ 255) :
    loadBytes (write_roles host m p roles roles.length).1 p (5 + (1 + (roleEntries roles).length))
        = beBytes 4 (1 + (1 + (roleEntries roles).length))
            ++ ROLES :: roles.length :: roleEntries roles
      ∧ (write_roles host m p roles roles.length).2 = p + 5 + 1 + (roleEntries roles).length
      ∧ (∀ x, x < p → load8 (write_roles host m p roles roles.length).1 x = load8 m x) := by
  have hU : toU32 (roles.length : Int) = roles.length := toU32_of_nat _ (by omega)
  have hU8 : toU8 (roles.length : Int) = roles.length := toU8_of_nat _ (by omega)
  obtain ⟨l1, l2, l3, -⟩ :=
    write_roles_loop_spec roles (store8 m (p + 5) roles.length) (p + 5 + 1) hr
  have hle := roleEntries_length_le roles (fun r h => (hr r h).2)
  generalize hn : (roleEntries roles).length = n at *
  have hw : write_roles host m p roles roles.length =
      (store8 (storeBytes (write_roles_loop roles (store8 m (p + 5) roles.length) (p + 5 + 1)).1 p
        (beBytes 4 (1 + (1 + n)))) (p + 4) ROLES, p + 5 + 1 + n) := by
    simp only [write_roles, FIELD_HEADER_SIZE, hU, hU8, List.take_length, write_field_header_eq]
    rw [l1, show p + 5 + 1 + (n : Int) - p - 5 = ((1 + n : Nat) : Int) by push_cast; ring,
      toU32_toI32, show ((1 + n : Nat) : Int) + 1 = ((1 + (1 + n) : Nat) : Int) by push_cast; ring,
      toU32_of_nat _ (by omega)]
  rw [hw]
  refine ⟨?_, rfl, ?_⟩
  · rw [show 5 + (1 + n) = 4 + (1 + (1 + n)) by omega, loadBytes_add, loadBytes_add, loadBytes_add]
    simp only [Nat.cast_ofNat, Nat.cast_one]
    rw [show p + 4 + 1 = p + 5 by ring]
    congr 1
    · rw [loadBytes_store8_out _ _ _ _ _ (Or.inl (by omega))]
      have := loadBytes_storeBytes_same (beBytes 4 (1 + (1 + n)))
        (write_roles_loop roles (store8 m (p + 5) roles.length) (p + 5 + 1)).1 p (beBytes_lt _ _)
      rwa [beBytes_length] at this
    · rw [loadBytes_one, load8_store8_same, loadBytes_one, load8_store8_ne _ _ _ _ (by omega)]
      rw [load8_storeBytes_out _ _ _ _ (Or.inr (by rw [beBytes_length]; omega))]
      rw [l3 _ (Or.inl (by omega)), load8_store8_same]
      rw [loadBytes_store8_out _ _ _ _ _ (Or.inr (by omega))]
      rw [loadBytes_storeBytes_out _ _ _ _ _ (Or.inr (by rw [beBytes_length]; omega)), l2]
      simp [ROLES, Nat.mod_eq_of_lt (show roles.length < 256 by omega)]
  · intro x hx
    rw [load8_store8_ne _ _ _ _ (by omega)]
    rw [load8_storeBytes_out _ _ _ _ (Or.inl hx), l3 _ (Or.inl (by omega))]
    rw [load8_store8_ne _ _ _ _ (by omega)]

theorem parse_field_header_eq (cfg : Config) (m : Mem) (p : Int) :
    parse_field_header cfg m p =
      (toI32 (toI32 (ofBE (loadBytes m p 4)) - 1), load8 m (p + 4), p + 5) := by
  simp only [parse_field_header, from_be32_load32]
  rw [show p + 4 + 1 = p + 5 by ring]

theorem toI32_of_nat (n : Nat) (h : n < 2 ^ 31) : toI32 (n : Int) = n := by
  unfold toI32; omega

theorem toI32_pred (n : Nat) (h : n < 2 ^ 31) (h1 : 1 ≤ n) : toI32 ((n : Int) - 1) = n - 1 := by
  unfold toI32; omega

/-- Header decode on a field whose 5 header bytes are the big-endian wire
length `L` and the id byte. -/
theorem parse_field_header_of_bytes (cfg : Config) (m : Mem) (p : Int) (L id : Nat)
    (hL : L < 2 ^ 31) (hL1 : 1 ≤ L)
    (hm : loadBytes m p 5 = beBytes 4 L ++ [id]) :
    parse_field_header cfg m p = ((L : Int) - 1, id, p + 5) := by
  rw [parse_field_header_eq]
  have h := hm
  rw [show 5 = 4 + 1 by rfl, loadBytes_add] at h
  have h4 : loadBytes m p 4 = beBytes 4 L :=
    List.append_inj_left h (by simp [loadBytes_length, beBytes_length])
  have h1 : loadBytes m (p + 4) 1 = [id] := by
    have := List.append_inj_right h (by simp [loadBytes_length, beBytes_length])
    simpa using this
  rw [loadBytes_one] at h1
  rw [h4, ofBE_beBytes, Nat.mod_eq_of_lt (by norm_num at hL ⊢; omega), toI32_of_nat _ hL,
    toI32_pred _ hL hL1, List.singleton_inj.mp h1]

/-- Leading bytes of a memory block known in full. -/
theorem loadBytes_split (m : Mem) (a : Int) (xs ys : List Nat)
    (h : loadBytes m a (xs ++ ys).length = xs ++ ys) :
    loadBytes m a xs.length = xs ∧ loadBytes m (a + xs.length) ys.length = ys := by
  rw [List.length_append, loadBytes_add] at h
  exact ⟨List.append_inj_left h (by simp [loadBytes_length]),
    List.append_inj_right h (by simp [loadBytes_length])⟩

/-! proto header -/

theorem leBytes_add (a b v : Nat) :
    leBytes (a + b) v = leBytes a v ++ leBytes b (v / 256 ^ a) := by
  induction a generalizing v with
  | zero => simp [leBytes]
  | succ a ih =>
    rw [Nat.add_right_comm]
    simp only [leBytes, List.cons_append, ih]
    rw [Nat.div_div_eq_div_mul, pow_succ, Nat.mul_comm]

theorem proto_word (x : Nat) (hx : x < 2 ^ 48) :
    x ||| (MSG_VERSION <<< 56) ||| (MSG_TYPE <<< 48) = 2 ^ 48 * 2 + x := by
  have : x ||| (MSG_VERSION <<< 56) ||| (MSG_TYPE <<< 48) = 2 ^ 48 * 2 ||| x := by
    simp only [MSG_VERSION, MSG_TYPE, Nat.shiftLeft_eq, Nat.zero_mul, Nat.or_zero]
    rw [Nat.or_comm, Nat.mul_comm]
  rw [this, ← Nat.mul_add_lt_is_or hx]

theorem beBytes_proto (x : Nat) (hx : x < 2 ^ 48) :
    beBytes 8 (x ||| (MSG_VERSION <<< 56) ||| (MSG_TYPE <<< 48)) = [0, 2] ++ beBytes 6 x := by
  rw [proto_word x hx]
  unfold beBytes
  rw [show 8 = 6 + 2 by rfl, leBytes_add, List.reverse_append]
  have h1 : (2 ^ 48 * 2 + x) / 256 ^ 6 = 2 := by norm_num at hx ⊢; omega
  have h2 : leBytes 6 (2 ^ 48 * 2 + x) = leBytes 6 x := by
    rw [← leBytes_mod 6 (2 ^ 48 * 2 + x), ← leBytes_mod 6 x]
    congr 1
    norm_num at hx ⊢; omega
  rw [h1, h2]
  rfl

theorem store64_to_be64 (host : ByteOrder) (m : Mem) (p : Int) (v : Nat) :
    store64 host m p (cf_swap_to_be64 host v) = storeBytes m p (beBytes 8 v) := by
  simp only [store64, hostBytes_to_be64]

theorem toU64_of_nat (n : Nat) (h : n < 2 ^ 64) : toU64 (n : Int) = n := by
  unfold toU64; omega

/-- What `as_send` does for a buffer of `L` bytes. -/
theorem as_send_spec (cfg : Config) (w : World) (m : Mem) (buffer : Int) (L : Nat)
    (h8 : 8 ≤ L) (hL : L - 8 < 2 ^ 48) :
    as_send cfg w m buffer (buffer + L) =
      (w.log (.as_socket_write (loadBytes (storeBytes m buffer ([0, 2] ++ beBytes 6 (L - 8))) buffer L)),
        storeBytes m buffer ([0, 2] ++ beBytes 6 (L - 8)), w.write_status) := by
  have hlen : toU64 (buffer + (L : Int) - buffer) = L := by
    rw [show buffer + (L : Int) - buffer = (L : Int) by ring]
    exact toU64_of_nat _ (by norm_num at hL ⊢; omega)
  have hp : toU64 ((L : Int) - 8) = L - 8 := by
    rw [show (L : Int) - 8 = ((L - 8 : Nat) : Int) by omega]
    exact toU64_of_nat _ (by norm_num at hL ⊢; omega)
  simp only [as_send, as_socket_write_deadline, hlen, hp, store64_to_be64, beBytes_proto _ hL]


/-- Bytes, cursor and frame of `write_field_string` on a valid C string. -/
theorem write_field_string_spec (host : ByteOrder) (m : Mem) (p : Int) (id : Nat) (s : List Nat)
    (hid : id < 256) (hs : NulFree s) (hn : s.length + 1 < 2 ^ 31) :
    loadBytes (write_field_string host m p id s).1 p (5 + s.length)
        = beBytes 4 (s.length + 1) ++ id :: s
      ∧ (write_field_string host m p id s).2 = p + 5 + s.length
      ∧ ofBE (loadBytes (write_field_string host m p id s).1 p 4) = s.length + 1
      ∧ load8 (write_field_string host m p id s).1 (write_field_string host m p id s).2 = 0
      ∧ ∀ x, x < p ∨ p + 5 + s.length < x →
          load8 (write_field_string host m p id s).1 x = load8 m x := by
  rw [write_field_string_mem host m p id s hs]
  have hu : toU32 ((s.length : Int) + 1) = s.length + 1 := by
    have := toU32_of_nat (s.length + 1) (by omega)
    simpa using this
  simp only [hu]
  have h4 : loadBytes (store8 (storeBytes (storeBytes m (p + 5) (s ++ [0])) p
      (beBytes 4 (s.length + 1))) (p + 4) id) p 4 = beBytes 4 (s.length + 1) := by
    rw [loadBytes_store8_out _ _ _ _ _ (Or.inl (by omega))]
    have := loadBytes_storeBytes_same (beBytes 4 (s.length + 1))
      (storeBytes m (p + 5) (s ++ [0])) p (beBytes_lt _ _)
    rwa [beBytes_length] at this
  refine ⟨?_, trivial, ?_, ?_, ?_⟩
  · rw [show 5 + s.length = 4 + (1 + s.length) by omega, loadBytes_add, loadBytes_add, h4]
    congr 1
    simp only [Nat.cast_ofNat, Nat.cast_one]
    rw [loadBytes_one, load8_store8_same, Nat.mod_eq_of_lt hid]
    simp only [List.singleton_append, List.cons.injEq, true_and]
    rw [loadBytes_store8_out _ _ _ _ _ (Or.inr (by omega))]
    rw [loadBytes_storeBytes_out _ _ _ _ _ (Or.inr (by rw [beBytes_length]; omega))]
    rw [storeBytes_append]
    rw [show p + 4 + 1 = p + 5 by ring]
    rw [loadBytes_storeBytes_out _ _ _ _ _ (Or.inl (by omega))]
    exact loadBytes_storeBytes_same s m (p + 5) hs.bytes_lt
  · rw [h4, ofBE_beBytes]
    apply Nat.mod_eq_of_lt
    norm_num at hn ⊢
    omega
  · rw [load8_store8_ne _ _ _ _ (by omega)]
    rw [load8_storeBytes_out _ _ _ _ (Or.inr (by rw [beBytes_length]; omega))]
    rw [storeBytes_append]
    simp only [storeBytes]
    rw [load8_store8_same]
  · intro x hx
    rw [load8_store8_ne _ _ _ _ (by omega)]
    rw [load8_storeBytes_out _ _ _ _ (by rw [beBytes_length]; omega)]
    rw [load8_storeBytes_out _ _ _ _ (by simp only [List.length_append, List.length_singleton]; push_cast; omega)]

/-! ## Parser lemmas -/

theorem Holds.append {m : Mem} {a : Int} {xs ys : List Nat} (h : Holds m a (xs ++ ys)) :
    Holds m a xs ∧ Holds m (a + xs.length) ys :=
  loadBytes_split m a xs ys h

theorem Holds.byte_bound {m : Mem} {a : Int} {bs : List Nat} (h : Holds m a bs) : ∀ b ∈ bs, b < 256 := by
  unfold Holds at h
  rw [← h]
  exact loadBytes_lt _ _ _

theorem Holds.cons {m : Mem} {a : Int} {b : Nat} {bs : List Nat} (h : Holds m a (b :: bs)) :
    load8 m a = b ∧ Holds m (a + 1) bs := by
  unfold Holds at h ⊢
  simp only [List.length_cons, loadBytes, List.cons.injEq] at h
  exact h

theorem loadBytes_take (m : Mem) (a : Int) (k n : Nat) (h : k ≤ n) :
    loadBytes m a k = (loadBytes m a n).take k := by
  obtain ⟨d, rfl⟩ := Nat.exists_eq_add_of_le h
  rw [loadBytes_add, List.take_left' (loadBytes_length _ _ _)]

theorem Holds.take {m : Mem} {a : Int} {bs : List Nat} (h : Holds m a bs) (k : Nat) :
    loadBytes m a (min bs.length k) = bs.take k := by
  unfold Holds at h
  rw [loadBytes_take m a (min bs.length k) bs.length (Nat.min_le_left _ _), h]
  by_cases hk : k ≤ bs.length
  · rw [Nat.min_eq_right hk]
  · rw [Nat.min_eq_left (by omega), List.take_of_length_le (by omega), List.take_of_length_le (by omega)]

theorem as_parse_roles_loop_spec (cfg : Config) (m : Mem) (names : List (List Nat)) (p : Int)
    (hr : ∀ r ∈ names, r.length ≤ 255) (hm : Holds m p (roleEntries names)) :
    as_parse_roles_loop cfg m names.length p =
      (names.map (fun r => r.take (cfg.AS_ROLE_SIZE - 1) ++ [0]),
        p + (roleEntries names).length) := by
  induction names generalizing p with
  | nil => simp [as_parse_roles_loop, roleEntries]
  | cons r rest ih =>
    have hlen := hr r (List.mem_cons_self _ _)
    simp only [roleEntries] at hm
    obtain ⟨h0, hm1⟩ := hm.cons
    obtain ⟨hr1, hm2⟩ := hm1.append
    have ih1 := ih (p + 1 + r.length) (fun x hx => hr x (List.mem_cons_of_mem _ hx)) hm2
    simp only [List.length_cons, as_parse_roles_loop, h0, ih1, List.map_cons]
    have hsz : (if r.length ≤ cfg.AS_ROLE_SIZE - 1 then r.length else cfg.AS_ROLE_SIZE - 1)
        = min r.length (cfg.AS_ROLE_SIZE - 1) := by
      split <;> omega
    rw [hsz, hr1.take]
    simp only [roleEntries, List.length_cons, List.length_append, Prod.mk.injEq, true_and]
    push_cast; ring

theorem as_parse_roles_spec (cfg : Config) (m : Mem) (names : List (List Nat)) (p : Int)
    (hr : ∀ r ∈ names, r.length ≤ 255)
    (hm : Holds m p (rolesPayload names)) :
    as_parse_roles cfg m p =
      ({ user := [], roles_size := names.length,
         roles := names.map (fun r => r.take (cfg.AS_ROLE_SIZE - 1) ++ [0]) },
        p + (rolesPayload names).length) := by
  simp only [rolesPayload] at hm ⊢
  obtain ⟨h0, hm1⟩ := hm.cons
  simp only [as_parse_roles, h0, as_parse_roles_loop_spec cfg m names (p + 1) hr hm1,
    List.length_cons, Prod.mk.injEq, true_and]
  push_cast; ring

theorem fieldBytes_length (id : Nat) (payload : List Nat) :
    (fieldBytes id payload).length = 5 + payload.length := by
  simp [fieldBytes, beBytes_length]; omega

/-- Header decode on a memory that holds a field. -/
theorem parse_field_header_fieldBytes (cfg : Config) (m : Mem) (p : Int) (id : Nat)
    (payload : List Nat) (hn : payload.length + 1 < 2 ^ 31) (hm : Holds m p (fieldBytes id payload)) :
    parse_field_header cfg m p = ((payload.length : Int), id, p + 5)
      ∧ Holds m (p + 5) payload := by
  have h : Holds m p ((beBytes 4 (payload.length + 1) ++ [id]) ++ payload) := by
    simpa [fieldBytes] using hm
  obtain ⟨h1, h2⟩ := h.append
  have hl : (beBytes 4 (payload.length + 1) ++ [id]).length = 5 := by simp [beBytes_length]
  rw [hl] at h2
  unfold Holds at h1
  rw [hl] at h1
  rw [parse_field_header_of_bytes cfg m p (payload.length + 1) id hn (by omega) h1]
  exact ⟨by simp, h2⟩

theorem rolesPayload_length_lt (names : List (List Nat)) (hk : names.length ≤ 255)
    (hr : ∀ r ∈ names, r.length ≤ 255) : (rolesPayload names).length + 1 < 2 ^ 31 := by
  have := roleEntries_length_le names hr
  simp only [rolesPayload, List.length_cons]
  norm_num
  omega

theorem parse_field_spec (cfg : Config) (m : Mem) (f : WireField) (st : FieldState)
    (hU : 1 ≤ cfg.AS_USER_SIZE) (hf : f.WF) (hm : Holds m st.p f.encode) :
    parse_field cfg m st =
      some { p := st.p + f.encode.length,
             user := (f.apply cfg (st.user, st.user_roles)).1,
             user_roles := (f.apply cfg (st.user, st.user_roles)).2 } := by
  cases f with
  | user name =>
    simp only [WireField.WF] at hf
    simp only [WireField.encode] at hm ⊢
    obtain ⟨hh, hp⟩ := parse_field_header_fieldBytes cfg m st.p USER name hf hm
    have hsz : (if (name.length : Int) ≤ (cfg.AS_USER_SIZE : Int) - 1 then (name.length : Int)
        else (cfg.AS_USER_SIZE : Int) - 1) = ((min name.length (cfg.AS_USER_SIZE - 1) : Nat) : Int) := by
      split <;> omega
    simp only [parse_field, hh, if_true, hsz, WireField.apply, fieldBytes_length]
    rw [if_neg (by omega), Int.toNat_ofNat, hp.take]
    congr 2
    push_cast; ring
  | roles names =>
    simp only [WireField.WF] at hf
    simp only [WireField.encode] at hm ⊢
    obtain ⟨hh, hp⟩ := parse_field_header_fieldBytes cfg m st.p ROLES (rolesPayload names)
      (rolesPayload_length_lt names hf.1 hf.2) hm
    have hne : ¬ (ROLES = USER) := by decide
    simp only [parse_field, hh, as_parse_roles_spec cfg m names (st.p + 5) hf.2 hp,
      WireField.apply, fieldBytes_length, hne, if_false, if_true]
    congr 2
    push_cast; ring
  | other id payload =>
    simp only [WireField.WF] at hf
    simp only [WireField.encode] at hm ⊢
    obtain ⟨hh, -⟩ := parse_field_header_fieldBytes cfg m st.p id payload hf.2.2.2 hm
    simp only [parse_field, hh, WireField.apply, fieldBytes_length, hf.2.1, hf.2.2.1, if_false]
    congr 2
    push_cast; ring

theorem parse_fields_spec (cfg : Config) (m : Mem) (fs : List WireField) (st : FieldState)
    (hU : 1 ≤ cfg.AS_USER_SIZE) (hf : ∀ f ∈ fs, f.WF) (hm : Holds m st.p (encodeFields fs)) :
    parse_fields cfg m fs.length st =
      some { p := st.p + (encodeFields fs).length,
             user := (fs.foldl (WireField.apply cfg) (st.user, st.user_roles)).1,
             user_roles := (fs.foldl (WireField.apply cfg) (st.user, st.user_roles)).2 } := by
  induction fs generalizing st with
  | nil => simp [parse_fields, encodeFields]
  | cons f fs ih =>
    simp only [encodeFields] at hm
    obtain ⟨h1, h2⟩ := hm.append
    simp only [List.length_cons, parse_fields,
      parse_field_spec cfg m f st hU (hf f (List.mem_cons_self _ _)) h1]
    rw [ih _ (fun x hx => hf x (List.mem_cons_of_mem _ hx)) h2]
    simp only [encodeFields, List.length_append, List.foldl_cons, Option.some.injEq]
    congr 1
    push_cast; ring

theorem WireRecord.encode_length (r : WireRecord) (h : r.pad.length = 12) :
    r.encode.length = 16 + (encodeFields r.fields).length := by
  simp [WireRecord.encode, h]; omega

theorem Holds.record {m : Mem} {p : Int} {r : WireRecord} (hp : r.pad.length = 12)
    (h : Holds m p r.encode) :
    load8 m (p + 1) = r.result ∧ load8 m (p + 3) = r.fields.length
      ∧ Holds m (p + 16) (encodeFields r.fields) := by
  have h' : Holds m p (([r.b0, r.result, r.b2, r.fields.length] ++ r.pad) ++ encodeFields r.fields) := by
    simpa [WireRecord.encode] using h
  obtain ⟨h1, h2⟩ := h'.append
  obtain ⟨h3, -⟩ := h1.append
  have hl : ([r.b0, r.result, r.b2, r.fields.length] ++ r.pad).length = 16 := by simp [hp]
  rw [hl] at h2
  unfold Holds at h3
  simp only [List.length_cons, List.length_nil, loadBytes, List.cons.injEq, and_true] at h3
  refine ⟨h3.2.1, ?_, h2⟩
  rw [show p + 3 = p + 1 + 1 + 1 by ring]
  exact h3.2.2.2

theorem emit_record_decoded (cfg : Config) (r : WireRecord) (p : Int) (users : List as_user_roles) :
    emit_record { p := p, user := (r.decoded cfg).1, user_roles := (r.decoded cfg).2 } users
      = users ++ r.emitted cfg := by
  unfold emit_record WireRecord.emitted
  by_cases h : (r.decoded cfg).1.headD 0 = 0 ∧ (r.decoded cfg).2 = none
  · simp only [h, and_self, if_true, List.append_nil]
  · simp only [h, if_false]
    cases (r.decoded cfg).2 <;> rfl

/-- One turn of the record loop on a well-formed record with result code 0. -/
theorem as_parse_users_loop_record (cfg : Config) (m : Mem) (end_ : Int) (fuel : Nat) (p : Int)
    (users : List as_user_roles) (r : WireRecord)
    (hU : 1 ≤ cfg.AS_USER_SIZE) (hr : r.WF) (h0 : r.result = 0)
    (hm : Holds m p r.encode) (he : p < end_) :
    as_parse_users_loop cfg m end_ (fuel + 1) p users =
      as_parse_users_loop cfg m end_ fuel (p + r.encode.length) (users ++ r.emitted cfg) := by
  obtain ⟨h1, h3, hf⟩ := Holds.record hr.1 hm
  have hpf := parse_fields_spec cfg m r.fields { p := p + 16, user := [0], user_roles := none }
    hU hr.2.2 hf
  rw [as_parse_users_loop]
  simp only [he, if_true, h1, h0, ne_eq, not_true_eq_false, if_false, h3, HEADER_REMAINING,
    Nat.cast_ofNat, hpf]
  rw [show (List.foldl (WireField.apply cfg) ([0], none) r.fields) = r.decoded cfg from rfl,
    emit_record_decoded, r.encode_length hr.1]
  congr 1
  push_cast; ring

theorem encodeRecords_length_ge (rs : List WireRecord) (h : ∀ r ∈ rs, r.WF) :
    16 * rs.length ≤ (encodeRecords rs).length := by
  induction rs with
  | nil => simp
  | cons r rs ih =>
    have := ih (fun x hx => h x (List.mem_cons_of_mem _ hx))
    have := r.encode_length (h r (List.mem_cons_self _ _)).1
    simp only [encodeRecords, List.length_cons, List.length_append]
    omega

/-- The record loop runs through a sequence of well-formed records with
result code 0, one unit of budget per record. -/
theorem as_parse_users_loop_records (cfg : Config) (m : Mem) (end_ : Int) (fuel : Nat)
    (rs : List WireRecord) (p : Int) (users : List as_user_roles)
    (hU : 1 ≤ cfg.AS_USER_SIZE) (hr : ∀ r ∈ rs, r.WF ∧ r.result = 0)
    (hm : Holds m p (encodeRecords rs)) (he : p + (encodeRecords rs).length ≤ end_) :
    as_parse_users_loop cfg m end_ (fuel + rs.length) p users =
      as_parse_users_loop cfg m end_ fuel (p + (encodeRecords rs).length)
        (users ++ emittedRecords cfg rs) := by
  induction rs generalizing p users with
  | nil => simp [encodeRecords, emittedRecords]
  | cons r rs ih =>
    obtain ⟨hwf, h0⟩ := hr r (List.mem_cons_self _ _)
    simp only [encodeRecords] at hm he
    obtain ⟨h1, h2⟩ := hm.append
    have hlen := r.encode_length hwf.1
    simp only [List.length_append] at he
    rw [List.length_cons, ← Nat.add_assoc,
      as_parse_users_loop_record cfg m end_ (fuel + rs.length) p users r hU hwf h0 h1
        (by push_cast at he; omega),
      ih (p + r.encode.length) (users ++ r.emitted cfg)
        (fun x hx => hr x (List.mem_cons_of_mem _ hx)) h2 (by push_cast at he ⊢; omega)]
    simp only [encodeRecords, emittedRecords, List.length_append, List.append_assoc]
    congr 1
    push_cast; ring

/-- A block made of well-formed records with result code 0 parses to status 0
and the emitted records, given one unit of budget per record and one more. -/
theorem as_parse_users_records (cfg : Config) (m : Mem) (buffer : Int) (rs : List WireRecord)
    (users : List as_user_roles) (fuel : Nat)
    (hU : 1 ≤ cfg.AS_USER_SIZE) (hr : ∀ r ∈ rs, r.WF ∧ r.result = 0)
    (hm : Holds m buffer (encodeRecords rs)) (hfuel : rs.length < fuel) :
    as_parse_users cfg m buffer (encodeRecords rs).length users fuel =
      .ret (0, users ++ emittedRecords cfg rs) := by
  obtain ⟨k, rfl⟩ := Nat.exists_eq_add_of_lt hfuel
  unfold as_parse_users
  rw [show rs.length + k + 1 = (k + 1) + rs.length by omega,
    as_parse_users_loop_records cfg m _ (k + 1) rs buffer users hU hr hm (le_refl _)]
  simp [as_parse_users_loop]

/-- A block made of well-formed records with result code 0 followed by a
record whose result code is not 0 parses to that code, with the records
emitted ahead of it. -/
theorem as_parse_users_stop (cfg : Config) (m : Mem) (buffer : Int) (rs : List WireRecord)
    (b0 c : Nat) (junk : List Nat)
    (users : List as_user_roles) (fuel : Nat)
    (hU : 1 ≤ cfg.AS_USER_SIZE) (hr : ∀ r ∈ rs, r.WF ∧ r.result = 0) (hc : c ≠ 0)
    (hm : Holds m buffer (encodeRecords rs ++ b0 :: c :: junk)) (hfuel : rs.length < fuel) :
    as_parse_users cfg m buffer ((encodeRecords rs ++ b0 :: c :: junk).length : Nat) users fuel =
      .ret (c, users ++ emittedRecords cfg rs) := by
  obtain ⟨k, rfl⟩ := Nat.exists_eq_add_of_lt hfuel
  obtain ⟨h1, h2⟩ := hm.append
  obtain ⟨-, h3⟩ := h2.cons
  obtain ⟨h4, -⟩ := h3.cons
  unfold as_parse_users
  rw [show rs.length + k + 1 = (k + 1) + rs.length by omega,
    as_parse_users_loop_records cfg m _ (k + 1) rs buffer users hU hr h1
      (by simp only [List.length_append]; push_cast; omega)]
  rw [as_parse_users_loop]
  simp only [List.length_append, List.length_cons, h4, ne_eq, hc, not_false_eq_true, if_true]
  rw [if_pos (by push_cast; omega)]

/-! ## Streaming reader lemmas -/

theorem as_socket_read_deadline_ok (w : World) (m : Mem) (buf : Int) (n : Nat)
    (h : n ≤ w.incoming.length) :
    as_socket_read_deadline w m buf n =
      ({ w with incoming := w.incoming.drop n, events := w.events ++ [.as_socket_read n] },
        storeBytes m buf (w.incoming.take n), 0) := by
  simp only [as_socket_read_deadline, World.log, h, if_true]

theorem ofLE_append (xs ys : List Nat) :
    ofLE (xs ++ ys) = ofLE xs + 256 ^ xs.length * ofLE ys := by
  induction xs with
  | nil => simp [ofLE]
  | cons x xs ih =>
    show x + 256 * ofLE (xs ++ ys) = _
    rw [ih]
    simp only [ofLE, List.length_cons, pow_succ]
    ring

theorem proto_size (v t n : Nat) (hn : n < 2 ^ 48) :
    ofBE ([v, t] ++ beBytes 6 n) &&& 0xFFFFFFFFFFFF = n := by
  have h1 : (0xFFFFFFFFFFFF : Nat) = 2 ^ 48 - 1 := by norm_num
  rw [h1, Nat.and_pow_two_sub_one_eq_mod]
  unfold ofBE beBytes
  rw [List.reverse_append, List.reverse_reverse, ofLE_append, ofLE_leBytes, leBytes_length]
  rw [show (256 : Nat) ^ 6 = 2 ^ 48 by norm_num, Nat.add_mul_mod_self_left, Nat.mod_mod,
    Nat.mod_eq_of_lt hn]

/-- Reading the header and the payload of one nonempty block. -/
theorem as_read_user_blocks_loop_block (cfg : Config) (fuel : Nat) (st : BlockState)
    (v t : Nat) (payload rest : List Nat)
    (hin : st.w.incoming = blockBytes v t payload ++ rest)
    (hv : v < 256) (ht : t < 256)
    (hpos : 0 < payload.length) (hlt : payload.length < 2 ^ 31) :
    as_read_user_blocks_body cfg st fuel =
        match as_parse_users cfg
          (afterBlock st ([v, t] ++ beBytes 6 payload.length) payload rest st.users).m
          (afterBlock st ([v, t] ++ beBytes 6 payload.length) payload rest st.users).buf
          payload.length st.users fuel with
        | .crash => .crash
        | .exhausted => .exhausted
        | .ret (status, users) =>
          .ret (afterBlock st ([v, t] ++ beBytes 6 payload.length) payload rest users,
            status, false) := by
  have hlen8 : 8 ≤ st.w.incoming.length := by
    rw [hin]; simp [blockBytes, beBytes_length]
  have htake : st.w.incoming.take 8 = [v, t] ++ beBytes 6 payload.length := by
    rw [hin, blockBytes, List.append_assoc]
    exact List.take_left' (by simp [beBytes_length])
  have hdrop : st.w.incoming.drop 8 = payload ++ rest := by
    rw [hin, blockBytes, List.append_assoc]
    exact List.drop_left' (by simp [beBytes_length])
  have hhdr : ∀ b ∈ [v, t] ++ beBytes 6 payload.length, b < 256 := by
    intro b hb'
    simp only [List.mem_append, List.mem_cons, List.mem_singleton, List.not_mem_nil, or_false] at hb'
    rcases hb' with (rfl | rfl) | hb'
    · exact hv
    · exact ht
    · exact beBytes_lt _ _ b hb'
  have hproto : cf_swap_from_be64 cfg.host
      (load64 cfg.host (storeBytes st.m st.buf ([v, t] ++ beBytes 6 payload.length)) st.buf)
        &&& 0xFFFFFFFFFFFF = payload.length := by
    rw [from_be64_load64]
    have := loadBytes_storeBytes_same ([v, t] ++ beBytes 6 payload.length) st.m st.buf hhdr
    rw [show ([v, t] ++ beBytes 6 payload.length).length = 8 by simp [beBytes_length]] at this
    rw [this]
    exact proto_size v t _ (by norm_num at hlt ⊢; omega)
  have hsize : toI32 ((payload.length : Nat) : Int) = payload.length := toI32_of_nat _ hlt
  unfold as_read_user_blocks_body
  simp only [as_socket_read_deadline_ok st.w st.m st.buf 8 hlen8, htake, hdrop, ne_eq,
    not_true_eq_false, if_false, hproto, hsize]
  rw [if_pos (by omega)]
  unfold as_read_user_blocks_payload
  simp only [Int.toNat_ofNat]
  rw [as_socket_read_deadline_ok _ _ _ payload.length (by simp)]
  simp only [ne_eq, not_true_eq_false, if_false, List.take_left', List.drop_left', afterBlock,
    List.append_assoc]

/-- The payload of the block just read is in memory at `buf`. -/
theorem afterBlock_holds (st : BlockState) (hdr payload rest : List Nat)
    (users : List as_user_roles) (hb : ∀ b ∈ payload, b < 256) :
    Holds (afterBlock st hdr payload rest users).m (afterBlock st hdr payload rest users).buf
      payload :=
  loadBytes_storeBytes_same payload _ _ hb

/-- The turn of the reader loop that meets a header of payload length 0. -/
theorem as_read_user_blocks_body_end (cfg : Config) (fuel : Nat) (st : BlockState)
    (v t : Nat) (rest : List Nat)
    (hin : st.w.incoming = blockBytes v t [] ++ rest) (hv : v < 256) (ht : t < 256) :
    as_read_user_blocks_body cfg st fuel =
      .ret ({ st with
                w := { st.w with incoming := rest
                                 events := st.w.events ++ [.as_socket_read 8] }
                m := storeBytes st.m st.buf ([v, t] ++ beBytes 6 0) }, 0, true) := by
  have hlen8 : 8 ≤ st.w.incoming.length := by
    rw [hin]; simp [blockBytes, beBytes_length]
  have htake : st.w.incoming.take 8 = [v, t] ++ beBytes 6 0 := by
    rw [hin, blockBytes, List.append_assoc]
    exact List.take_left' (by simp [beBytes_length])
  have hdrop : st.w.incoming.drop 8 = rest := by
    rw [hin, blockBytes, List.append_assoc]
    exact List.drop_left' (by simp [beBytes_length])
  have hhdr : ∀ b ∈ [v, t] ++ beBytes 6 0, b < 256 := by
    intro b hb'
    simp only [List.mem_append, List.mem_cons, List.mem_singleton, List.not_mem_nil, or_false] at hb'
    rcases hb' with (rfl | rfl) | hb'
    · exact hv
    · exact ht
    · exact beBytes_lt _ _ b hb'
  have hproto : cf_swap_from_be64 cfg.host
      (load64 cfg.host (storeBytes st.m st.buf ([v, t] ++ beBytes 6 0)) st.buf)
        &&& 0xFFFFFFFFFFFF = 0 := by
    rw [from_be64_load64]
    have := loadBytes_storeBytes_same ([v, t] ++ beBytes 6 0) st.m st.buf hhdr
    rw [show ([v, t] ++ beBytes 6 0).length = 8 by simp [beBytes_length]] at this
    rw [this]
    exact proto_size v t 0 (by norm_num)
  have hsize : toI32 ((0 : Nat) : Int) = 0 := by decide
  unfold as_read_user_blocks_body
  simp only [as_socket_read_deadline_ok st.w st.m st.buf 8 hlen8, htake, hdrop, ne_eq,
    not_true_eq_false, if_false, hproto, hsize]
  rw [if_neg (by omega)]

theorem encodeBlocks_cons_length (a : WireBlock) (bs : List WireBlock) :
    (encodeBlocks (a :: bs)).length
      = 8 + (encodeRecords a.records).length + (encodeBlocks bs).length := by
  simp [encodeBlocks, WireBlock.encode, blockBytes, beBytes_length]; omega

theorem encodeBlocks_length_le (bs : List WireBlock) : bs.length ≤ (encodeBlocks bs).length := by
  induction bs with
  | nil => simp
  | cons a bs ih => rw [encodeBlocks_cons_length, List.length_cons]; omega

/-- The bytes of a stream bound the number of its blocks plus the number
of records of any one of them. -/
theorem encodeBlocks_length_ge (bs : List WireBlock) (b : WireBlock) (hb : b ∈ bs)
    (hwf : ∀ b ∈ bs, b.WF) : b.records.length + bs.length ≤ (encodeBlocks bs).length := by
  induction bs with
  | nil => cases hb
  | cons a bs ih =>
    have ha : 16 * a.records.length ≤ (encodeRecords a.records).length :=
      encodeRecords_length_ge a.records (fun r hr => ((hwf a (List.mem_cons_self _ _)).2.2 r hr).1)
    rw [encodeBlocks_cons_length, List.length_cons]
    rcases List.mem_cons.mp hb with rfl | hb'
    · have := encodeBlocks_length_le bs
      omega
    · have := ih hb' (fun x hx => hwf x (List.mem_cons_of_mem _ hx))
      omega

theorem as_read_user_blocks_loop_blocks (cfg : Config) (bs : List WireBlock) (st : BlockState)
    (rest : List Nat) (k : Nat) (hU : 1 ≤ cfg.AS_USER_SIZE)
    (hin : st.w.incoming = encodeBlocks bs ++ rest) (hok : StreamOK bs)
    (hk : ∀ b ∈ bs, b.records.length ≤ k) :
    ∃ st2 : BlockState,
      as_read_user_blocks_loop cfg (bs.length + k) st = as_read_user_blocks_loop cfg k st2
      ∧ st2.w.incoming = rest
      ∧ st2.users = st.users ++ emittedBlocks cfg bs
      ∧ st2.w.node_available = st.w.node_available
      ∧ st2.w.read_failure = st.w.read_failure := by
  induction bs generalizing st with
  | nil =>
    exact ⟨st, by simp, by simpa [encodeBlocks] using hin, by simp [emittedBlocks], rfl, rfl⟩
  | cons b bs ih =>
    obtain ⟨hwf, hv, ht, hbytes⟩ := hok b (List.mem_cons_self _ _)
    have hin2 : st.w.incoming
        = blockBytes b.version b.msg_type (encodeRecords b.records) ++ (encodeBlocks bs ++ rest) := by
      rw [hin, encodeBlocks, WireBlock.encode, List.append_assoc]
    have hpos : 0 < (encodeRecords b.records).length := by
      have := encodeRecords_length_ge b.records (fun r hr => (hwf.2.2 r hr).1)
      have : 0 < b.records.length := List.length_pos.mpr hwf.1
      omega
    have hstep := as_read_user_blocks_loop_block cfg (bs.length + k + 1) st b.version b.msg_type
      (encodeRecords b.records) (encodeBlocks bs ++ rest) hin2 hv ht hpos hwf.2.1
    have hparse := as_parse_users_records cfg _ _ b.records st.users (bs.length + k + 1) hU
      hwf.2.2 (afterBlock_holds st
        ([b.version, b.msg_type] ++ beBytes 6 (encodeRecords b.records).length)
        (encodeRecords b.records) (encodeBlocks bs ++ rest) st.users hbytes)
      (by have := hk b (List.mem_cons_self _ _); omega)
    rw [hparse] at hstep
    obtain ⟨st2, h1, h2, h3, h4, h5⟩ := ih
      (afterBlock st ([b.version, b.msg_type] ++ beBytes 6 (encodeRecords b.records).length)
        (encodeRecords b.records) (encodeBlocks bs ++ rest)
        (st.users ++ emittedRecords cfg b.records))
      rfl (fun x hx => hok x (List.mem_cons_of_mem _ hx))
      (fun x hx => hk x (List.mem_cons_of_mem _ hx))
    refine ⟨st2, ?_, h2, ?_, ?_, ?_⟩
    · rw [List.length_cons, show bs.length + 1 + k = (bs.length + k) + 1 by omega,
        as_read_user_blocks_loop, hstep]
      simp only [and_self, if_true]
      exact h1
    · rw [h3]
      simp [afterBlock, emittedBlocks]
    · rw [h4]
      rfl
    · rw [h5]
      rfl

/-- The reader on a stream of well-formed blocks closed by a header of
payload length 0. -/
theorem as_read_user_blocks_done (cfg : Config) (w : World) (m : Mem) (buffer : Int)
    (users : List as_user_roles) (bs : List WireBlock) (v t : Nat) (rest : List Nat) (fuel : Nat)
    (hU : 1 ≤ cfg.AS_USER_SIZE)
    (hin : w.incoming = encodeBlocks bs ++ (blockBytes v t [] ++ rest))
    (hok : StreamOK bs) (hv : v < 256) (ht : t < 256)
    (hfuel : (encodeBlocks bs).length < fuel) :
    ∃ w2 m2, as_read_user_blocks cfg w m buffer users fuel
        = .ret (w2, m2, users ++ emittedBlocks cfg bs, 0)
      ∧ w2.incoming = rest ∧ w2.node_available = w.node_available := by
  have hble := encodeBlocks_length_le bs
  obtain ⟨k, rfl⟩ : ∃ k, fuel = bs.length + (k + 1) := ⟨fuel - bs.length - 1, by omega⟩
  obtain ⟨st2, h1, h2, h3, h4, -⟩ := as_read_user_blocks_loop_blocks cfg bs
    { w := w, m := m, buf := buffer, buffer_size := cfg.AS_STACK_BUF_SIZE, users := users }
    (blockBytes v t [] ++ rest) (k + 1) hU hin hok (by
      intro b hb
      have := encodeBlocks_length_ge bs b hb (fun x hx => (hok x hx).1)
      omega)
  have hend := as_read_user_blocks_body_end cfg (k + 1) st2 v t rest h2 hv ht
  refine ⟨{ st2.w with incoming := rest, events := st2.w.events ++ [.as_socket_read 8] },
    storeBytes st2.m st2.buf ([v, t] ++ beBytes 6 0), ?_, rfl, h4⟩
  unfold as_read_user_blocks
  rw [h1, as_read_user_blocks_loop, hend]
  simp only [Bool.true_eq_false, false_and, if_false, h3]
  rw [if_neg (by decide)]

/-- The reader on a stream of well-formed blocks followed by a block in which
a record carries the nonzero result code `c`. -/
theorem as_read_user_blocks_stop (cfg : Config) (w : World) (m : Mem) (buffer : Int)
    (users : List as_user_roles) (bs : List WireBlock) (v t : Nat) (rs : List WireRecord)
    (b0 c : Nat) (junk rest : List Nat) (fuel : Nat)
    (hU : 1 ≤ cfg.AS_USER_SIZE)
    (hin : w.incoming
      = encodeBlocks bs ++ (blockBytes v t (encodeRecords rs ++ b0 :: c :: junk) ++ rest))
    (hok : StreamOK bs) (hv : v < 256) (ht : t < 256)
    (hrs : ∀ r ∈ rs, r.WF ∧ r.result = 0) (hc : c ≠ 0)
    (hbytes : ∀ x ∈ encodeRecords rs ++ b0 :: c :: junk, x < 256)
    (hlen : (encodeRecords rs ++ b0 :: c :: junk).length < 2 ^ 31)
    (hfuel : (encodeBlocks bs).length + (encodeRecords rs ++ b0 :: c :: junk).length < fuel) :
    ∃ w2 m2, as_read_user_blocks cfg w m buffer users fuel
        = .ret (w2, m2, users ++ emittedBlocks cfg bs ++ emittedRecords cfg rs,
            if (c : Int) = QUERY_END then 0 else (c : Int))
      ∧ w2.incoming = rest ∧ w2.node_available = w.node_available := by
  have hble := encodeBlocks_length_le bs
  have hrl := encodeRecords_length_ge rs (fun r hr => (hrs r hr).1)
  have hpl : (encodeRecords rs ++ b0 :: c :: junk).length
      = (encodeRecords rs).length + (junk.length + 2) := by simp
  obtain ⟨k, rfl⟩ : ∃ k, fuel = bs.length + (k + 1) := ⟨fuel - bs.length - 1, by omega⟩
  obtain ⟨st2, h1, h2, h3, h4, -⟩ := as_read_user_blocks_loop_blocks cfg bs
    { w := w, m := m, buf := buffer, buffer_size := cfg.AS_STACK_BUF_SIZE, users := users }
    (blockBytes v t (encodeRecords rs ++ b0 :: c :: junk) ++ rest) (k + 1) hU hin hok (by
      intro b hb
      have := encodeBlocks_length_ge bs b hb (fun x hx => (hok x hx).1)
      omega)
  have hstep := as_read_user_blocks_loop_block cfg (k + 1) st2 v t
    (encodeRecords rs ++ b0 :: c :: junk) rest h2 hv ht (by omega) hlen
  have hparse := as_parse_users_stop cfg _ _ rs b0 c junk st2.users (k + 1) hU hrs hc
    (afterBlock_holds st2 ([v, t] ++ beBytes 6 (encodeRecords rs ++ b0 :: c :: junk).length)
      (encodeRecords rs ++ b0 :: c :: junk) rest st2.users hbytes) (by omega)
  rw [hparse] at hstep
  refine ⟨(afterBlock st2 ([v, t] ++ beBytes 6 (encodeRecords rs ++ b0 :: c :: junk).length)
      (encodeRecords rs ++ b0 :: c :: junk) rest (st2.users ++ emittedRecords cfg rs)).w,
    (afterBlock st2 ([v, t] ++ beBytes 6 (encodeRecords rs ++ b0 :: c :: junk).length)
      (encodeRecords rs ++ b0 :: c :: junk) rest (st2.users ++ emittedRecords cfg rs)).m,
    ?_, rfl, h4⟩
  unfold as_read_user_blocks
  rw [h1, as_read_user_blocks_loop, hstep]
  simp only [true_and]
  rw [if_neg (by omega)]
  simp only [afterBlock, h3]

/-! ## Command encoder lemmas -/

theorem store8_comm (m : Mem) (a b : Int) (v u : Nat) (h : a ≠ b) :
    store8 (store8 m a v) b u = store8 (store8 m b u) a v := by
  funext y
  simp only [store8]
  split_ifs <;> first | rfl | (exfalso; omega)

theorem store8_storeBytes_comm (bs : List Nat) (m : Mem) (a b : Int) (v : Nat)
    (h : b < a ∨ a + bs.length ≤ b) :
    storeBytes (store8 m b v) a bs = store8 (storeBytes m a bs) b v := by
  induction bs generalizing m a with
  | nil => rfl
  | cons x xs ih =>
    simp only [List.length_cons, Nat.cast_add, Nat.cast_one] at h
    simp only [storeBytes]
    rw [store8_comm m b a v x (by omega), ih _ _ (by omega)]

/-- The memory effect of `write_header` is one block copy of the header bytes. -/
theorem write_header_eq (m : Mem) (p : Int) (command field_count : Nat) :
    write_header m p command field_count =
      (storeBytes m p (commandHeader command field_count), p + 16) := by
  simp only [write_header, HEADER_REMAINING, commandHeader, List.replicate, List.cons_append,
    List.nil_append, Nat.cast_ofNat]
  congr 1
  have e : ∀ (c f : Nat) (tl : List Nat) (m0 : Mem),
      store8 (store8 (storeBytes m0 p (0 :: 0 :: 0 :: 0 :: tl)) (p + 2) c) (p + 3) f
        = storeBytes m0 p (0 :: 0 :: c :: f :: tl) := by
    intro c f tl m0
    simp only [storeBytes]
    rw [show p + 1 + 1 = p + 2 by ring, show p + 2 + 1 = p + 3 by ring]
    rw [← store8_storeBytes_comm tl _ (p + 3 + 1) (p + 2) c (Or.inl (by omega)),
      ← store8_storeBytes_comm tl _ (p + 3 + 1) (p + 3) f (Or.inl (by omega))]
    refine congrArg (fun mm => storeBytes mm (p + 3 + 1) tl) ?_
    funext y
    simp only [store8]
    split_ifs <;> rfl
  exact e command field_count _ m

theorem commandHeader_lt (c f : Nat) (hc : c < 256) (hf : f < 256) :
    ∀ b ∈ commandHeader c f, b < 256 := by
  intro b hb
  simp only [commandHeader, List.mem_append, List.mem_cons, List.mem_singleton,
    List.not_mem_nil, or_false] at hb
  rcases hb with (rfl | rfl | rfl | rfl) | hb
  · omega
  · omega
  · exact hc
  · exact hf
  · rw [List.eq_of_mem_replicate hb]; omega

/-- A write that leaves everything below `q` alone keeps a block below `q`. -/
theorem Holds.frame {m m2 : Mem} {a : Int} {bs : List Nat} (q : Int) (h : Holds m a bs)
    (hq : a + bs.length ≤ q) (hf : ∀ x, x < q → load8 m2 x = load8 m x) : Holds m2 a bs := by
  unfold Holds at h ⊢
  refine Eq.trans (loadBytes_congr _ _ _ _ ?_) h
  intro x h1 h2
  exact hf x (by omega)

theorem Holds.join {m : Mem} {a : Int} {xs ys : List Nat} (h1 : Holds m a xs)
    (h2 : Holds m (a + xs.length) ys) : Holds m a (xs ++ ys) := by
  unfold Holds at h1 h2 ⊢
  rw [List.length_append, loadBytes_add, h1, h2]

/-- What `write_field_string` leaves in memory, as a block. -/
theorem write_field_string_holds (host : ByteOrder) (m : Mem) (p : Int) (id : Nat) (s : List Nat)
    (hid : id < 256) (hs : NulFree s) (hn : s.length + 1 < 2 ^ 31) :
    Holds (write_field_string host m p id s).1 p (fieldBytes id s)
      ∧ (write_field_string host m p id s).2 = p + (fieldBytes id s).length
      ∧ ∀ x, x < p → load8 (write_field_string host m p id s).1 x = load8 m x := by
  obtain ⟨h1, h2, -, -, h5⟩ := write_field_string_spec host m p id s hid hs hn
  refine ⟨?_, ?_, fun x hx => h5 x (Or.inl hx)⟩
  · unfold Holds
    rw [fieldBytes_length]
    exact h1
  · rw [h2, fieldBytes_length]; push_cast; ring

/-- What `write_roles` leaves in memory, as a block. -/
theorem write_roles_holds (host : ByteOrder) (m : Mem) (p : Int) (roles : List (List Nat))
    (hk : roles.length ≤ 255) (hr : ∀ r ∈ roles, NulFree r ∧ r.length ≤ 255) :
    Holds (write_roles host m p roles roles.length).1 p (fieldBytes ROLES (rolesPayload roles))
      ∧ (write_roles host m p roles roles.length).2
          = p + (fieldBytes ROLES (rolesPayload roles)).length
      ∧ ∀ x, x < p → load8 (write_roles host m p roles roles.length).1 x = load8 m x := by
  obtain ⟨h1, h2, h3⟩ := write_roles_spec host m p roles hk hr
  refine ⟨?_, ?_, h3⟩
  · unfold Holds
    rw [fieldBytes_length]
    simpa [fieldBytes, rolesPayload, Nat.add_comm] using h1
  · rw [h2, fieldBytes_length]; simp [rolesPayload]; ring

theorem protoHeader_lt (n : Nat) : ∀ b ∈ protoHeader n, b < 256 := by
  intro b hb
  simp only [protoHeader, MSG_VERSION, MSG_TYPE, List.mem_append, List.mem_cons,
    List.mem_singleton, List.not_mem_nil, or_false] at hb
  rcases hb with (rfl | rfl) | hb
  · omega
  · omega
  · exact beBytes_lt _ _ b hb

/-- The bytes `as_send` hands to the socket when the buffer holds `body`
after the 8 bytes reserved for the proto header. -/
theorem as_send_bytes (cfg : Config) (w : World) (m : Mem) (buffer : Int) (body : List Nat)
    (hL : body.length < 2 ^ 48) (hm : Holds m (buffer + 8) body) :
    as_send cfg w m buffer (buffer + 8 + body.length) =
      (w.log (.as_socket_write (protoHeader body.length ++ body)),
        storeBytes m buffer (protoHeader body.length), w.write_status) := by
  have h := as_send_spec cfg w m buffer (8 + body.length) (by omega) (by omega)
  rw [show buffer + ((8 + body.length : Nat) : Int) = buffer + 8 + body.length by push_cast; ring,
    show 8 + body.length - 8 = body.length by omega] at h
  rw [h]
  have hb : Holds (storeBytes m buffer ([0, 2] ++ beBytes 6 body.length)) buffer
      (protoHeader body.length ++ body) := by
    apply Holds.join
    · exact loadBytes_storeBytes_same _ _ _ (protoHeader_lt _)
    · have hl : (protoHeader body.length).length = 8 := by simp [protoHeader, beBytes_length]
      rw [hl]
      unfold Holds
      rw [loadBytes_storeBytes_out _ _ _ _ _ (Or.inr (by simp [beBytes_length]))]
      exact hm
  unfold Holds at hb
  rw [show (protoHeader body.length ++ body).length = 8 + body.length by
    simp [protoHeader, beBytes_length]; omega] at hb
  rw [hb]
  rfl

/-- On a path where a node is found and a connection is leased, `as_execute`
hands the framed request to the socket before anything else happens to the
connection. -/
theorem as_execute_sends (cfg : Config) (w : World) (m : Mem) (buffer : Int) (body : List Nat)
    (hnode : w.node_available = true) (hconn : w.connection_status = 0)
    (hL : body.length < 2 ^ 48) (hm : Holds m (buffer + 8) body) :
    ∃ rest, (as_execute cfg w m buffer (buffer + 8 + body.length)).1.events
      = w.events ++ [.as_node_get_random, .as_node_get_connection,
          .as_socket_write (protoHeader body.length ++ body)] ++ rest := by
  have hs := fun w2 => as_send_bytes cfg w2 m buffer body hL hm
  unfold as_execute
  simp only [World.log, hnode, hconn, hs, ne_eq, not_true_eq_false, if_false, if_true,
    Bool.not_eq_true, Bool.true_eq_false]
  by_cases hw : w.write_status = 0
  · simp only [hw, not_true_eq_false, if_false, as_socket_read_deadline, World.log]
    by_cases hr : HEADER_SIZE ≤ w.incoming.length
    · simp only [hr, if_true, not_true_eq_false, if_false]
      exact ⟨_, by simp only [List.append_assoc, List.cons_append, List.nil_append]; rfl⟩
    · simp only [hr, if_false]
      by_cases hf : w.read_failure = 0
      · simp only [hf, not_true_eq_false, if_false]
        exact ⟨_, by simp only [List.append_assoc, List.cons_append, List.nil_append]; rfl⟩
      · simp only [hf, not_false_eq_true, if_true]
        exact ⟨_, by simp only [List.append_assoc, List.cons_append, List.nil_append]; rfl⟩
  · simp only [hw, not_false_eq_true, if_true]
    exact ⟨_, by simp only [List.append_assoc, List.cons_append, List.nil_append]; rfl⟩

/-- The encoder part of `aerospike_create_user` leaves the request body in the
buffer and calls `as_execute` on it when the body, with the terminator behind
the last role, fits the on-stack array; else a write falls behind the array. -/
theorem aerospike_create_user_eq (cfg : Config) (w : World) (m : Mem) (buffer : Int)
    (user password : List Nat) (roles : List (List Nat))
    (hu : NulFree user) (hul : user.length + 1 < 2 ^ 31)
    (hh : NulFree (cfg.as_password_get_constant_hash password))
    (hhl : (cfg.as_password_get_constant_hash password).length + 1 < 2 ^ 31)
    (hk : roles.length ≤ 255) (hr : ∀ r ∈ roles, NulFree r ∧ r.length ≤ 255) :
    ∃ m4, Holds m4 (buffer + 8)
        (createUserBody user (cfg.as_password_get_constant_hash password) roles)
      ∧ aerospike_create_user cfg w m buffer user password roles roles.length
        = if 8 + (createUserBody user (cfg.as_password_get_constant_hash password) roles).length
              + (if roles = [] then 0 else 1) ≤ cfg.AS_STACK_BUF_SIZE
          then .ret (as_execute cfg w m4 buffer
            (buffer + 8
              + (createUserBody user (cfg.as_password_get_constant_hash password) roles).length))
          else .crash := by
  obtain ⟨hash, hhash⟩ : ∃ h, cfg.as_password_get_constant_hash password = h := ⟨_, rfl⟩
  rw [hhash] at hh hhl ⊢
  have h0 : Holds (storeBytes m (buffer + 8) (commandHeader CREATE_USER 3)) (buffer + 8)
      (commandHeader CREATE_USER 3) :=
    loadBytes_storeBytes_same _ _ _ (commandHeader_lt _ _ (by decide) (by decide))
  have hl0 : (commandHeader CREATE_USER 3).length = 16 := rfl
  obtain ⟨a1, a2, a3⟩ := write_field_string_holds cfg.host
    (storeBytes m (buffer + 8) (commandHeader CREATE_USER 3)) (buffer + 8 + 16) USER user
    (by decide) hu hul
  obtain ⟨m2, hm2⟩ : ∃ m2, (write_field_string cfg.host
    (storeBytes m (buffer + 8) (commandHeader CREATE_USER 3)) (buffer + 8 + 16) USER user).1 = m2 :=
    ⟨_, rfl⟩
  rw [hm2] at a1 a3
  have e2 : write_field_string cfg.host
      (storeBytes m (buffer + 8) (commandHeader CREATE_USER 3)) (buffer + 8 + 16) USER user
      = (m2, buffer + 8 + 16 + (fieldBytes USER user).length) := Prod.ext hm2 a2
  obtain ⟨b1, b2, b3⟩ := write_field_string_holds cfg.host m2
    (buffer + 8 + 16 + (fieldBytes USER user).length) PASSWORD hash (by decide) hh hhl
  obtain ⟨m3, hm3⟩ : ∃ m3, (write_field_string cfg.host m2
    (buffer + 8 + 16 + (fieldBytes USER user).length) PASSWORD hash).1 = m3 := ⟨_, rfl⟩
  rw [hm3] at b1 b3
  have e3 : write_field_string cfg.host m2
      (buffer + 8 + 16 + (fieldBytes USER user).length) PASSWORD hash
      = (m3, buffer + 8 + 16 + (fieldBytes USER user).length + (fieldBytes PASSWORD hash).length) :=
    Prod.ext hm3 b2
  obtain ⟨c1, c2, c3⟩ := write_roles_holds cfg.host m3
    (buffer + 8 + 16 + (fieldBytes USER user).length + (fieldBytes PASSWORD hash).length) roles hk hr
  obtain ⟨m4, hm4⟩ : ∃ m4, (write_roles cfg.host m3
    (buffer + 8 + 16 + (fieldBytes USER user).length + (fieldBytes PASSWORD hash).length)
    roles roles.length).1 = m4 := ⟨_, rfl⟩
  rw [hm4] at c1 c3
  have e4 : write_roles cfg.host m3
      (buffer + 8 + 16 + (fieldBytes USER user).length + (fieldBytes PASSWORD hash).length)
      roles roles.length
      = (m4, buffer + 8 + 16 + (fieldBytes USER user).length + (fieldBytes PASSWORD hash).length
          + (fieldBytes ROLES (rolesPayload roles)).length) := Prod.ext hm4 c2
  refine ⟨m4, ?_, ?_⟩
  · unfold createUserBody
    have hp := Int.natCast_nonneg (fieldBytes USER user).length
    have hq := Int.natCast_nonneg (fieldBytes PASSWORD hash).length
    apply Holds.join
    · refine Holds.frame (buffer + 8 + 16) h0 (by rw [hl0]; push_cast; omega) ?_
      intro x hx
      rw [c3 x (by omega), b3 x (by omega), a3 x hx]
    · rw [hl0]
      apply Holds.join
      · refine Holds.frame (buffer + 8 + 16 + (fieldBytes USER user).length) a1 (le_refl _) ?_
        intro x hx
        rw [c3 x (by omega), b3 x hx]
      · apply Holds.join
        · exact Holds.frame _ b1 (le_refl _) c3
        · exact c1
  · have hlen : (createUserBody user hash roles).length
        = 16 + ((fieldBytes USER user).length + ((fieldBytes PASSWORD hash).length
          + (fieldBytes ROLES (rolesPayload roles)).length)) := by
      simp only [createUserBody, List.length_append, hl0]
    have hend : buffer + 8 + 16 + (fieldBytes USER user).length + (fieldBytes PASSWORD hash).length
          + (fieldBytes ROLES (rolesPayload roles)).length
        = buffer + 8 + (createUserBody user hash roles).length := by
      rw [hlen]; push_cast; ring
    have hU32 : toU32 (roles.length : Int) = roles.length := toU32_of_nat _ (by omega)
    have hf1 := fieldBytes_length USER user
    have hf2 := fieldBytes_length PASSWORD hash
    have hf3 := fieldBytes_length ROLES (rolesPayload roles)
    unfold aerospike_create_user
    simp only [hhash, write_header_eq, e2, e3, e4, hU32, List.take_length, hend]
    by_cases hroles : roles = []
    · subst hroles
      simp only [if_true, Nat.add_zero]
      by_cases hfit : 8 + (createUserBody user hash []).length ≤ cfg.AS_STACK_BUF_SIZE
      · rw [if_pos hfit, if_neg (by omega), if_neg (by omega), if_neg (by omega),
          if_neg (by omega)]
      · rw [if_neg hfit]
        split_ifs <;> first | rfl | (exfalso; omega)
    · simp only [hroles, if_false]
      by_cases hfit : 8 + (createUserBody user hash roles).length + 1 ≤ cfg.AS_STACK_BUF_SIZE
      · rw [if_pos hfit, if_neg (by omega), if_neg (by omega), if_neg (by omega),
          if_neg (by omega)]
      · rw [if_neg hfit]
        split_ifs <;> first | rfl | (exfalso; omega)

theorem roleEntries_replicate_length (n : Nat) (r : List Nat) :
    (roleEntries (List.replicate n r)).length = n * (1 + r.length) := by
  induction n with
  | zero => simp [roleEntries]
  | succ n ih =>
    simp only [List.replicate_succ, roleEntries, List.length_cons, List.length_append, ih]
    ring

/-- A request whose role entries alone fill the on-stack array does not fit it. -/
theorem createUserBody_overflow (size : Nat) (user hash : List Nat) (roles : List (List Nat))
    (n : Nat) (h : size ≤ (roleEntries roles).length) :
    ¬ (8 + (createUserBody user hash roles).length + n ≤ size) := by
  have hge : (roleEntries roles).length ≤ (createUserBody user hash roles).length := by
    simp only [createUserBody, List.length_append, fieldBytes_length, rolesPayload,
      List.length_cons]
    omega
  omega

/-! ## Orchestration lemmas -/

theorem as_send_status (cfg : Config) (w : World) (m : Mem) (buffer end_ : Int) :
    (as_send cfg w m buffer end_).2.2 = w.write_status
      ∧ (as_send cfg w m buffer end_).1.incoming = w.incoming
      ∧ (as_send cfg w m buffer end_).1.node_available = w.node_available := by
  simp only [as_send, as_socket_write_deadline, World.log, and_self]

/-- The streaming path once a node is found, a connection is leased and the
request is sent. -/
theorem as_read_users_eq (cfg : Config) (w : World) (m : Mem) (buffer end_ : Int)
    (users : List as_user_roles) (fuel : Nat)
    (hnode : w.node_available = true) (hconn : w.connection_status = 0)
    (hwrite : w.write_status = 0) :
    as_read_users cfg w m buffer end_ users fuel =
      match as_read_user_blocks cfg
          (as_send cfg ((w.log .as_node_get_random).log .as_node_get_connection) m buffer end_).1
          (as_send cfg ((w.log .as_node_get_random).log .as_node_get_connection) m buffer end_).2.1
          buffer users fuel with
      | .crash => .crash
      | .exhausted => .exhausted
      | .ret (w2, m2, users2, status) =>
        .ret ((if status ≥ 0 then w2.log .as_node_put_connection else w2.log .as_close).log
          .as_node_release, m2, users2, status) := by
  have hs := (as_send_status cfg ((w.log .as_node_get_random).log .as_node_get_connection)
    m buffer end_).1
  have hw : ((w.log .as_node_get_random).log .as_node_get_connection).write_status = 0 := hwrite
  rw [hw] at hs
  unfold as_read_users
  have h1 : (w.log .as_node_get_random).node_available = true := hnode
  have h2 : ((w.log .as_node_get_random).log .as_node_get_connection).connection_status = 0 :=
    hconn
  simp only [h1, h2, hs, not_true_eq_false, if_false, ne_eq]

theorem toU32_zero : toU32 0 = 0 := by decide

/-- The `for` loop of `as_free_users` on a heap with no live block left. -/
theorem as_free_users_loop_freed (users : as_vector) (k i : Nat) :
    as_free_users_loop users k i [] = if k = 0 then some [] else none := by
  cases k with
  | zero => rfl
  | succ k => simp [as_free_users_loop, cf_free]

/-- On a vector set up by `as_vector_init`, `as_free_users(users, 0)` frees
the slot array through slot 0 and fails at the next `cf_free`: the one of
slot 1, or the one of `as_vector_destroy`. It returns when the vector is
empty. -/
theorem as_free_users_slots (list : Int) (n : Nat) :
    as_free_users [list] { list := list, item_size := 8, size := n } 0
      = if n = 0 then some [] else none := by
  cases n with
  | zero =>
    simp [as_free_users, as_free_users_loop, as_vector_destroy, cf_free, toU32_zero]
  | succ n =>
    have h0 : cf_free [list] (as_vector_get { list := list, item_size := 8, size := n + 1 } 0)
        = some [] := by
      simp [cf_free, as_vector_get]
    simp only [as_free_users, toU32_zero, Nat.sub_zero, as_free_users_loop, h0,
      as_free_users_loop_freed]
    cases n with
    | zero => simp [as_vector_destroy, cf_free]
    | succ n => simp

/-- What `aerospike_query_users` does when the streaming path returns a
nonzero status: it hands the status back with a null list when no record was
parsed, and fails inside `as_free_users` when a record was parsed. -/
theorem aerospike_query_users_failed (cfg : Config) (w : World) (m : Mem) (buffer : Int)
    (fuel : Nat) (w2 : World) (m2 : Mem) (users2 : List as_user_roles) (status : Int)
    (hnode : w.node_available = true) (hconn : w.connection_status = 0)
    (hwrite : w.write_status = 0) (hst : status ≠ 0)
    (h : as_read_user_blocks cfg
          (as_send cfg ((w.log .as_node_get_random).log .as_node_get_connection)
            (write_header m (buffer + 8) QUERY_USERS 0).1 buffer
            (write_header m (buffer + 8) QUERY_USERS 0).2).1
          (as_send cfg ((w.log .as_node_get_random).log .as_node_get_connection)
            (write_header m (buffer + 8) QUERY_USERS 0).1 buffer
            (write_header m (buffer + 8) QUERY_USERS 0).2).2.1
          buffer [] fuel = .ret (w2, m2, users2, status)) :
    aerospike_query_users cfg w m buffer fuel =
      if users2.length = 0 then
        .ret ((if status ≥ 0 then w2.log .as_node_put_connection else w2.log .as_close).log
            .as_node_release,
          { status := status, user_roles := none, user_roles_size := 0 })
      else .crash := by
  unfold aerospike_query_users
  simp only [as_read_users_eq cfg w _ buffer _ [] fuel hnode hconn hwrite, h, hst, if_false,
    as_free_users_slots]
  by_cases hn : users2.length = 0
  · simp only [hn, if_true]
  · simp only [hn, if_false]

/-! ## Emitted records -/

theorem cstr_eq_nil_iff (l : List Nat) : cstr l = [] ↔ l.headD 0 = 0 := by
  cases l with
  | nil => simp [cstr]
  | cons x t =>
    simp only [cstr, List.headD_cons, List.takeWhile_cons]
    by_cases hx : x = 0
    · simp [hx]
    · simp [hx]

theorem cstr_nulFree (s : List Nat) (h : NulFree s) : cstr (s ++ [0]) = s := by
  induction s with
  | nil => simp [cstr]
  | cons x t ih =>
    have hx := (h x (List.mem_cons_self _ _)).1
    have ht : NulFree t := fun b hb => h b (List.mem_cons_of_mem _ hb)
    have := ih ht
    simp only [cstr] at this ⊢
    simp only [List.cons_append, List.takeWhile_cons]
    have hx0 : (x != 0) = true := by simp; omega
    simp only [hx0, if_true, this]

theorem foldl_apply_roles (cfg : Config) (fs : List WireField)
    (st : List Nat × Option as_user_roles) :
    (fs.foldl (WireField.apply cfg) st).2 = none
      ↔ st.2 = none ∧ fs.any WireField.isRoles = false := by
  induction fs generalizing st with
  | nil => simp
  | cons f fs ih =>
    rw [List.foldl_cons, ih]
    cases f <;> simp [WireField.apply, WireField.isRoles]

theorem decoded_roles_none_iff (cfg : Config) (r : WireRecord) :
    (r.decoded cfg).2 = none ↔ r.fields.any WireField.isRoles = false := by
  unfold WireRecord.decoded
  rw [foldl_apply_roles]
  simp

theorem emitted_eq_nil_iff (cfg : Config) (r : WireRecord) :
    r.emitted cfg = [] ↔ (cstr (r.decoded cfg).1 = [] ∧ r.fields.any WireField.isRoles = false) := by
  rw [cstr_eq_nil_iff, ← decoded_roles_none_iff cfg r]
  unfold WireRecord.emitted
  by_cases h : (r.decoded cfg).1.headD 0 = 0 ∧ (r.decoded cfg).2 = none
  · simp only [h, and_self, if_true]
  · simp only [h, if_false]
    simp

theorem emitted_length_le (cfg : Config) (r : WireRecord) : (r.emitted cfg).length ≤ 1 := by
  unfold WireRecord.emitted
  by_cases h : (r.decoded cfg).1.headD 0 = 0 ∧ (r.decoded cfg).2 = none
  · simp only [h, and_self, if_true, List.length_nil, Nat.zero_le]
  · simp only [h, if_false, List.length_singleton, le_refl]

/-! ## Single-result path -/

theorem load8_storeBytes_at (bs : List Nat) (m : Mem) (a : Int) (i : Nat) (h : i < bs.length) :
    load8 (storeBytes m a bs) (a + i) = bs.getD i 0 % 256 := by
  induction bs generalizing m a i with
  | nil => simp at h
  | cons b bs ih =>
    cases i with
    | zero =>
      simp only [storeBytes, Nat.cast_zero, add_zero, List.getD_cons_zero]
      rw [load8_storeBytes_out _ _ _ _ (Or.inl (by omega)), load8_store8_same]
    | succ i =>
      simp only [storeBytes, List.getD_cons_succ]
      rw [show a + ((i + 1 : Nat) : Int) = a + 1 + (i : Int) by push_cast; ring]
      exact ih _ _ i (by simpa using h)

/-- The world after `as_send`: only the write is added to the log. -/
theorem as_send_world (cfg : Config) (w : World) (m : Mem) (buffer end_ : Int) :
    (as_send cfg w m buffer end_).1
      = w.log (.as_socket_write
          (loadBytes (as_send cfg w m buffer end_).2.1 buffer (toU64 (end_ - buffer)))) := by
  simp only [as_send, as_socket_write_deadline]

/-- The three outcomes of `as_execute` once a node is found and a connection
is leased. -/
theorem as_execute_cases (cfg : Config) (w : World) (m : Mem) (buffer end_ : Int)
    (hnode : w.node_available = true) (hconn : w.connection_status = 0) :
    ∃ bytes : List Nat,
      (w.write_status ≠ 0 →
        (as_execute cfg w m buffer end_).2.2 = w.write_status
        ∧ (as_execute cfg w m buffer end_).1.events
          = w.events ++ [.as_node_get_random, .as_node_get_connection, .as_socket_write bytes,
              .as_close, .as_node_release])
      ∧ (w.write_status = 0 → HEADER_SIZE ≤ w.incoming.length →
        (as_execute cfg w m buffer end_).2.2 = ((w.incoming.getD 9 0 % 256 : Nat) : Int)
        ∧ (as_execute cfg w m buffer end_).1.events
          = w.events ++ [.as_node_get_random, .as_node_get_connection, .as_socket_write bytes,
              .as_socket_read HEADER_SIZE, .as_node_put_connection, .as_node_release])
      ∧ (w.write_status = 0 → w.incoming.length < HEADER_SIZE → w.read_failure ≠ 0 →
        (as_execute cfg w m buffer end_).2.2 = w.read_failure
        ∧ (as_execute cfg w m buffer end_).1.events
          = w.events ++ [.as_node_get_random, .as_node_get_connection, .as_socket_write bytes,
              .as_socket_read HEADER_SIZE, .as_close, .as_node_release]) := by
  obtain ⟨hs1, -, -⟩ := as_send_status cfg
    ((w.log .as_node_get_random).log .as_node_get_connection) m buffer end_
  have hs2 := as_send_world cfg ((w.log .as_node_get_random).log .as_node_get_connection)
    m buffer end_
  have hw : ((w.log .as_node_get_random).log .as_node_get_connection).write_status
      = w.write_status := rfl
  rw [hw] at hs1
  have h1 : (w.log .as_node_get_random).node_available = true := hnode
  have h2 : ((w.log .as_node_get_random).log .as_node_get_connection).connection_status = 0 :=
    hconn
  refine ⟨loadBytes (as_send cfg ((w.log .as_node_get_random).log .as_node_get_connection)
    m buffer end_).2.1 buffer (toU64 (end_ - buffer)), ?_, ?_, ?_⟩
  · intro hne
    unfold as_execute
    simp only [h1, h2, hs1, hne, ne_eq, not_true_eq_false, not_false_eq_true, if_true,
      if_false, true_and]
    rw [hs2]
    simp only [World.log, List.append_assoc, List.cons_append, List.nil_append]
  · intro h0 hlen
    unfold as_execute
    simp only [h1, h2, hs1, h0, ne_eq, not_true_eq_false, if_false]
    rw [hs2, as_socket_read_deadline_ok _ _ _ _ (by simpa [World.log] using hlen)]
    simp only [not_true_eq_false, if_false, World.log, List.append_assoc, List.cons_append,
      List.nil_append, and_true, RESULT_CODE, HEADER_SIZE]
    have h9 : ∀ mm : Mem, load8 (storeBytes mm buffer (List.take 24 w.incoming)) (buffer + 9)
        = (List.take 24 w.incoming).getD 9 0 % 256 := by
      intro mm
      have := load8_storeBytes_at (List.take 24 w.incoming) mm buffer 9
        (by simp only [List.length_take, HEADER_SIZE] at hlen ⊢; omega)
      simpa only [Nat.cast_ofNat] using this
    rw [h9]
    congr 2
    simp only [List.getD_eq_getElem?_getD, List.getElem?_take]
    simp
  · intro h0 hlen hrf
    unfold as_execute
    simp only [h1, h2, hs1, h0, ne_eq, not_true_eq_false, if_false]
    rw [hs2]
    simp only [as_socket_read_deadline, World.log, Nat.not_le.mpr hlen, if_false, hrf,
      not_false_eq_true, if_true, List.append_assoc, List.cons_append, List.nil_append, and_self]

/-! ## Events of the streaming path -/

theorem as_socket_read_deadline_events (w : World) (m : Mem) (buf : Int) (n : Nat) :
    (as_socket_read_deadline w m buf n).1.events = w.events ++ [.as_socket_read n] := by
  unfold as_socket_read_deadline
  simp only [World.log]
  split <;> rfl

theorem OnlyReads.append_reads {xs ys : List Event} (hx : OnlyReads xs) (hy : OnlyReads ys) :
    OnlyReads (xs ++ ys) := by
  intro e he
  rcases List.mem_append.mp he with h | h
  · exact hx e h
  · exact hy e h

theorem onlyReads_nil : OnlyReads [] := fun e he => by cases he

theorem onlyReads_single (n : Nat) : OnlyReads [.as_socket_read n] := by
  intro e he
  exact ⟨n, List.mem_singleton.mp he⟩

theorem OnlyReads.count_zero {es : List Event} (h : OnlyReads es) (e : Event)
    (he : ∀ n, e ≠ .as_socket_read n) : es.count e = 0 := by
  rw [List.count_eq_zero]
  intro hm
  obtain ⟨n, hn⟩ := h e hm
  exact he n hn

/-- The payload branch of the reader only adds one socket read to the log. -/
theorem as_read_user_blocks_payload_events (cfg : Config) (st : BlockState) (w : World)
    (m : Mem) (size : Int) (fuel : Nat) (st2 : BlockState) (s : Int) (l : Bool)
    (h : as_read_user_blocks_payload cfg st w m size fuel = .ret (st2, s, l)) :
    st2.w.events = w.events ++ [.as_socket_read size.toNat] := by
  have he := fun buf => as_socket_read_deadline_events w m buf size.toNat
  unfold as_read_user_blocks_payload at h
  simp only [] at h
  generalize (if decide (size > st.buffer_size) = true then w.cf_malloc size else st.buf)
    = buf at h
  generalize (if decide (size > st.buffer_size) = true then size else st.buffer_size)
    = bsz at h
  by_cases hrd : (as_socket_read_deadline w m buf size.toNat).2.2 = 0
  · simp only [hrd, ne_eq, not_true_eq_false, if_false] at h
    cases hp : as_parse_users cfg (as_socket_read_deadline w m buf size.toNat).2.1 buf size
        st.users fuel with
    | crash => rw [hp] at h; cases h
    | exhausted => rw [hp] at h; cases h
    | ret r =>
      rw [hp] at h
      simp only [Run.ret.injEq, Prod.mk.injEq] at h
      rw [← h.1]
      exact he buf
  · simp only [hrd, ne_eq, not_false_eq_true, if_true, Run.ret.injEq, Prod.mk.injEq] at h
    rw [← h.1]
    exact he buf

/-- One turn of the reader loop only adds socket reads to the log. -/
theorem as_read_user_blocks_body_events (cfg : Config) (st : BlockState) (fuel : Nat)
    (st2 : BlockState) (s : Int) (l : Bool)
    (h : as_read_user_blocks_body cfg st fuel = .ret (st2, s, l)) :
    ∃ es, st2.w.events = st.w.events ++ es ∧ OnlyReads es := by
  have he := as_socket_read_deadline_events st.w st.m st.buf 8
  unfold as_read_user_blocks_body at h
  simp only [] at h
  by_cases hrd : (as_socket_read_deadline st.w st.m st.buf 8).2.2 = 0
  · simp only [hrd, ne_eq, not_true_eq_false, if_false] at h
    split at h
    · have := as_read_user_blocks_payload_events cfg st _ _ _ fuel st2 s l h
      rw [this, he, List.append_assoc]
      exact ⟨_, rfl, (onlyReads_single 8).append_reads (onlyReads_single _)⟩
    · simp only [Run.ret.injEq, Prod.mk.injEq] at h
      rw [← h.1]
      exact ⟨_, he, onlyReads_single 8⟩
  · simp only [hrd, ne_eq, not_false_eq_true, if_true, Run.ret.injEq, Prod.mk.injEq] at h
    rw [← h.1]
    exact ⟨_, he, onlyReads_single 8⟩

theorem as_read_user_blocks_loop_events (cfg : Config) (fuel : Nat) (st st2 : BlockState)
    (s : Int) (h : as_read_user_blocks_loop cfg fuel st = .ret (st2, s)) :
    ∃ es, st2.w.events = st.w.events ++ es ∧ OnlyReads es := by
  induction fuel generalizing st with
  | zero => simp [as_read_user_blocks_loop] at h
  | succ fuel ih =>
    rw [as_read_user_blocks_loop] at h
    cases hb : as_read_user_blocks_body cfg st (fuel + 1) with
    | crash => rw [hb] at h; cases h
    | exhausted => rw [hb] at h; cases h
    | ret r =>
      obtain ⟨st1, s1, l1⟩ := r
      rw [hb] at h
      obtain ⟨es1, h1, ho1⟩ := as_read_user_blocks_body_events cfg st (fuel + 1) st1 s1 l1 hb
      simp only [] at h
      split at h
      · obtain ⟨es2, h2, ho2⟩ := ih st1 h
        exact ⟨es1 ++ es2, by rw [h2, h1, List.append_assoc], ho1.append_reads ho2⟩
      · simp only [Run.ret.injEq, Prod.mk.injEq] at h
        rw [← h.1]
        exact ⟨es1, h1, ho1⟩

theorem as_read_user_blocks_events (cfg : Config) (w : World) (m : Mem) (buffer : Int)
    (users : List as_user_roles) (fuel : Nat) (w2 : World) (m2 : Mem)
    (users2 : List as_user_roles) (s : Int)
    (h : as_read_user_blocks cfg w m buffer users fuel = .ret (w2, m2, users2, s)) :
    ∃ es, w2.events = w.events ++ es ∧ OnlyReads es := by
  unfold as_read_user_blocks at h
  cases hl : as_read_user_blocks_loop cfg fuel
      { w := w, m := m, buf := buffer, buffer_size := cfg.AS_STACK_BUF_SIZE, users := users } with
  | crash => rw [hl] at h; cases h
  | exhausted => rw [hl] at h; cases h
  | ret r =>
    obtain ⟨st1, s1⟩ := r
    rw [hl] at h
    simp only [Run.ret.injEq, Prod.mk.injEq] at h
    rw [← h.1]
    exact as_read_user_blocks_loop_events cfg fuel _ st1 s1 hl

/-- Events of `as_read_users` once a node is found, a connection is leased
and the request is sent: the reads of the block reader, then the disposal
chosen by the sign of the status, then the release. -/
theorem as_read_users_events (cfg : Config) (w : World) (m : Mem) (buffer end_ : Int)
    (users : List as_user_roles) (fuel : Nat)
    (hnode : w.node_available = true) (hconn : w.connection_status = 0)
    (hwrite : w.write_status = 0)
    (w2 : World) (m2 : Mem) (users2 : List as_user_roles) (s : Int)
    (h : as_read_users cfg w m buffer end_ users fuel = .ret (w2, m2, users2, s)) :
    ∃ (bytes : List Nat) (reads : List Event), OnlyReads reads
      ∧ w2.events = w.events
          ++ [.as_node_get_random, .as_node_get_connection, .as_socket_write bytes]
          ++ reads
          ++ [if s ≥ 0 then .as_node_put_connection else .as_close, .as_node_release] := by
  rw [as_read_users_eq cfg w m buffer end_ users fuel hnode hconn hwrite] at h
  have hs2 := as_send_world cfg ((w.log .as_node_get_random).log .as_node_get_connection)
    m buffer end_
  cases hb : as_read_user_blocks cfg
      (as_send cfg ((w.log .as_node_get_random).log .as_node_get_connection) m buffer end_).1
      (as_send cfg ((w.log .as_node_get_random).log .as_node_get_connection) m buffer end_).2.1
      buffer users fuel with
  | crash => rw [hb] at h; cases h
  | exhausted => rw [hb] at h; cases h
  | ret r =>
    obtain ⟨w1, m1, us1, s1⟩ := r
    rw [hb] at h
    obtain ⟨es, he, ho⟩ := as_read_user_blocks_events cfg _ _ buffer users fuel w1 m1 us1 s1 hb
    rw [hs2] at he
    simp only [Run.ret.injEq, Prod.mk.injEq] at h
    obtain ⟨hw, -, -, hs⟩ := h
    subst hs
    refine ⟨loadBytes (as_send cfg ((w.log .as_node_get_random).log .as_node_get_connection)
      m buffer end_).2.1 buffer (toU64 (end_ - buffer)), es, ho, ?_⟩
    rw [← hw]
    by_cases hge : s1 ≥ 0
    · simp only [hge, if_true, World.log, he, List.append_assoc, List.cons_append,
        List.nil_append]
    · simp only [hge, if_false, World.log, he, List.append_assoc, List.cons_append,
        List.nil_append]

/-- The reader on a stream that stops short of a block header after some
well-formed blocks: the read fails and the status is -1. -/
theorem as_read_user_blocks_short (cfg : Config) (w : World) (m : Mem) (buffer : Int)
    (users : List as_user_roles) (bs : List WireBlock) (tail : List Nat) (fuel : Nat)
    (hU : 1 ≤ cfg.AS_USER_SIZE)
    (hin : w.incoming = encodeBlocks bs ++ tail) (hok : StreamOK bs)
    (htail : tail.length < 8) (hrf : w.read_failure ≠ 0)
    (hfuel : (encodeBlocks bs).length < fuel) :
    ∃ w2 m2 users2, as_read_user_blocks cfg w m buffer users fuel
        = .ret (w2, m2, users2, -1) := by
  have hble := encodeBlocks_length_le bs
  obtain ⟨k, rfl⟩ : ∃ k, fuel = bs.length + (k + 1) := ⟨fuel - bs.length - 1, by omega⟩
  obtain ⟨st2, h1, h2, h3, h4, h5⟩ := as_read_user_blocks_loop_blocks cfg bs
    { w := w, m := m, buf := buffer, buffer_size := cfg.AS_STACK_BUF_SIZE, users := users }
    tail (k + 1) hU hin hok (by
      intro b hb
      have := encodeBlocks_length_ge bs b hb (fun x hx => (hok x hx).1)
      omega)
  have hbody : as_read_user_blocks_body cfg st2 (k + 1)
      = .ret ({ st2 with w := { (st2.w.log (.as_socket_read 8)) with incoming := [] } },
          -1, true) := by
    unfold as_read_user_blocks_body
    simp only [as_socket_read_deadline, World.log, h2, Nat.not_le.mpr htail, if_false, h5, hrf,
      ne_eq, not_false_eq_true, if_true]
  have key : as_read_user_blocks cfg w m buffer users (bs.length + (k + 1))
      = .ret ({ (st2.w.log (.as_socket_read 8)) with incoming := [] }, st2.m, st2.users, -1) := by
    unfold as_read_user_blocks
    rw [h1, as_read_user_blocks_loop, hbody]
    simp only [Bool.true_eq_false, false_and, if_false]
    rw [if_neg (by decide)]
  exact ⟨_, _, _, key⟩

theorem releases_append (xs ys : List Event) : releases (xs ++ ys) = releases xs + releases ys := by
  simp [releases, List.count_append]

theorem disposals_append (xs ys : List Event) :
    disposals (xs ++ ys) = disposals xs + disposals ys := by
  simp [disposals, List.count_append]; omega

theorem OnlyReads.releases_zero {es : List Event} (h : OnlyReads es) : releases es = 0 :=
  h.count_zero _ (fun n hn => by cases hn)

theorem OnlyReads.disposals_zero {es : List Event} (h : OnlyReads es) : disposals es = 0 := by
  unfold disposals
  rw [h.count_zero _ (fun n hn => by cases hn), h.count_zero _ (fun n hn => by cases hn)]

theorem log_events (w : World) (e : Event) : (w.log e).events = w.events ++ [e] := rfl

/-- Shapes of the events `as_execute` adds to the log. -/
theorem as_execute_events (cfg : Config) (w : World) (m : Mem) (buffer end_ : Int) :
    ∃ es, (as_execute cfg w m buffer end_).1.events = w.events ++ es
      ∧ ((w.node_available = false ∧ es = [.as_node_get_random])
        ∨ (w.node_available = true ∧ w.connection_status ≠ 0
            ∧ es = [.as_node_get_random, .as_node_get_connection, .as_node_release])
        ∨ (w.node_available = true ∧ w.connection_status = 0
            ∧ ∃ (bytes : List Nat) (reads : List Event) (d : Event), OnlyReads reads
              ∧ (d = .as_close ∨ d = .as_node_put_connection)
              ∧ es = [.as_node_get_random, .as_node_get_connection, .as_socket_write bytes]
                  ++ reads ++ [d, .as_node_release])) := by
  by_cases hnode : w.node_available = true
  · by_cases hconn : w.connection_status = 0
    · have hs2 := as_send_world cfg ((w.log .as_node_get_random).log .as_node_get_connection)
        m buffer end_
      obtain ⟨hs1, -, -⟩ := as_send_status cfg
        ((w.log .as_node_get_random).log .as_node_get_connection) m buffer end_
      have h1 : (w.log .as_node_get_random).node_available = true := hnode
      have h2 : ((w.log .as_node_get_random).log .as_node_get_connection).connection_status
          = 0 := hconn
      have hw : ((w.log .as_node_get_random).log .as_node_get_connection).write_status
          = w.write_status := rfl
      rw [hw] at hs1
      obtain ⟨bytes, hbytes⟩ : ∃ bytes, loadBytes
        (as_send cfg ((w.log .as_node_get_random).log .as_node_get_connection) m buffer end_).2.1
        buffer (toU64 (end_ - buffer)) = bytes := ⟨_, rfl⟩
      rw [hbytes] at hs2
      by_cases hwr : w.write_status = 0
      · have hre := as_socket_read_deadline_events
          (as_send cfg ((w.log .as_node_get_random).log .as_node_get_connection) m buffer
            end_).1
          (as_send cfg ((w.log .as_node_get_random).log .as_node_get_connection) m buffer
            end_).2.1
          buffer HEADER_SIZE
        rw [hs2] at hre
        by_cases hrd : (as_socket_read_deadline
            (as_send cfg ((w.log .as_node_get_random).log .as_node_get_connection) m buffer
              end_).1
            (as_send cfg ((w.log .as_node_get_random).log .as_node_get_connection) m buffer
              end_).2.1
            buffer HEADER_SIZE).2.2 = 0
        · refine ⟨_, ?_, Or.inr (Or.inr ⟨hnode, hconn, bytes, [.as_socket_read HEADER_SIZE],
            .as_node_put_connection, onlyReads_single _, Or.inr rfl, rfl⟩)⟩
          unfold as_execute
          simp only [h1, h2, hs1, hwr, hrd, ne_eq, not_true_eq_false, if_false]
          simp only [log_events, hs2, hre, List.append_assoc, List.cons_append, List.nil_append]
        · refine ⟨_, ?_, Or.inr (Or.inr ⟨hnode, hconn, bytes, [.as_socket_read HEADER_SIZE],
            .as_close, onlyReads_single _, Or.inl rfl, rfl⟩)⟩
          unfold as_execute
          simp only [h1, h2, hs1, hwr, hrd, ne_eq, not_true_eq_false, not_false_eq_true,
            if_false, if_true]
          simp only [log_events, hs2, hre, List.append_assoc, List.cons_append, List.nil_append]
      · refine ⟨_, ?_, Or.inr (Or.inr ⟨hnode, hconn, bytes, [], .as_close, onlyReads_nil,
          Or.inl rfl, rfl⟩)⟩
        unfold as_execute
        simp only [h1, h2, hs1, hwr, ne_eq, not_true_eq_false, not_false_eq_true, if_false,
          if_true]
        simp only [log_events, hs2, List.append_assoc, List.cons_append, List.nil_append]
    · refine ⟨_, ?_, Or.inr (Or.inl ⟨hnode, hconn, rfl⟩)⟩
      have h1 : (w.log .as_node_get_random).node_available = true := hnode
      have h2 : ¬ ((w.log .as_node_get_random).log .as_node_get_connection).connection_status
          = 0 := hconn
      unfold as_execute
      simp only [h1, h2, ne_eq, not_true_eq_false, not_false_eq_true, if_false, if_true]
      simp only [log_events, List.append_assoc, List.cons_append, List.nil_append]
  · have hf : w.node_available = false := by simpa using hnode
    refine ⟨_, ?_, Or.inl ⟨hf, rfl⟩⟩
    have h1 : ¬ (w.log .as_node_get_random).node_available = true := hnode
    unfold as_execute
    simp only [h1, not_false_eq_true, if_true]
    rfl

/-- Shapes of the events `as_read_users` adds to the log when it returns. -/
theorem as_read_users_shapes (cfg : Config) (w : World) (m : Mem) (buffer end_ : Int)
    (users : List as_user_roles) (fuel : Nat)
    (w2 : World) (m2 : Mem) (users2 : List as_user_roles) (s : Int)
    (h : as_read_users cfg w m buffer end_ users fuel = .ret (w2, m2, users2, s)) :
    ∃ es, w2.events = w.events ++ es
      ∧ ((w.node_available = false ∧ es = [.as_node_get_random])
        ∨ (w.node_available = true ∧ w.connection_status ≠ 0
            ∧ es = [.as_node_get_random, .as_node_get_connection, .as_node_release])
        ∨ (w.node_available = true ∧ w.connection_status = 0
            ∧ ∃ (bytes : List Nat) (reads : List Event) (d : Event), OnlyReads reads
              ∧ (d = .as_close ∨ d = .as_node_put_connection)
              ∧ es = [.as_node_get_random, .as_node_get_connection, .as_socket_write bytes]
                  ++ reads ++ [d, .as_node_release])) := by
  by_cases hnode : w.node_available = true
  · by_cases hconn : w.connection_status = 0
    · by_cases hwr : w.write_status = 0
      · obtain ⟨bytes, reads, ho, he⟩ := as_read_users_events cfg w m buffer end_ users fuel
          hnode hconn hwr w2 m2 users2 s h
        refine ⟨_, ?_, Or.inr (Or.inr ⟨hnode, hconn, bytes, reads,
          if s ≥ 0 then .as_node_put_connection else .as_close, ho, ?_, rfl⟩)⟩
        · simp only [he, List.append_assoc]
        · by_cases hs : s ≥ 0
          · simp only [hs, if_true, or_true]
          · simp only [hs, if_false, true_or]
      · have hs2 := as_send_world cfg ((w.log .as_node_get_random).log .as_node_get_connection)
          m buffer end_
        obtain ⟨hs1, -, -⟩ := as_send_status cfg
          ((w.log .as_node_get_random).log .as_node_get_connection) m buffer end_
        have h1 : (w.log .as_node_get_random).node_available = true := hnode
        have h2 : ((w.log .as_node_get_random).log .as_node_get_connection).connection_status
            = 0 := hconn
        have hw : ((w.log .as_node_get_random).log .as_node_get_connection).write_status
            = w.write_status := rfl
        rw [hw] at hs1
        obtain ⟨bytes, hbytes⟩ : ∃ bytes, loadBytes
          (as_send cfg ((w.log .as_node_get_random).log .as_node_get_connection) m buffer
            end_).2.1
          buffer (toU64 (end_ - buffer)) = bytes := ⟨_, rfl⟩
        rw [hbytes] at hs2
        unfold as_read_users at h
        simp only [h1, h2, hs1, hwr, ne_eq, not_true_eq_false, not_false_eq_true, if_false,
          if_true, Run.ret.injEq, Prod.mk.injEq] at h
        refine ⟨_, ?_, Or.inr (Or.inr ⟨hnode, hconn, bytes, [], .as_close, onlyReads_nil,
          Or.inl rfl, rfl⟩)⟩
        rw [← h.1]
        simp only [log_events, hs2, List.append_assoc, List.cons_append, List.nil_append]
    · refine ⟨_, ?_, Or.inr (Or.inl ⟨hnode, hconn, rfl⟩)⟩
      have h1 : (w.log .as_node_get_random).node_available = true := hnode
      have h2 : ¬ ((w.log .as_node_get_random).log .as_node_get_connection).connection_status
          = 0 := hconn
      unfold as_read_users at h
      simp only [h1, h2, ne_eq, not_true_eq_false, not_false_eq_true, if_false, if_true,
        Run.ret.injEq, Prod.mk.injEq] at h
      rw [← h.1]
      simp only [log_events, List.append_assoc, List.cons_append, List.nil_append]
  · have hf : w.node_available = false := by simpa using hnode
    refine ⟨_, ?_, Or.inl ⟨hf, rfl⟩⟩
    have h1 : ¬ (w.log .as_node_get_random).node_available = true := hnode
    unfold as_read_users at h
    simp only [h1, Bool.false_eq_true, not_false_eq_true, if_true, Run.ret.injEq, Prod.mk.injEq] at h
    rw [← h.1]
    rfl

/-- Counts of releases and disposals for each shape of the log. -/
theorem shape_counts (w : World) (es : List Event)
    (h : (w.node_available = false ∧ es = [.as_node_get_random])
        ∨ (w.node_available = true ∧ w.connection_status ≠ 0
            ∧ es = [.as_node_get_random, .as_node_get_connection, .as_node_release])
        ∨ (w.node_available = true ∧ w.connection_status = 0
            ∧ ∃ (bytes : List Nat) (reads : List Event) (d : Event), OnlyReads reads
              ∧ (d = .as_close ∨ d = .as_node_put_connection)
              ∧ es = [.as_node_get_random, .as_node_get_connection, .as_socket_write bytes]
                  ++ reads ++ [d, .as_node_release])) :
    (w.node_available = true → releases es = 1)
    ∧ (w.node_available = true → w.connection_status = 0 → disposals es = 1)
    ∧ (w.node_available = false → releases es = 0 ∧ disposals es = 0)
    ∧ (w.connection_status ≠ 0 → disposals es = 0) := by
  rcases h with ⟨hn, rfl⟩ | ⟨hn, hc, rfl⟩ | ⟨hn, hc, bytes, reads, d, ho, hd, rfl⟩
  · refine ⟨fun h => ?_, fun h => ?_, fun _ => ⟨by decide, by decide⟩, fun _ => by decide⟩
    · rw [hn] at h; cases h
    · rw [hn] at h; cases h
  · refine ⟨fun _ => by decide, fun _ h => absurd h hc, fun h => ?_, fun _ => by decide⟩
    rw [hn] at h; cases h
  · have hr : releases ([Event.as_node_get_random, .as_node_get_connection,
        .as_socket_write bytes] ++ reads ++ [d, .as_node_release]) = 1 := by
      rw [releases_append, releases_append, ho.releases_zero]
      rcases hd with rfl | rfl <;> simp [releases, List.count_cons]
    have hdp : disposals ([Event.as_node_get_random, .as_node_get_connection,
        .as_socket_write bytes] ++ reads ++ [d, .as_node_release]) = 1 := by
      rw [disposals_append, disposals_append, ho.disposals_zero]
      rcases hd with rfl | rfl <;> simp [disposals, List.count_cons]
    refine ⟨fun _ => hr, fun _ _ => hdp, fun h => ?_, fun h => absurd hc h⟩
    rw [hn] at h; cases h

/-- The streaming path on a stream closed by a header of payload length 0. -/
theorem as_read_users_done (cfg : Config) (w : World) (m : Mem) (buffer end_ : Int)
    (users : List as_user_roles) (bs : List WireBlock) (v t : Nat) (rest : List Nat) (fuel : Nat)
    (hU : 1 ≤ cfg.AS_USER_SIZE)
    (hnode : w.node_available = true) (hconn : w.connection_status = 0)
    (hwrite : w.write_status = 0)
    (hin : w.incoming = encodeBlocks bs ++ (blockBytes v t [] ++ rest))
    (hok : StreamOK bs) (hv : v < 256) (ht : t < 256)
    (hfuel : (encodeBlocks bs).length < fuel) :
    ∃ w2 m2, as_read_users cfg w m buffer end_ users fuel
        = .ret (w2, m2, users ++ emittedBlocks cfg bs, 0) := by
  obtain ⟨-, hs2, -⟩ := as_send_status cfg
    ((w.log .as_node_get_random).log .as_node_get_connection) m buffer end_
  obtain ⟨w2, m2, h1, -, -⟩ := as_read_user_blocks_done cfg
    (as_send cfg ((w.log .as_node_get_random).log .as_node_get_connection) m buffer end_).1
    (as_send cfg ((w.log .as_node_get_random).log .as_node_get_connection) m buffer end_).2.1
    buffer users bs v t rest fuel hU (hs2.trans hin) hok hv ht hfuel
  have key := as_read_users_eq cfg w m buffer end_ users fuel hnode hconn hwrite
  rw [h1] at key
  exact ⟨_, _, key⟩

/-- The streaming path on a stream in which a record carries the nonzero
result code `c`. -/
theorem as_read_users_stop (cfg : Config) (w : World) (m : Mem) (buffer end_ : Int)
    (users : List as_user_roles) (bs : List WireBlock) (v t : Nat) (rs : List WireRecord)
    (b0 c : Nat) (junk rest : List Nat) (fuel : Nat)
    (hU : 1 ≤ cfg.AS_USER_SIZE)
    (hnode : w.node_available = true) (hconn : w.connection_status = 0)
    (hwrite : w.write_status = 0)
    (hin : w.incoming
      = encodeBlocks bs ++ (blockBytes v t (encodeRecords rs ++ b0 :: c :: junk) ++ rest))
    (hok : StreamOK bs) (hv : v < 256) (ht : t < 256)
    (hrs : ∀ r ∈ rs, r.WF ∧ r.result = 0) (hc : c ≠ 0)
    (hbytes : ∀ x ∈ encodeRecords rs ++ b0 :: c :: junk, x < 256)
    (hlen : (encodeRecords rs ++ b0 :: c :: junk).length < 2 ^ 31)
    (hfuel : (encodeBlocks bs).length + (encodeRecords rs ++ b0 :: c :: junk).length < fuel) :
    ∃ w2 m2, as_read_users cfg w m buffer end_ users fuel
        = .ret (w2, m2, users ++ emittedBlocks cfg bs ++ emittedRecords cfg rs,
            if (c : Int) = QUERY_END then 0 else (c : Int)) := by
  obtain ⟨-, hs2, -⟩ := as_send_status cfg
    ((w.log .as_node_get_random).log .as_node_get_connection) m buffer end_
  obtain ⟨w2, m2, h1, -, -⟩ := as_read_user_blocks_stop cfg
    (as_send cfg ((w.log .as_node_get_random).log .as_node_get_connection) m buffer end_).1
    (as_send cfg ((w.log .as_node_get_random).log .as_node_get_connection) m buffer end_).2.1
    buffer users bs v t rs b0 c junk rest fuel hU (hs2.trans hin) hok hv ht hrs hc hbytes hlen
    hfuel
  have key := as_read_users_eq cfg w m buffer end_ users fuel hnode hconn hwrite
  rw [h1] at key
  exact ⟨_, _, key⟩

/-- The streaming path on a stream that ends inside a block header. -/
theorem as_read_users_short (cfg : Config) (w : World) (m : Mem) (buffer end_ : Int)
    (users : List as_user_roles) (bs : List WireBlock) (tail : List Nat) (fuel : Nat)
    (hU : 1 ≤ cfg.AS_USER_SIZE)
    (hnode : w.node_available = true) (hconn : w.connection_status = 0)
    (hwrite : w.write_status = 0)
    (hin : w.incoming = encodeBlocks bs ++ tail) (hok : StreamOK bs)
    (htail : tail.length < 8) (hrf : w.read_failure ≠ 0)
    (hfuel : (encodeBlocks bs).length < fuel) :
    ∃ w2 m2 users2, as_read_users cfg w m buffer end_ users fuel
        = .ret (w2, m2, users2, -1) := by
  obtain ⟨-, hs2, -⟩ := as_send_status cfg
    ((w.log .as_node_get_random).log .as_node_get_connection) m buffer end_
  have hs3 : (as_send cfg ((w.log .as_node_get_random).log .as_node_get_connection) m buffer
      end_).1.read_failure = w.read_failure := by
    rw [as_send_world]; rfl
  obtain ⟨w2, m2, users2, h1⟩ := as_read_user_blocks_short cfg
    (as_send cfg ((w.log .as_node_get_random).log .as_node_get_connection) m buffer end_).1
    (as_send cfg ((w.log .as_node_get_random).log .as_node_get_connection) m buffer end_).2.1
    buffer users bs tail fuel hU (hs2.trans hin) hok htail (by rw [hs3]; exact hrf) hfuel
  have key := as_read_users_eq cfg w m buffer end_ users fuel hnode hconn hwrite
  rw [h1] at key
  exact ⟨_, _, _, key⟩

/-- The encoder part of `aerospike_set_password` leaves the request body in
the buffer and calls `as_execute` on it. -/
theorem aerospike_set_password_eq (cfg : Config) (w : World) (m : Mem) (buffer : Int)
    (cluster : as_cluster) (password : List Nat)
    (hu : NulFree cluster.user) (hul : cluster.user.length + 1 < 2 ^ 31)
    (hh : NulFree (cfg.as_password_get_constant_hash password))
    (hhl : (cfg.as_password_get_constant_hash password).length + 1 < 2 ^ 31) :
    ∃ m3, Holds m3 (buffer + 8)
        (setPasswordBody cluster.user (cfg.as_password_get_constant_hash password))
      ∧ aerospike_set_password cfg w m buffer cluster none password
        = ((as_execute cfg w m3 buffer (buffer + 8
              + (setPasswordBody cluster.user
                  (cfg.as_password_get_constant_hash password)).length)).1,
           (as_execute cfg w m3 buffer (buffer + 8
              + (setPasswordBody cluster.user
                  (cfg.as_password_get_constant_hash password)).length)).2.1,
           (if (as_execute cfg w m3 buffer (buffer + 8
              + (setPasswordBody cluster.user
                  (cfg.as_password_get_constant_hash password)).length)).2.2 = 0
            then as_cluster_change_password cluster cluster.user
              (cfg.as_password_get_constant_hash password)
            else cluster),
           (as_execute cfg w m3 buffer (buffer + 8
              + (setPasswordBody cluster.user
                  (cfg.as_password_get_constant_hash password)).length)).2.2) := by
  obtain ⟨hash, hhash⟩ : ∃ h, cfg.as_password_get_constant_hash password = h := ⟨_, rfl⟩
  obtain ⟨user, huser⟩ : ∃ u, cluster.user = u := ⟨_, rfl⟩
  rw [hhash] at hh hhl ⊢
  rw [huser] at hu hul ⊢
  have h0 : Holds (storeBytes m (buffer + 8) (commandHeader SET_PASSWORD 2)) (buffer + 8)
      (commandHeader SET_PASSWORD 2) :=
    loadBytes_storeBytes_same _ _ _ (commandHeader_lt _ _ (by decide) (by decide))
  have hl0 : (commandHeader SET_PASSWORD 2).length = 16 := rfl
  obtain ⟨a1, a2, a3⟩ := write_field_string_holds cfg.host
    (storeBytes m (buffer + 8) (commandHeader SET_PASSWORD 2)) (buffer + 8 + 16) USER user
    (by decide) hu hul
  obtain ⟨m2, hm2⟩ : ∃ m2, (write_field_string cfg.host
    (storeBytes m (buffer + 8) (commandHeader SET_PASSWORD 2)) (buffer + 8 + 16) USER user).1
      = m2 := ⟨_, rfl⟩
  rw [hm2] at a1 a3
  have e2 : write_field_string cfg.host
      (storeBytes m (buffer + 8) (commandHeader SET_PASSWORD 2)) (buffer + 8 + 16) USER user
      = (m2, buffer + 8 + 16 + (fieldBytes USER user).length) := Prod.ext hm2 a2
  obtain ⟨b1, b2, b3⟩ := write_field_string_holds cfg.host m2
    (buffer + 8 + 16 + (fieldBytes USER user).length) PASSWORD hash (by decide) hh hhl
  obtain ⟨m3, hm3⟩ : ∃ m3, (write_field_string cfg.host m2
    (buffer + 8 + 16 + (fieldBytes USER user).length) PASSWORD hash).1 = m3 := ⟨_, rfl⟩
  rw [hm3] at b1 b3
  have e3 : write_field_string cfg.host m2
      (buffer + 8 + 16 + (fieldBytes USER user).length) PASSWORD hash
      = (m3, buffer + 8 + 16 + (fieldBytes USER user).length + (fieldBytes PASSWORD hash).length) :=
    Prod.ext hm3 b2
  have hend : buffer + 8 + 16 + (fieldBytes USER user).length + (fieldBytes PASSWORD hash).length
      = buffer + 8 + (setPasswordBody user hash).length := by
    simp only [setPasswordBody, List.length_append, hl0]
    push_cast
    ring
  refine ⟨m3, ?_, ?_⟩
  · unfold setPasswordBody
    have hp := Int.natCast_nonneg (fieldBytes USER user).length
    apply Holds.join
    · refine Holds.frame (buffer + 8 + 16) h0 (by rw [hl0]; push_cast; omega) ?_
      intro x hx
      rw [b3 x (by omega), a3 x hx]
    · rw [hl0]
      apply Holds.join
      · exact Holds.frame _ a1 (le_refl _) b3
      · exact b1
  · unfold aerospike_set_password
    simp only [hhash, huser, write_header_eq, e2, e3, hend]

/-! ## Reads of the record parser -/

theorem ReadsWithin.append_spans {lo hi : Int} {xs ys : List (Int × Nat)}
    (hx : ReadsWithin lo hi xs) (hy : ReadsWithin lo hi ys) : ReadsWithin lo hi (xs ++ ys) := by
  intro s hs
  rcases List.mem_append.mp hs with h | h
  · exact hx s h
  · exact hy s h

theorem ReadsWithin.cons_span {lo hi : Int} {a : Int} {n : Nat} {xs : List (Int × Nat)}
    (h1 : lo ≤ a) (h2 : a + (n : Int) ≤ hi) (hx : ReadsWithin lo hi xs) :
    ReadsWithin lo hi ((a, n) :: xs) := by
  intro s hs
  rcases List.mem_cons.mp hs with h | h
  · subst h; exact ⟨h1, h2⟩
  · exact hx s h

theorem readsWithin_nil (lo hi : Int) : ReadsWithin lo hi [] := fun s hs => by cases hs

theorem ReadsWithin.mono {lo hi lo2 hi2 : Int} {xs : List (Int × Nat)}
    (hx : ReadsWithin lo hi xs) (h1 : lo2 ≤ lo) (h2 : hi ≤ hi2) : ReadsWithin lo2 hi2 xs := by
  intro s hs
  obtain ⟨a, b⟩ := hx s hs
  exact ⟨by omega, by omega⟩

theorem as_parse_roles_loop_reads_within (cfg : Config) (m : Mem) (names : List (List Nat))
    (p : Int) (hr : ∀ r ∈ names, r.length ≤ 255) (hm : Holds m p (roleEntries names)) :
    ReadsWithin p (p + (roleEntries names).length)
      (as_parse_roles_loop_reads cfg m names.length p) := by
  induction names generalizing p with
  | nil => exact readsWithin_nil _ _
  | cons r rest ih =>
    have hlen := hr r (List.mem_cons_self _ _)
    simp only [roleEntries] at hm
    obtain ⟨h0, hm1⟩ := hm.cons
    obtain ⟨hr1, hm2⟩ := hm1.append
    have ih1 := ih (p + 1 + r.length) (fun x hx => hr x (List.mem_cons_of_mem _ hx)) hm2
    simp only [List.length_cons, as_parse_roles_loop_reads, h0, roleEntries,
      List.length_append]
    have hnn := Int.natCast_nonneg (roleEntries rest).length
    have hsz : (if r.length ≤ cfg.AS_ROLE_SIZE - 1 then r.length else cfg.AS_ROLE_SIZE - 1)
        ≤ r.length := by
      split <;> omega
    refine ReadsWithin.cons_span (le_refl _) (by push_cast; omega)
      (ReadsWithin.cons_span (by omega) (by push_cast; omega) (ih1.mono (by omega) (by push_cast; omega)))

theorem as_parse_roles_reads_within (cfg : Config) (m : Mem) (names : List (List Nat)) (p : Int)
    (hr : ∀ r ∈ names, r.length ≤ 255) (hm : Holds m p (rolesPayload names)) :
    ReadsWithin p (p + (rolesPayload names).length) (as_parse_roles_reads cfg m p) := by
  simp only [rolesPayload] at hm ⊢
  obtain ⟨h0, hm1⟩ := hm.cons
  have h := as_parse_roles_loop_reads_within cfg m names (p + 1) hr hm1
  simp only [as_parse_roles_reads, h0, List.length_cons]
  have hnn := Int.natCast_nonneg (roleEntries names).length
  exact ReadsWithin.cons_span (le_refl _) (by push_cast; omega) (h.mono (by omega) (by push_cast; omega))

theorem parse_field_reads_within (cfg : Config) (m : Mem) (f : WireField) (st : FieldState)
    (hU : 1 ≤ cfg.AS_USER_SIZE) (hf : f.WF) (hm : Holds m st.p f.encode) :
    ReadsWithin st.p (st.p + f.encode.length) (parse_field_reads cfg m st) := by
  cases f with
  | user name =>
    simp only [WireField.WF] at hf
    simp only [WireField.encode] at hm ⊢
    obtain ⟨hh, hp⟩ := parse_field_header_fieldBytes cfg m st.p USER name hf hm
    have hsz : (if (name.length : Int) ≤ (cfg.AS_USER_SIZE : Int) - 1 then (name.length : Int)
        else (cfg.AS_USER_SIZE : Int) - 1)
          = ((min name.length (cfg.AS_USER_SIZE - 1) : Nat) : Int) := by
      split <;> omega
    simp only [parse_field_reads, hh, if_true, hsz, fieldBytes_length]
    rw [if_neg (by omega), Int.toNat_ofNat]
    exact ReadsWithin.cons_span (le_refl _) (by push_cast; omega)
      (ReadsWithin.cons_span (by omega) (by push_cast; omega)
        (ReadsWithin.cons_span (by omega) (by push_cast; omega) (readsWithin_nil _ _)))
  | roles names =>
    simp only [WireField.WF] at hf
    simp only [WireField.encode] at hm ⊢
    obtain ⟨hh, hp⟩ := parse_field_header_fieldBytes cfg m st.p ROLES (rolesPayload names)
      (rolesPayload_length_lt names hf.1 hf.2) hm
    have hne : ¬ (ROLES = USER) := by decide
    have h := as_parse_roles_reads_within cfg m names (st.p + 5) hf.2 hp
    simp only [parse_field_reads, hh, hne, if_false, if_true, fieldBytes_length]
    have hnn := Int.natCast_nonneg (rolesPayload names).length
    exact ReadsWithin.cons_span (le_refl _) (by push_cast; omega)
      (ReadsWithin.cons_span (by omega) (by push_cast; omega)
        (h.mono (by omega) (by push_cast; omega)))
  | other id payload =>
    simp only [WireField.WF] at hf
    simp only [WireField.encode] at hm ⊢
    obtain ⟨hh, -⟩ := parse_field_header_fieldBytes cfg m st.p id payload hf.2.2.2 hm
    simp only [parse_field_reads, hh, hf.2.1, hf.2.2.1, if_false, fieldBytes_length]
    exact ReadsWithin.cons_span (le_refl _) (by push_cast; omega)
      (ReadsWithin.cons_span (by omega) (by push_cast; omega) (readsWithin_nil _ _))

theorem parse_fields_reads_within (cfg : Config) (m : Mem) (fs : List WireField) (st : FieldState)
    (hU : 1 ≤ cfg.AS_USER_SIZE) (hf : ∀ f ∈ fs, f.WF) (hm : Holds m st.p (encodeFields fs)) :
    ReadsWithin st.p (st.p + (encodeFields fs).length)
      (parse_fields_reads cfg m fs.length st) := by
  induction fs generalizing st with
  | nil => exact readsWithin_nil _ _
  | cons f fs ih =>
    simp only [encodeFields] at hm
    obtain ⟨h1, h2⟩ := hm.append
    have hwf := hf f (List.mem_cons_self _ _)
    have hr := parse_field_reads_within cfg m f st hU hwf h1
    have ih1 := ih (FieldState.mk (st.p + f.encode.length)
        (f.apply cfg (st.user, st.user_roles)).1 (f.apply cfg (st.user, st.user_roles)).2)
      (fun x hx => hf x (List.mem_cons_of_mem _ hx)) h2
    simp only [List.length_cons, parse_fields_reads, parse_field_spec cfg m f st hU hwf h1,
      encodeFields, List.length_append]
    have hn1 := Int.natCast_nonneg f.encode.length
    have hn2 := Int.natCast_nonneg (encodeFields fs).length
    exact (hr.mono (le_refl _) (by push_cast; omega)).append_spans
      (ih1.mono (by simp only; omega) (by simp only; push_cast; omega))

/-- The reads of the record loop on well-formed records with result code 0,
followed by nothing or by a record that carries a nonzero result code, stay
inside the bytes of the block. -/
theorem as_parse_users_loop_reads_within (cfg : Config) (m : Mem) (fuel : Nat)
    (rs : List WireRecord) (tail : List Nat) (p : Int)
    (hU : 1 ≤ cfg.AS_USER_SIZE) (hr : ∀ r ∈ rs, r.WF ∧ r.result = 0)
    (ht : tail = [] ∨ ∃ b0 c junk, tail = b0 :: c :: junk ∧ c ≠ 0)
    (hm : Holds m p (encodeRecords rs ++ tail)) :
    ReadsWithin p (p + (encodeRecords rs ++ tail).length)
      (as_parse_users_loop_reads cfg m (p + (encodeRecords rs ++ tail).length) fuel p) := by
  induction rs generalizing p fuel with
  | nil =>
    cases fuel with
    | zero => exact readsWithin_nil _ _
    | succ fuel =>
      rcases ht with rfl | ⟨b0, c, junk, rfl, hc⟩
      · simp only [encodeRecords, List.append_nil, List.length_nil, as_parse_users_loop_reads,
          Nat.cast_zero, add_zero, lt_self_iff_false, if_false]
        exact readsWithin_nil _ _
      · simp only [encodeRecords, List.nil_append] at hm ⊢
        obtain ⟨-, h3⟩ := hm.cons
        obtain ⟨h4, -⟩ := h3.cons
        simp only [as_parse_users_loop_reads, h4, ne_eq, hc, not_false_eq_true, if_true,
          List.length_cons]
        split
        · exact ReadsWithin.cons_span (by omega) (by push_cast; omega) (readsWithin_nil _ _)
        · exact readsWithin_nil _ _
  | cons r rs ih =>
    cases fuel with
    | zero => exact readsWithin_nil _ _
    | succ fuel =>
      obtain ⟨hwf, h0⟩ := hr r (List.mem_cons_self _ _)
      simp only [encodeRecords, List.append_assoc] at hm ⊢
      obtain ⟨h1, h2⟩ := hm.append
      have hlen := r.encode_length hwf.1
      obtain ⟨g1, g3, gf⟩ := Holds.record hwf.1 h1
      have hpf := parse_fields_spec cfg m r.fields
        { p := p + 16, user := [0], user_roles := none } hU hwf.2.2 gf
      have hfr := parse_fields_reads_within cfg m r.fields
        { p := p + 16, user := [0], user_roles := none } hU hwf.2.2 gf
      have ih1 := ih fuel (p + r.encode.length) (fun x hx => hr x (List.mem_cons_of_mem _ hx)) h2
      have hn2 := Int.natCast_nonneg (encodeFields r.fields).length
      have hn3 := Int.natCast_nonneg (encodeRecords rs ++ tail).length
      have hend : p + ((r.encode ++ (encodeRecords rs ++ tail)).length : Int)
          = p + r.encode.length + (encodeRecords rs ++ tail).length := by
        rw [List.length_append]; push_cast; ring
      rw [hend]
      rw [as_parse_users_loop_reads]
      simp only [g1, h0, g3, ne_eq, not_true_eq_false, if_false, HEADER_REMAINING,
        Nat.cast_ofNat, hpf]
      rw [if_pos (by rw [hlen]; push_cast; omega)]
      have e1 : p + 16 + ((encodeFields r.fields).length : Int) = p + r.encode.length := by
        rw [hlen]; push_cast; ring
      rw [e1]
      refine ReadsWithin.cons_span (by omega) (by rw [hlen]; push_cast; omega)
        (ReadsWithin.cons_span (by omega) (by rw [hlen]; push_cast; omega)
          (ReadsWithin.append_spans (hfr.mono (by simp only; omega)
            (by simp only; rw [hlen]; push_cast; omega)) (ih1.mono (by rw [hlen]; push_cast; omega) (le_refl _))))

theorem emittedRecords_append (cfg : Config) (xs ys : List WireRecord) :
    emittedRecords cfg (xs ++ ys) = emittedRecords cfg xs ++ emittedRecords cfg ys := by
  induction xs with
  | nil => rfl
  | cons x xs ih =>
    rw [List.cons_append]
    simp only [emittedRecords, List.append_assoc]
    rw [ih]

theorem encodeRecords_append (xs ys : List WireRecord) :
    encodeRecords (xs ++ ys) = encodeRecords xs ++ encodeRecords ys := by
  induction xs with
  | nil => rfl
  | cons x xs ih =>
    rw [List.cons_append]
    simp only [encodeRecords, List.append_assoc]
    rw [ih]

theorem encodeFields_append (xs ys : List WireField) :
    encodeFields (xs ++ ys) = encodeFields xs ++ encodeFields ys := by
  induction xs with
  | nil => rfl
  | cons x xs ih =>
    rw [List.cons_append]
    simp only [encodeFields, List.append_assoc]
    rw [ih]

theorem insertField_decoded (cfg : Config) (r : WireRecord) (k id : Nat) (payload : List Nat) :
    (insertField r k (.other id payload)).decoded cfg = r.decoded cfg := by
  unfold WireRecord.decoded insertField
  simp only [List.foldl_append, List.foldl_cons, WireField.apply]
  rw [← List.foldl_append, List.take_append_drop]

theorem insertField_emitted (cfg : Config) (r : WireRecord) (k id : Nat) (payload : List Nat) :
    (insertField r k (.other id payload)).emitted cfg = r.emitted cfg := by
  unfold WireRecord.emitted
  rw [insertField_decoded]

theorem insertField_length (r : WireRecord) (k : Nat) (f : WireField) :
    (insertField r k f).fields.length = r.fields.length + 1 := by
  unfold insertField
  simp only [List.length_append, List.length_cons, List.length_take, List.length_drop]
  omega

theorem insertField_WF (r : WireRecord) (k : Nat) (f : WireField) (hr : r.WF)
    (hn : r.fields.length < 255) (hf : f.WF) : (insertField r k f).WF := by
  refine ⟨hr.1, ?_, ?_⟩
  · rw [insertField_length]; omega
  · intro g hg
    unfold insertField at hg
    simp only [List.mem_append, List.mem_cons] at hg
    rcases hg with hg | rfl | hg
    · exact hr.2.2 g (List.mem_of_mem_take hg)
    · exact hf
    · exact hr.2.2 g (List.mem_of_mem_drop hg)

theorem insertField_encode_length (r : WireRecord) (k : Nat) (f : WireField)
    (hp : r.pad.length = 12) :
    f.encode.length + 16 ≤ (insertField r k f).encode.length := by
  rw [WireRecord.encode_length _ (by exact hp)]
  unfold insertField
  simp only [encodeFields_append, encodeFields, List.length_append]
  omega

theorem toU8_nat_mod (n : Nat) : toU8 (n : Int) = n % 256 := by
  unfold toU8; omega

theorem roleEntries_append (xs ys : List (List Nat)) :
    roleEntries (xs ++ ys) = roleEntries xs ++ roleEntries ys := by
  induction xs with
  | nil => rfl
  | cons x xs ih =>
    rw [List.cons_append]
    simp only [roleEntries, List.append_assoc, List.cons_append]
    rw [ih]

theorem roleEntries_length_ge (roles : List (List Nat)) :
    roles.length ≤ (roleEntries roles).length := by
  induction roles with
  | nil => simp [roleEntries]
  | cons r rest ih =>
    simp only [roleEntries, List.length_cons, List.length_append]
    omega

/-- Memory and cursor after `write_roles` for a list of any length whose
wire form fits an `int`: the count byte is the length modulo 256. -/
theorem write_roles_any_spec (host : ByteOrder) (m : Mem) (p : Int) (roles : List (List Nat))
    (hr : ∀ r ∈ roles, NulFree r ∧ r.length ≤ 255)
    (hsize : 1 + (1 + (roleEntries roles).length) < 2 ^ 31) :
    loadBytes (write_roles host m p roles roles.length).1 p (5 + (1 + (roleEntries roles).length))
        = beBytes 4 (1 + (1 + (roleEntries roles).length))
            ++ ROLES :: (roles.length % 256) :: roleEntries roles
      ∧ (write_roles host m p roles roles.length).2 = p + 5 + 1 + (roleEntries roles).length
      ∧ (∀ x, x < p → load8 (write_roles host m p roles roles.length).1 x = load8 m x) := by
  have hge := roleEntries_length_ge roles
  have hU : toU32 (roles.length : Int) = roles.length := toU32_of_nat _ (by omega)
  have hU8 : toU8 (roles.length : Int) = roles.length % 256 := toU8_nat_mod _
  obtain ⟨l1, l2, l3, -⟩ :=
    write_roles_loop_spec roles (store8 m (p + 5) (roles.length % 256)) (p + 5 + 1) hr
  generalize hn : (roleEntries roles).length = n at *
  have hw : write_roles host m p roles roles.length =
      (store8 (storeBytes (write_roles_loop roles (store8 m (p + 5) (roles.length % 256))
          (p + 5 + 1)).1 p
        (beBytes 4 (1 + (1 + n)))) (p + 4) ROLES, p + 5 + 1 + n) := by
    simp only [write_roles, FIELD_HEADER_SIZE, hU, hU8, List.take_length, write_field_header_eq]
    rw [l1, show p + 5 + 1 + (n : Int) - p - 5 = ((1 + n : Nat) : Int) by push_cast; ring,
      toU32_toI32, show ((1 + n : Nat) : Int) + 1 = ((1 + (1 + n) : Nat) : Int) by push_cast; ring,
      toU32_of_nat _ (by omega)]
  rw [hw]
  refine ⟨?_, rfl, ?_⟩
  · rw [show 5 + (1 + n) = 4 + (1 + (1 + n)) by omega, loadBytes_add, loadBytes_add, loadBytes_add]
    simp only [Nat.cast_ofNat, Nat.cast_one]
    rw [show p + 4 + 1 = p + 5 by ring]
    congr 1
    · rw [loadBytes_store8_out _ _ _ _ _ (Or.inl (by omega))]
      have := loadBytes_storeBytes_same (beBytes 4 (1 + (1 + n)))
        (write_roles_loop roles (store8 m (p + 5) (roles.length % 256)) (p + 5 + 1)).1 p
        (beBytes_lt _ _)
      rwa [beBytes_length] at this
    · rw [loadBytes_one, load8_store8_same, loadBytes_one, load8_store8_ne _ _ _ _ (by omega)]
      rw [load8_storeBytes_out _ _ _ _ (Or.inr (by rw [beBytes_length]; omega))]
      rw [l3 _ (Or.inl (by omega)), load8_store8_same]
      rw [loadBytes_store8_out _ _ _ _ _ (Or.inr (by omega))]
      rw [loadBytes_storeBytes_out _ _ _ _ _ (Or.inr (by rw [beBytes_length]; omega)), l2]
      simp [ROLES]
  · intro x hx
    rw [load8_store8_ne _ _ _ _ (by omega)]
    rw [load8_storeBytes_out _ _ _ _ (Or.inl hx), l3 _ (Or.inl (by omega))]
    rw [load8_store8_ne _ _ _ _ (by omega)]

/-- The role-list decoder on a payload whose count byte is `k` and whose
entries start with those of `roles`, of which there are at least `k`. -/
theorem as_parse_roles_take (cfg : Config) (m : Mem) (roles : List (List Nat)) (k : Nat)
    (p : Int) (hk : k ≤ roles.length) (hr : ∀ r ∈ roles, r.length ≤ 255)
    (hm : Holds m p (k :: roleEntries roles)) :
    as_parse_roles cfg m p =
      ({ user := [], roles_size := k,
         roles := (roles.take k).map (fun r => r.take (cfg.AS_ROLE_SIZE - 1) ++ [0]) },
        p + 1 + (roleEntries (roles.take k)).length) := by
  obtain ⟨h0, hm1⟩ := hm.cons
  have hsplit : roleEntries roles = roleEntries (roles.take k) ++ roleEntries (roles.drop k) := by
    rw [← roleEntries_append, List.take_append_drop]
  rw [hsplit] at hm1
  obtain ⟨hm2, -⟩ := hm1.append
  have hl : (roles.take k).length = k := by rw [List.length_take]; omega
  have h := as_parse_roles_loop_spec cfg m (roles.take k) (p + 1)
    (fun r hr2 => hr r (List.mem_of_mem_take hr2)) hm2
  rw [hl] at h
  simp only [as_parse_roles, h0, h]

/-- The turn of the reader loop after a header whose bytes 2-7 hold the
48-bit value `s`: the size used is `s` converted to `int`. -/
theorem as_read_user_blocks_body_header (cfg : Config) (fuel : Nat) (st : BlockState)
    (v t s : Nat) (tail : List Nat)
    (hin : st.w.incoming = ([v, t] ++ beBytes 6 s) ++ tail) (hv : v < 256) (ht : t < 256)
    (hs : s < 2 ^ 48) :
    as_read_user_blocks_body cfg st fuel =
      if toI32 (s : Int) > 0 then
        as_read_user_blocks_payload cfg st
          { st.w with incoming := tail, events := st.w.events ++ [.as_socket_read 8] }
          (storeBytes st.m st.buf ([v, t] ++ beBytes 6 s)) (toI32 (s : Int)) fuel
      else
        .ret ({ st with
                  w := { st.w with incoming := tail
                                   events := st.w.events ++ [.as_socket_read 8] }
                  m := storeBytes st.m st.buf ([v, t] ++ beBytes 6 s) }, 0, true) := by
  have hlen8 : 8 ≤ st.w.incoming.length := by
    rw [hin]; simp [beBytes_length]
  have htake : st.w.incoming.take 8 = [v, t] ++ beBytes 6 s := by
    rw [hin]
    exact List.take_left' (by simp [beBytes_length])
  have hdrop : st.w.incoming.drop 8 = tail := by
    rw [hin]
    exact List.drop_left' (by simp [beBytes_length])
  have hhdr : ∀ b ∈ [v, t] ++ beBytes 6 s, b < 256 := by
    intro b hb'
    simp only [List.mem_append, List.mem_cons, List.mem_singleton, List.not_mem_nil, or_false] at hb'
    rcases hb' with (rfl | rfl) | hb'
    · exact hv
    · exact ht
    · exact beBytes_lt _ _ b hb'
  have hproto : cf_swap_from_be64 cfg.host
      (load64 cfg.host (storeBytes st.m st.buf ([v, t] ++ beBytes 6 s)) st.buf)
        &&& 0xFFFFFFFFFFFF = s := by
    rw [from_be64_load64]
    have := loadBytes_storeBytes_same ([v, t] ++ beBytes 6 s) st.m st.buf hhdr
    rw [show ([v, t] ++ beBytes 6 s).length = 8 by simp [beBytes_length]] at this
    rw [this]
    exact proto_size v t s hs
  unfold as_read_user_blocks_body
  simp only [as_socket_read_deadline_ok st.w st.m st.buf 8 hlen8, htake, hdrop, ne_eq,
    not_true_eq_false, if_false, hproto]

/-- The branch `size > 0` when the server delivers the `size` payload bytes. -/
theorem as_read_user_blocks_payload_ok (cfg : Config) (fuel : Nat) (st : BlockState)
    (hdr payload rest : List Nat) :
    as_read_user_blocks_payload cfg st
        { st.w with incoming := payload ++ rest, events := st.w.events ++ [.as_socket_read 8] }
        (storeBytes st.m st.buf hdr) (payload.length : Int) fuel =
      match as_parse_users cfg (afterBlock st hdr payload rest st.users).m
          (afterBlock st hdr payload rest st.users).buf payload.length st.users fuel with
      | .crash => .crash
      | .exhausted => .exhausted
      | .ret (status, users) => .ret (afterBlock st hdr payload rest users, status, false) := by
  unfold as_read_user_blocks_payload
  simp only [Int.toNat_ofNat]
  rw [as_socket_read_deadline_ok _ _ _ payload.length (by simp)]
  simp only [ne_eq, not_true_eq_false, if_false, List.take_left', List.drop_left', afterBlock,
    List.append_assoc]

/-- The branch `size > 0` when the server sends fewer than `size` bytes. -/
theorem as_read_user_blocks_payload_short (cfg : Config) (fuel : Nat) (st : BlockState)
    (hdr tail : List Nat) (n : Nat) (hn : tail.length < n) (hrf : st.w.read_failure ≠ 0) :
    ∃ st2, as_read_user_blocks_payload cfg st
        { st.w with incoming := tail, events := st.w.events ++ [.as_socket_read 8] }
        (storeBytes st.m st.buf hdr) (n : Int) fuel = .ret (st2, -1, true)
      ∧ st2.w.events = st.w.events ++ [.as_socket_read 8] ++ [.as_socket_read n] := by
  unfold as_read_user_blocks_payload
  simp only [Int.toNat_ofNat, as_socket_read_deadline, World.log, Nat.not_le.mpr hn, if_false,
    hrf, ne_eq, not_false_eq_true, if_true]
  exact ⟨_, rfl, rfl⟩

/-- The branch `size > 0` never leaves the loop with status 0. -/
theorem as_read_user_blocks_payload_not_end (cfg : Config) (st : BlockState) (w : World)
    (m : Mem) (size : Int) (fuel : Nat) (st2 : BlockState) (s : Int)
    (h : as_read_user_blocks_payload cfg st w m size fuel = .ret (st2, s, true)) : s = -1 := by
  unfold as_read_user_blocks_payload at h
  simp only [] at h
  generalize (if decide (size > st.buffer_size) = true then w.cf_malloc size else st.buf)
    = buf at h
  generalize (if decide (size > st.buffer_size) = true then size else st.buffer_size)
    = bsz at h
  by_cases hrd : (as_socket_read_deadline w m buf size.toNat).2.2 = 0
  · simp only [hrd, ne_eq, not_true_eq_false, if_false] at h
    cases hp : as_parse_users cfg (as_socket_read_deadline w m buf size.toNat).2.1 buf size
        st.users fuel with
    | crash => rw [hp] at h; cases h
    | exhausted => rw [hp] at h; cases h
    | ret r =>
      rw [hp] at h
      simp only [Run.ret.injEq, Prod.mk.injEq, Bool.false_eq_true, and_false] at h
  · simp only [hrd, ne_eq, not_false_eq_true, if_true, Run.ret.injEq, Prod.mk.injEq] at h
    exact h.2.1.symm

/-- A Roles field is decoded from its id byte, its count byte and its
entries; the 4 length bytes are read and not used. -/
theorem parse_field_roles_any (cfg : Config) (m : Mem) (st : FieldState)
    (names : List (List Nat)) (lenBytes : List Nat)
    (hl : lenBytes.length = 4) (hr : ∀ r ∈ names, r.length ≤ 255)
    (hm : Holds m st.p (lenBytes ++ ROLES :: rolesPayload names)) :
    parse_field cfg m st =
      some (FieldState.mk (st.p + 5 + (rolesPayload names).length) st.user
        (some (as_user_roles.mk [] names.length
          (names.map (fun r => r.take (cfg.AS_ROLE_SIZE - 1) ++ [0]))))) := by
  obtain ⟨-, h2⟩ := hm.append
  rw [hl] at h2
  obtain ⟨hid, hp⟩ := h2.cons
  rw [show st.p + ((4 : Nat) : Int) + 1 = st.p + 5 by push_cast; ring] at hp
  have hid4 : load8 m (st.p + 4) = ROLES := hid
  have hne : ¬ (ROLES = USER) := by decide
  simp only [parse_field, parse_field_header_eq, hid4, hne, if_false, if_true,
    as_parse_roles_spec cfg m names (st.p + 5) hr hp]

theorem parse_fields_roles_any (cfg : Config) (m : Mem) (fs1 fs2 : List WireField)
    (names : List (List Nat)) (lenBytes : List Nat) (st : FieldState)
    (hU : 1 ≤ cfg.AS_USER_SIZE)
    (hf : ∀ f ∈ fs1 ++ WireField.roles names :: fs2, f.WF) (hl : lenBytes.length = 4)
    (hm : Holds m st.p
      (encodeFields fs1 ++ ((lenBytes ++ ROLES :: rolesPayload names) ++ encodeFields fs2))) :
    parse_fields cfg m (fs1 ++ WireField.roles names :: fs2).length st =
      some { p := st.p + (encodeFields (fs1 ++ WireField.roles names :: fs2)).length,
             user := ((fs1 ++ WireField.roles names :: fs2).foldl (WireField.apply cfg)
               (st.user, st.user_roles)).1,
             user_roles := ((fs1 ++ WireField.roles names :: fs2).foldl (WireField.apply cfg)
               (st.user, st.user_roles)).2 } := by
  induction fs1 generalizing st with
  | nil =>
    simp only [encodeFields, List.nil_append] at hm ⊢
    obtain ⟨h1, h2⟩ := hm.append
    have hwf : (WireField.roles names).WF := hf _ (by simp)
    simp only [WireField.WF] at hwf
    have hlen : (lenBytes ++ ROLES :: rolesPayload names).length
        = 5 + (rolesPayload names).length := by
      simp only [List.length_append, List.length_cons, hl]; omega
    rw [hlen] at h2
    simp only [List.length_cons, parse_fields,
      parse_field_roles_any cfg m st names lenBytes hl hwf.2 h1]
    rw [parse_fields_spec cfg m fs2 _ hU (fun x hx => hf x (by simp [hx]))
      (by
        rw [show st.p + 5 + ((rolesPayload names).length : Int)
          = st.p + ((5 + (rolesPayload names).length : Nat) : Int) by push_cast; ring]
        exact h2)]
    simp only [encodeFields, WireField.encode, List.length_append, fieldBytes_length,
      List.foldl_cons, WireField.apply, Option.some.injEq]
    congr 1
    push_cast; ring
  | cons f fs ih =>
    simp only [encodeFields, List.cons_append, List.append_assoc] at hm ⊢
    obtain ⟨h1, h2⟩ := hm.append
    have hwf := hf f (by simp)
    simp only [List.length_cons, parse_fields, parse_field_spec cfg m f st hU hwf h1]
    have ih1 := ih (FieldState.mk (st.p + f.encode.length)
        (f.apply cfg (st.user, st.user_roles)).1 (f.apply cfg (st.user, st.user_roles)).2)
      (fun x hx => hf x (by
        simp only [List.cons_append, List.mem_cons]; exact Or.inr hx))
      (by simpa only [List.append_assoc] using h2)
    rw [ih1]
    simp only [encodeFields, List.length_append, List.foldl_cons, Option.some.injEq]
    congr 1
    rw [show fs.append (WireField.roles names :: fs2) = fs ++ WireField.roles names :: fs2
      from rfl]
    push_cast; ring

theorem encodeWithRolesLength_length (r : WireRecord) (fs1 fs2 : List WireField)
    (names : List (List Nat)) (lenBytes : List Nat) (hp : r.pad.length = 12)
    (hl : lenBytes.length = 4) :
    (encodeWithRolesLength r fs1 names fs2 lenBytes).length
      = 16 + (encodeFields (fs1 ++ WireField.roles names :: fs2)).length := by
  simp only [encodeWithRolesLength, encodeFields_append, encodeFields, WireField.encode,
    List.length_append, List.length_cons, fieldBytes_length, hp, hl, List.length_nil]
  omega

/-- One turn of the record loop on a record whose Roles field carries any 4
length bytes. -/
theorem as_parse_users_loop_record_any (cfg : Config) (m : Mem) (end_ : Int) (fuel : Nat)
    (p : Int) (users : List as_user_roles) (r : WireRecord) (fs1 fs2 : List WireField)
    (names : List (List Nat)) (lenBytes : List Nat)
    (hU : 1 ≤ cfg.AS_USER_SIZE) (hr : r.WF) (h0 : r.result = 0)
    (hf : r.fields = fs1 ++ WireField.roles names :: fs2) (hl : lenBytes.length = 4)
    (hm : Holds m p (encodeWithRolesLength r fs1 names fs2 lenBytes)) (he : p < end_) :
    as_parse_users_loop cfg m end_ (fuel + 1) p users =
      as_parse_users_loop cfg m end_ fuel (p + r.encode.length) (users ++ r.emitted cfg) := by
  unfold encodeWithRolesLength at hm
  obtain ⟨h1, h2⟩ := hm.append
  obtain ⟨h3, -⟩ := h1.append
  have hl16 : ([r.b0, r.result, r.b2, (fs1 ++ WireField.roles names :: fs2).length]
      ++ r.pad).length = 16 := by simp [hr.1]
  rw [hl16] at h2
  unfold Holds at h3
  simp only [List.length_cons, List.length_nil, loadBytes, List.cons.injEq, and_true] at h3
  have g1 : load8 m (p + 1) = r.result := h3.2.1
  have g3 : load8 m (p + 3) = (fs1 ++ WireField.roles names :: fs2).length := by
    rw [show p + 3 = p + 1 + 1 + 1 by ring]
    exact h3.2.2.2
  have hpf := parse_fields_roles_any cfg m fs1 fs2 names lenBytes
    { p := p + 16, user := [0], user_roles := none } hU (by rw [← hf]; exact hr.2.2) hl h2
  rw [as_parse_users_loop]
  simp only [he, if_true, g1, h0, ne_eq, not_true_eq_false, if_false, g3, HEADER_REMAINING,
    Nat.cast_ofNat, hpf]
  rw [← hf, show (List.foldl (WireField.apply cfg) ([0], none) r.fields) = r.decoded cfg from rfl,
    emit_record_decoded, r.encode_length hr.1]
  congr 1
  push_cast; ring

/-- The record loop on a block in which the Roles field of one record
carries any 4 length bytes. -/
theorem as_parse_users_loop_roles_any (cfg : Config) (m : Mem) (buffer : Int)
    (rs1 rs2 : List WireRecord) (r : WireRecord) (fs1 fs2 : List WireField)
    (names : List (List Nat)) (lenBytes : List Nat) (users : List as_user_roles) (fuel : Nat)
    (hU : 1 ≤ cfg.AS_USER_SIZE) (hrs : ∀ x ∈ rs1 ++ r :: rs2, x.WF ∧ x.result = 0)
    (hf : r.fields = fs1 ++ WireField.roles names :: fs2) (hl : lenBytes.length = 4)
    (hm : Holds m buffer
      (encodeRecords rs1 ++ (encodeWithRolesLength r fs1 names fs2 lenBytes ++ encodeRecords rs2)))
    (hfuel : rs1.length + rs2.length + 1 < fuel) :
    as_parse_users_loop cfg m (buffer + ((encodeRecords (rs1 ++ r :: rs2)).length : Nat)) fuel
        buffer users
      = .ret (0, users ++ emittedRecords cfg (rs1 ++ r :: rs2),
          buffer + ((encodeRecords (rs1 ++ r :: rs2)).length : Nat)) := by
  obtain ⟨k, rfl⟩ : ∃ k, fuel = ((k + 1) + rs2.length + 1) + rs1.length :=
    ⟨fuel - rs1.length - rs2.length - 2, by omega⟩
  have hr := hrs r (by simp)
  obtain ⟨h1, h2⟩ := hm.append
  obtain ⟨h3, h4⟩ := h2.append
  have hlenr := encodeWithRolesLength_length r fs1 fs2 names lenBytes hr.1.1 hl
  rw [← hf, ← r.encode_length hr.1.1] at hlenr
  rw [hlenr] at h4
  have hN : (encodeRecords (rs1 ++ r :: rs2)).length
      = (encodeRecords rs1).length + (r.encode.length + (encodeRecords rs2).length) := by
    simp only [encodeRecords_append, encodeRecords, List.length_append]
  have h16 := r.encode_length hr.1.1
  rw [hN]
  rw [as_parse_users_loop_records cfg m _ ((k + 1) + rs2.length + 1) rs1 buffer users hU
    (fun x hx => hrs x (by simp [hx])) h1 (by push_cast; omega)]
  rw [as_parse_users_loop_record_any cfg m _ ((k + 1) + rs2.length) _ _ r fs1 fs2 names lenBytes
    hU hr.1 hr.2 hf hl h3 (by push_cast; omega)]
  rw [as_parse_users_loop_records cfg m _ (k + 1) rs2 _ _ hU
    (fun x hx => hrs x (by simp [hx])) h4 (by push_cast; omega)]
  rw [as_parse_users_loop]
  rw [if_neg (by push_cast; omega)]
  simp only [emittedRecords_append, emittedRecords, List.append_assoc]
  congr 3
  push_cast; ring

theorem as_parse_roles_loop_advance (cfg : Config) (m : Mem) (k : Nat) (p : Int) :
    p ≤ (as_parse_roles_loop cfg m k p).2 := by
  induction k generalizing p with
  | zero => simp [as_parse_roles_loop]
  | succ k ih =>
    have h := ih (p + 1 + (load8 m p : Int))
    have hn := Int.natCast_nonneg (load8 m p)
    simp only [as_parse_roles_loop]
    omega

/-- A field with a legal declared length is decoded and moves the cursor by
at least the 5 header bytes. -/
theorem parse_field_advance (cfg : Config) (m : Mem) (st : FieldState)
    (hU : 1 ≤ cfg.AS_USER_SIZE) (h : fieldLengthLegal m st.p = true) :
    ∃ st2, parse_field cfg m st = some st2 ∧ st.p + 5 ≤ st2.p := by
  simp only [fieldLengthLegal, decide_eq_true_eq] at h
  obtain ⟨L, hL⟩ : ∃ L, ofBE (loadBytes m st.p 4) = L := ⟨_, rfl⟩
  rw [hL] at h
  have hlen : toI32 (toI32 ((L : Nat) : Int) - 1) = ((L - 1 : Nat) : Int) := by
    rw [toI32_of_nat L (by omega), toI32_pred L (by omega) h.1]
    omega
  simp only [parse_field, parse_field_header_eq, hL, hlen]
  by_cases hid : load8 m (st.p + 4) = USER
  · simp only [hid, if_true]
    have hsz : ¬ ((if ((L - 1 : Nat) : Int) ≤ (cfg.AS_USER_SIZE : Int) - 1
        then ((L - 1 : Nat) : Int) else (cfg.AS_USER_SIZE : Int) - 1) < 0) := by
      split <;> omega
    rw [if_neg hsz]
    exact ⟨_, rfl, by simp only; omega⟩
  · simp only [hid, if_false]
    by_cases hro : load8 m (st.p + 4) = ROLES
    · simp only [hro, if_true]
      refine ⟨_, rfl, ?_⟩
      have := as_parse_roles_loop_advance cfg m (load8 m (st.p + 5)) (st.p + 5 + 1)
      simp only [as_parse_roles]
      omega
    · simp only [hro, if_false]
      exact ⟨_, rfl, by simp only; omega⟩

theorem parse_fields_advance (cfg : Config) (m : Mem) (k : Nat) (st : FieldState)
    (hU : 1 ≤ cfg.AS_USER_SIZE) (h : fieldLengthsLegal cfg m k st = true) :
    ∃ st2, parse_fields cfg m k st = some st2 ∧ st.p + 5 * (k : Int) ≤ st2.p := by
  induction k generalizing st with
  | zero => exact ⟨st, rfl, by omega⟩
  | succ k ih =>
    simp only [fieldLengthsLegal, Bool.and_eq_true] at h
    obtain ⟨st1, h1, h2⟩ := parse_field_advance cfg m st hU h.1
    have h3 := h.2
    rw [h1] at h3
    obtain ⟨st2, h4, h5⟩ := ih st1 h3
    refine ⟨st2, ?_, by push_cast; omega⟩
    simp only [parse_fields, h1, h4]

theorem emit_record_length (st : FieldState) (users : List as_user_roles) :
    (emit_record st users).length ≤ users.length + 1 := by
  unfold emit_record
  split
  · omega
  · simp

/-- The record loop returns within one turn per 16 bytes of the block, and
one more, when the fields it meets declare legal lengths. -/
theorem as_parse_users_loop_terminates (cfg : Config) (m : Mem) (end_ : Int)
    (hU : 1 ≤ cfg.AS_USER_SIZE) (fuel : Nat) (p : Int) (users : List as_user_roles)
    (hfuel : ((end_ - p).toNat + 15) / 16 < fuel)
    (h : recordsLegal cfg m end_ fuel p = true) :
    ∃ status users2 p2, as_parse_users_loop cfg m end_ fuel p users = .ret (status, users2, p2)
      ∧ users2.length ≤ users.length + ((end_ - p).toNat + 15) / 16 := by
  induction fuel generalizing p users with
  | zero => omega
  | succ fuel ih =>
    rw [as_parse_users_loop]
    by_cases hp : p < end_
    · rw [if_pos hp]
      by_cases hres : load8 m (p + 1) = 0
      · simp only [hres, ne_eq, not_true_eq_false, if_false]
        simp only [recordsLegal, hp, hres, and_self, if_true, Bool.and_eq_true] at h
        obtain ⟨st, h1, h2⟩ := parse_fields_advance cfg m (load8 m (p + 3)) _ hU h.1
        have h3 := h.2
        rw [h1] at h3 ⊢
        simp only [HEADER_REMAINING, Nat.cast_ofNat] at h2 h3 ⊢
        have hn := Int.natCast_nonneg (load8 m (p + 3))
        obtain ⟨status, users2, p2, e1, e2⟩ := ih st.p (emit_record st users) (by omega) h3
        have := emit_record_length st users
        exact ⟨status, users2, p2, e1, by omega⟩
      · simp only [hres, ne_eq, not_false_eq_true, if_true]
        exact ⟨_, _, _, rfl, by omega⟩
    · rw [if_neg hp]
      exact ⟨_, _, _, rfl, by omega⟩

/-- The streaming path returns unless the block reader does not return. -/
theorem as_read_users_returns (cfg : Config) (w : World) (m : Mem) (buffer end_ : Int)
    (users : List as_user_roles) (fuel : Nat) :
    (∃ w2 m2 users2 s, as_read_users cfg w m buffer end_ users fuel = .ret (w2, m2, users2, s))
    ∨ (w.node_available = true ∧ w.connection_status = 0 ∧ w.write_status = 0
        ∧ ∀ r, as_read_user_blocks cfg
          (as_send cfg ((w.log .as_node_get_random).log .as_node_get_connection) m buffer end_).1
          (as_send cfg ((w.log .as_node_get_random).log .as_node_get_connection) m buffer end_).2.1
          buffer users fuel ≠ .ret r) := by
  by_cases hnode : w.node_available = true
  · by_cases hconn : w.connection_status = 0
    · by_cases hwr : w.write_status = 0
      · have key := as_read_users_eq cfg w m buffer end_ users fuel hnode hconn hwr
        cases hb : as_read_user_blocks cfg
            (as_send cfg ((w.log .as_node_get_random).log .as_node_get_connection) m buffer
              end_).1
            (as_send cfg ((w.log .as_node_get_random).log .as_node_get_connection) m buffer
              end_).2.1
            buffer users fuel with
        | crash => exact Or.inr ⟨hnode, hconn, hwr, fun r hr => by cases hr⟩
        | exhausted => exact Or.inr ⟨hnode, hconn, hwr, fun r hr => by cases hr⟩
        | ret r =>
          obtain ⟨w2, m2, users2, s⟩ := r
          rw [hb] at key
          exact Or.inl ⟨_, _, _, _, key⟩
      · obtain ⟨hs1, -, -⟩ := as_send_status cfg
          ((w.log .as_node_get_random).log .as_node_get_connection) m buffer end_
        have h1 : (w.log .as_node_get_random).node_available = true := hnode
        have h2 : ((w.log .as_node_get_random).log .as_node_get_connection).connection_status
            = 0 := hconn
        have hw : ((w.log .as_node_get_random).log .as_node_get_connection).write_status
            = w.write_status := rfl
        rw [hw] at hs1
        have key : as_read_users cfg w m buffer end_ users fuel
            = .ret ((((as_send cfg ((w.log .as_node_get_random).log .as_node_get_connection) m
                buffer end_).1.log .as_close).log .as_node_release),
              (as_send cfg ((w.log .as_node_get_random).log .as_node_get_connection) m
                buffer end_).2.1, users, cfg.AEROSPIKE_ERR_TIMEOUT) := by
          unfold as_read_users
          simp only [h1, h2, hs1, hwr, ne_eq, not_true_eq_false, not_false_eq_true, if_false,
            if_true]
        exact Or.inl ⟨_, _, _, _, key⟩
    · have h1 : (w.log .as_node_get_random).node_available = true := hnode
      have h2 : ¬ ((w.log .as_node_get_random).log .as_node_get_connection).connection_status
          = 0 := hconn
      have key : as_read_users cfg w m buffer end_ users fuel
          = .ret (((w.log .as_node_get_random).log .as_node_get_connection).log
              .as_node_release, m, users, w.connection_status) := by
        unfold as_read_users
        simp only [h1, h2, ne_eq, not_true_eq_false, not_false_eq_true, if_false, if_true]
        rfl
      exact Or.inl ⟨_, _, _, _, key⟩
  · have h1 : ¬ (w.log .as_node_get_random).node_available = true := hnode
    have key : as_read_users cfg w m buffer end_ users fuel
        = .ret (w.log .as_node_get_random, m, users, cfg.AEROSPIKE_ERR_CLIENT) := by
      unfold as_read_users
      simp only [h1, Bool.false_eq_true, not_false_eq_true, if_true]
    exact Or.inl ⟨_, _, _, _, key⟩

/-- A stream in which the first record with a nonzero result code carries a
code `c` other than 50: `as_parse_users` returns `c` for its block,
`as_read_user_blocks` returns `c` with the records parsed ahead of it and
leaves the rest of the stream unread; `aerospike_query_users` returns `c`
with a null list when no record was parsed ahead of it and fails inside
`as_free_users` when one was. -/
theorem query_users_error_paths (cfg : Config) (w : World) (m : Mem) (buffer : Int)
    (bs : List WireBlock) (v t : Nat) (rs : List WireRecord)
    (b0 c : Nat) (junk rest : List Nat) (fuel : Nat)
    (hU : 1 ≤ cfg.AS_USER_SIZE)
    (hnode : w.node_available = true) (hconn : w.connection_status = 0)
    (hwrite : w.write_status = 0)
    (hin : w.incoming
      = encodeBlocks bs ++ (blockBytes v t (encodeRecords rs ++ b0 :: c :: junk) ++ rest))
    (hok : StreamOK bs) (hv : v < 256) (ht : t < 256)
    (hrs : ∀ r ∈ rs, r.WF ∧ r.result = 0) (hc : c ≠ 0) (hc50 : c ≠ 50)
    (hbytes : ∀ x ∈ encodeRecords rs ++ b0 :: c :: junk, x < 256)
    (hlen : (encodeRecords rs ++ b0 :: c :: junk).length < 2 ^ 31)
    (hfuel : (encodeBlocks bs).length + (encodeRecords rs ++ b0 :: c :: junk).length < fuel) :
    (∀ (m2 : Mem) (buf : Int) (users : List as_user_roles),
        Holds m2 buf (encodeRecords rs ++ b0 :: c :: junk) →
        as_parse_users cfg m2 buf ((encodeRecords rs ++ b0 :: c :: junk).length : Nat) users fuel
          = .ret (c, users ++ emittedRecords cfg rs))
    ∧ (∃ w2 m2, as_read_user_blocks cfg w m buffer [] fuel
          = .ret (w2, m2, [] ++ emittedBlocks cfg bs ++ emittedRecords cfg rs, c)
        ∧ w2.incoming = rest)
    ∧ (([] ++ emittedBlocks cfg bs ++ emittedRecords cfg rs).length = 0 →
        ∃ w3, aerospike_query_users cfg w m buffer fuel
          = .ret (w3, { status := c, user_roles := none, user_roles_size := 0 })
          ∧ w3.incoming = rest)
    ∧ (([] ++ emittedBlocks cfg bs ++ emittedRecords cfg rs).length ≠ 0 →
        aerospike_query_users cfg w m buffer fuel = .crash) := by
  have hrl := encodeRecords_length_ge rs (fun r hr => (hrs r hr).1)
  have hpl : (encodeRecords rs ++ b0 :: c :: junk).length
      = (encodeRecords rs).length + (junk.length + 2) := by simp
  have hcI : (if (c : Int) = QUERY_END then (0 : Int) else (c : Int)) = (c : Int) :=
    if_neg (by simp only [QUERY_END]; omega)
  refine ⟨?_, ?_, ?_⟩
  · intro m2 buf users hm2
    exact as_parse_users_stop cfg m2 buf rs b0 c junk users fuel hU hrs hc hm2 (by omega)
  · obtain ⟨w2, m2, h1, h2, -⟩ := as_read_user_blocks_stop cfg w m buffer [] bs v t rs b0 c
      junk rest fuel hU hin hok hv ht hrs hc hbytes hlen hfuel
    rw [hcI] at h1
    exact ⟨w2, m2, h1, h2⟩
  · obtain ⟨hs1, hs2, hs3⟩ := as_send_status cfg
      ((w.log .as_node_get_random).log .as_node_get_connection)
      (write_header m (buffer + 8) QUERY_USERS 0).1 buffer
      (write_header m (buffer + 8) QUERY_USERS 0).2
    obtain ⟨w2, m2, h1, h2, -⟩ := as_read_user_blocks_stop cfg
      (as_send cfg ((w.log .as_node_get_random).log .as_node_get_connection)
        (write_header m (buffer + 8) QUERY_USERS 0).1 buffer
        (write_header m (buffer + 8) QUERY_USERS 0).2).1
      (as_send cfg ((w.log .as_node_get_random).log .as_node_get_connection)
        (write_header m (buffer + 8) QUERY_USERS 0).1 buffer
        (write_header m (buffer + 8) QUERY_USERS 0).2).2.1
      buffer [] bs v t rs b0 c junk rest fuel hU (hs2.trans hin) hok hv ht hrs hc hbytes hlen hfuel
    rw [hcI] at h1
    have hq := aerospike_query_users_failed cfg w m buffer fuel w2 m2 _ (c : Int)
      hnode hconn hwrite (by omega) h1
    refine ⟨?_, ?_⟩
    · intro hn
      rw [if_pos hn] at hq
      refine ⟨_, hq, ?_⟩
      rw [if_pos (by omega)]
      exact h2
    · intro hn
      rw [if_neg hn] at hq
      exact hq

/-- From the second record header of `staleFieldMem` the record loop comes
back to the same header in every turn. -/
theorem as_parse_users_loop_stale (fuel : Nat) (users : List as_user_roles) :
    as_parse_users_loop sampleConfig staleFieldMem 32 fuel 16 users = .exhausted := by
  induction fuel with
  | zero => rfl
  | succ fuel ih =>
    have h1 : load8 staleFieldMem (16 + 1) = 0 := by decide
    have h3 : load8 staleFieldMem (16 + 3) = 1 := by decide
    have hp : parse_fields sampleConfig staleFieldMem 1
        { p := 16 + (HEADER_REMAINING : Int), user := [0], user_roles := none }
        = some { p := 16, user := [0], user_roles := none } := by decide
    rw [as_parse_users_loop]
    simp only [h1, h3, hp, ne_eq, not_true_eq_false, if_false]
    rw [if_pos (by decide)]
    simpa [emit_record] using ih

theorem as_parse_users_stale (fuel : Nat) (users : List as_user_roles) :
    as_parse_users sampleConfig staleFieldMem 0 32 users fuel = .exhausted := by
  unfold as_parse_users
  cases fuel with
  | zero => rfl
  | succ fuel =>
    have h1 : load8 staleFieldMem (0 + 1) = 0 := by decide
    have h3 : load8 staleFieldMem (0 + 3) = 0 := by decide
    rw [as_parse_users_loop]
    simp only [h1, h3, ne_eq, not_true_eq_false, if_false, parse_fields]
    rw [if_pos (by decide)]
    have h := as_parse_users_loop_stale fuel users
    simp only [emit_record, HEADER_REMAINING]
    simp only [List.headD_cons, and_self, if_true]
    rw [show (0 : Int) + 32 = 32 by rfl, show (0 : Int) + ((16 : Nat) : Int) = 16 by rfl, h]

/-! ## Field codec -/

/-- C1: for every id byte and NUL-free string `s` of length `n` with
`n + 1 < 2^31`, `write_field_string` leaves at `p` the 4 big-endian bytes of
`n + 1`, the id byte and the `n` bytes of `s` without padding, returns
`p + 5 + n`, the wire length reads `n + 1` (the terminator is not counted),
the byte at the returned position is the terminator, and no byte outside
`[p, p + 5 + n]` changes. -/
theorem write_field_string_layout (host : ByteOrder) (m : Mem) (p : Int) (id : Nat) (s : List Nat)
    (hid : id < 256) (hs : NulFree s) (hn : s.length + 1 < 2 ^ 31) :
    loadBytes (write_field_string host m p id s).1 p (5 + s.length)
        = beBytes 4 (s.length + 1) ++ id :: s
      ∧ (write_field_string host m p id s).2 = p + 5 + s.length
      ∧ ofBE (loadBytes (write_field_string host m p id s).1 p 4) = s.length + 1
      ∧ load8 (write_field_string host m p id s).1 (write_field_string host m p id s).2 = 0
      ∧ ∀ x, x < p ∨ p + 5 + s.length < x →
          load8 (write_field_string host m p id s).1 x = load8 m x :=
  write_field_string_spec host m p id s hid hs hn

/-- Witness of C1: the field `(3, "abc")` written at address 100 of a
little-endian host. -/
theorem write_field_string_layout_witness :
    loadBytes (write_field_string .little zeroMem 100 3 [97, 98, 99]).1 100 8
        = [0, 0, 0, 4, 3, 97, 98, 99]
      ∧ (write_field_string .little zeroMem 100 3 [97, 98, 99]).2 = 108 :=
  ⟨(write_field_string_layout .little zeroMem 100 3 [97, 98, 99]
      (by decide) (by decide) (by decide)).1,
   (write_field_string_layout .little zeroMem 100 3 [97, 98, 99]
      (by decide) (by decide) (by decide)).2.1⟩

/-- C2: round trip of a string field. The header decode of the record parser
applied to the bytes written by `write_field_string` gives back the payload
size `n` and the id, and the `n` bytes after the 5-byte header are the payload. -/
theorem write_field_string_roundtrip (cfg : Config) (m : Mem) (p : Int) (id : Nat) (s : List Nat)
    (hid : id < 256) (hs : NulFree s) (hn : s.length + 1 < 2 ^ 31) :
    parse_field_header cfg (write_field_string cfg.host m p id s).1 p = ((s.length : Int), id, p + 5)
    ∧ loadBytes (write_field_string cfg.host m p id s).1 (p + 5) s.length = s := by
  obtain ⟨h1, -, -, -, -⟩ := write_field_string_spec cfg.host m p id s hid hs hn
  have h5 : loadBytes (write_field_string cfg.host m p id s).1 p 5 = beBytes 4 (s.length + 1) ++ [id]
      ∧ loadBytes (write_field_string cfg.host m p id s).1 (p + 5) s.length = s := by
    have := loadBytes_split (write_field_string cfg.host m p id s).1 p
      (beBytes 4 (s.length + 1) ++ [id]) s (by
        simpa [beBytes_length, Nat.add_comm] using h1)
    simpa [beBytes_length] using this
  refine ⟨?_, h5.2⟩
  rw [parse_field_header_of_bytes cfg _ p (s.length + 1) id hn (by omega) h5.1]
  simp

/-- Witness of C2 for payload sizes 0, 1, 255 and 300 (a length that needs
two bytes). -/
theorem write_field_string_roundtrip_witness :
    (parse_field_header sampleConfig (write_field_string .little zeroMem 0 1 []).1 0 = (0, 1, 5))
    ∧ (parse_field_header sampleConfig (write_field_string .little zeroMem 0 1 [7]).1 0 = (1, 1, 5))
    ∧ (parse_field_header sampleConfig
        (write_field_string .little zeroMem 0 1 (List.replicate 255 7)).1 0 = (255, 1, 5))
    ∧ (parse_field_header sampleConfig
        (write_field_string .little zeroMem 0 1 (List.replicate 300 7)).1 0 = (300, 1, 5)) :=
  ⟨(write_field_string_roundtrip sampleConfig zeroMem 0 1 [] (by decide) (by decide) (by decide)).1,
   (write_field_string_roundtrip sampleConfig zeroMem 0 1 [7] (by decide) (by decide) (by decide)).1,
   by
    have h := (write_field_string_roundtrip sampleConfig zeroMem 0 1 (List.replicate 255 7)
      (by decide) (by intro b hb; rw [List.eq_of_mem_replicate hb]; decide)
      (by rw [List.length_replicate]; decide)).1
    rw [List.length_replicate] at h
    exact h,
   by
    have h := (write_field_string_roundtrip sampleConfig zeroMem 0 1 (List.replicate 300 7)
      (by decide) (by intro b hb; rw [List.eq_of_mem_replicate hb]; decide)
      (by rw [List.length_replicate]; decide)).1
    rw [List.length_replicate] at h
    exact h⟩

/-- C3: for `k <= 255` NUL-free role names of at most 255 bytes, `write_roles`
leaves at `p` one field with id 10 whose payload is the count byte `k` and,
per role in input order, a length byte and the raw bytes; the wire length is
`1 + (1 + sum (1 + |role_i|))` and the returned position is
`p + 5 + 1 + sum (1 + |role_i|)`. -/
theorem write_roles_layout (host : ByteOrder) (m : Mem) (p : Int) (roles : List (List Nat))
    (hk : roles.length ≤ 255) (hr : ∀ r ∈ roles, NulFree r ∧ r.length ≤ 255) :
    loadBytes (write_roles host m p roles roles.length).1 p (5 + (1 + (roleEntries roles).length))
        = beBytes 4 (1 + (1 + (roles.map (fun r => 1 + r.length)).sum))
            ++ ROLES :: roles.length :: roleEntries roles
      ∧ (write_roles host m p roles roles.length).2
          = p + 5 + 1 + ((roles.map (fun r => 1 + r.length)).sum : Nat)
      ∧ (roleEntries roles).length = (roles.map (fun r => 1 + r.length)).sum := by
  obtain ⟨h1, h2, -⟩ := write_roles_spec host m p roles hk hr
  rw [← roleEntries_length]
  exact ⟨h1, h2, rfl⟩

/-- Witness of C3: the roles `["abc", "d"]` written at address 100. -/
theorem write_roles_layout_witness :
    loadBytes (write_roles .big zeroMem 100 [[97, 98, 99], [100]] 2).1 100 12
        = [0, 0, 0, 8, 10, 2, 3, 97, 98, 99, 1, 100]
      ∧ (write_roles .big zeroMem 100 [[97, 98, 99], [100]] 2).2 = 112 :=
  ⟨(write_roles_layout .big zeroMem 100 [[97, 98, 99], [100]] (by decide) (by decide)).1,
   (write_roles_layout .big zeroMem 100 [[97, 98, 99], [100]] (by decide) (by decide)).2.1⟩

/-! ## Proto framing -/

/-- C4: for a request buffer of `L` bytes with `8 <= L` and `L - 8 < 2^48`,
`as_send` overwrites the first 8 bytes with version 0, type 2 and the 48-bit
big-endian value of `L - 8`, leaves bytes `8 .. L-1` unchanged and hands
exactly the `L` bytes of the buffer to the socket write. -/
theorem as_send_frame (cfg : Config) (w : World) (m : Mem) (buffer : Int) (L : Nat)
    (h8 : 8 ≤ L) (hL : L - 8 < 2 ^ 48) :
    loadBytes (as_send cfg w m buffer (buffer + L)).2.1 buffer 8 = [0, 2] ++ beBytes 6 (L - 8)
    ∧ loadBytes (as_send cfg w m buffer (buffer + L)).2.1 (buffer + 8) (L - 8)
        = loadBytes m (buffer + 8) (L - 8)
    ∧ (as_send cfg w m buffer (buffer + L)).1.events
        = w.events ++ [.as_socket_write (loadBytes (as_send cfg w m buffer (buffer + L)).2.1 buffer L)]
    ∧ (loadBytes (as_send cfg w m buffer (buffer + L)).2.1 buffer L).length = L
    ∧ (as_send cfg w m buffer (buffer + L)).2.2 = w.write_status := by
  rw [as_send_spec cfg w m buffer L h8 hL]
  refine ⟨?_, ?_, rfl, loadBytes_length _ _ _, rfl⟩
  · have := loadBytes_storeBytes_same ([0, 2] ++ beBytes 6 (L - 8)) m buffer (by
      intro b hb
      simp only [List.mem_append, List.mem_cons, List.mem_singleton, List.not_mem_nil, or_false] at hb
      rcases hb with (rfl | rfl) | hb
      · omega
      · omega
      · exact beBytes_lt _ _ b hb)
    simpa [beBytes_length] using this
  · apply loadBytes_storeBytes_out
    right
    simp [beBytes_length]

/-- Witness of C4: a 10-byte buffer at address 0. -/
theorem as_send_frame_witness :
    loadBytes (as_send sampleConfig (sampleWorld [])
        zeroMem 0 ((0 : Int) + (10 : Nat))).2.1 0 8 = [0, 2, 0, 0, 0, 0, 0, 2] :=
  (as_send_frame sampleConfig (sampleWorld [])
        zeroMem 0 10 (by decide) (by decide)).1

/-! ## Command encoder -/

/-- C5, as stated, fails: user "alice", password "secret" and 255 roles of
255 bytes each are NUL-free strings inside the stated bounds; the request
takes more than 65,000 bytes, the on-stack array has 16,384, and
`aerospike_create_user` writes behind the array before anything is sent. -/
theorem aerospike_create_user_overruns :
    aerospike_create_user sampleConfig (sampleWorld []) zeroMem 1000
        [97, 108, 105, 99, 101] [115, 101, 99, 114, 101, 116]
        (List.replicate 255 (List.replicate 255 97)) (255 : Nat)
      = .crash := by
  have hr : ∀ r ∈ List.replicate 255 (List.replicate 255 97), NulFree r ∧ r.length ≤ 255 := by
    intro r hr
    rw [List.eq_of_mem_replicate hr]
    refine ⟨?_, by rw [List.length_replicate]⟩
    intro b hb
    rw [List.eq_of_mem_replicate hb]
    decide
  obtain ⟨m4, -, heq⟩ := aerospike_create_user_eq sampleConfig (sampleWorld []) zeroMem 1000
    [97, 108, 105, 99, 101] [115, 101, 99, 114, 101, 116]
    (List.replicate 255 (List.replicate 255 97)) (by decide) (by decide) (by decide) (by decide)
    (by rw [List.length_replicate]) hr
  rw [List.length_replicate] at heq
  rw [heq]
  refine if_neg (createUserBody_overflow _ _ _ _ _ ?_)
  rw [roleEntries_replicate_length, List.length_replicate]
  decide

/-- C5 amended: when the request, with the terminator that `stpcpy` leaves
behind the last role, fits the `AS_STACK_BUF_SIZE` bytes of the on-stack
array, the request built by `aerospike_create_user` is, after the 8-byte
proto header, the 16-byte command header (zero but for byte 2 = 1 and byte
3 = 3) followed by exactly the fields User (id 0), Password hash (id 1) and
Roles (id 10), and `as_parse_roles` on the payload of the third field returns
the supplied roles in order, each cut to the role-name bound and terminated.
When it does not fit, a write falls behind the array and nothing is sent. -/
theorem aerospike_create_user_request (cfg : Config) (w : World) (m : Mem) (buffer : Int)
    (user password : List Nat) (roles : List (List Nat))
    (hnode : w.node_available = true) (hconn : w.connection_status = 0)
    (hu : NulFree user) (hul : user.length + 1 < 2 ^ 31)
    (hh : NulFree (cfg.as_password_get_constant_hash password))
    (hhl : (cfg.as_password_get_constant_hash password).length + 1 < 2 ^ 31)
    (hk : roles.length ≤ 255) (hr : ∀ r ∈ roles, NulFree r ∧ r.length ≤ 255) :
    (8 + (createUserBody user (cfg.as_password_get_constant_hash password) roles).length
          + (if roles = [] then 0 else 1) ≤ cfg.AS_STACK_BUF_SIZE →
      ∃ w2 m2 status,
        aerospike_create_user cfg w m buffer user password roles roles.length
          = .ret (w2, m2, status)
        ∧ ∃ rest, w2.events
          = w.events ++ [.as_node_get_random, .as_node_get_connection,
              .as_socket_write
                (protoHeader
                    (createUserBody user (cfg.as_password_get_constant_hash password) roles).length
                  ++ createUserBody user (cfg.as_password_get_constant_hash password) roles)]
            ++ rest)
    ∧ (cfg.AS_STACK_BUF_SIZE
          < 8 + (createUserBody user (cfg.as_password_get_constant_hash password) roles).length
            + (if roles = [] then 0 else 1) →
        aerospike_create_user cfg w m buffer user password roles roles.length = .crash)
    ∧ createUserBody user (cfg.as_password_get_constant_hash password) roles
        = ([0, 0, 1, 3] ++ List.replicate 12 0)
          ++ (fieldBytes 0 user
            ++ (fieldBytes 1 (cfg.as_password_get_constant_hash password)
              ++ fieldBytes 10 (rolesPayload roles)))
    ∧ ∀ (m2 : Mem) (a : Int), Holds m2 a (rolesPayload roles) →
        as_parse_roles cfg m2 a =
          ({ user := [], roles_size := roles.length,
             roles := roles.map (fun r => r.take (cfg.AS_ROLE_SIZE - 1) ++ [0]) },
            a + (rolesPayload roles).length) := by
  obtain ⟨m4, hm4, heq⟩ := aerospike_create_user_eq cfg w m buffer user password roles
    hu hul hh hhl hk hr
  have hlen : (createUserBody user (cfg.as_password_get_constant_hash password) roles).length
      < 2 ^ 48 := by
    have := roleEntries_length_le roles (fun r h => (hr r h).2)
    simp only [createUserBody, commandHeader, List.length_append, fieldBytes_length,
      rolesPayload, List.length_cons, List.length_replicate, List.length_nil]
    norm_num at hul hhl ⊢
    omega
  refine ⟨?_, ?_, rfl, ?_⟩
  · intro hfit
    rw [heq, if_pos hfit]
    exact ⟨(as_execute cfg w m4 buffer (buffer + 8
        + (createUserBody user (cfg.as_password_get_constant_hash password) roles).length)).1,
      (as_execute cfg w m4 buffer (buffer + 8
        + (createUserBody user (cfg.as_password_get_constant_hash password) roles).length)).2.1,
      (as_execute cfg w m4 buffer (buffer + 8
        + (createUserBody user (cfg.as_password_get_constant_hash password) roles).length)).2.2,
      rfl, as_execute_sends cfg w m4 buffer _ hnode hconn hlen hm4⟩
  · intro hover
    rw [heq, if_neg (by omega)]
  · intro m2 a hm2
    exact as_parse_roles_spec cfg m2 roles a (fun r h => (hr r h).2) hm2

/-- Witness of C5 amended: user "alice", password "secret", roles
["read-write"]; the request has 63 bytes. -/
theorem aerospike_create_user_request_witness :
    (∃ w2 m2 status, aerospike_create_user sampleConfig (sampleWorld []) zeroMem 1000
        [97, 108, 105, 99, 101] [115, 101, 99, 114, 101, 116]
        [[114, 101, 97, 100, 45, 119, 114, 105, 116, 101]] 1 = .ret (w2, m2, status)
      ∧ ∃ rest, w2.events
        = [] ++ [.as_node_get_random, .as_node_get_connection,
          .as_socket_write
            ([0, 2, 0, 0, 0, 0, 0, 55]
              ++ [0, 0, 1, 3, 0, 0, 0, 0, 0, 0, 0, 0, 0, 0, 0, 0]
              ++ [0, 0, 0, 6, 0, 97, 108, 105, 99, 101]
              ++ [0, 0, 0, 8, 1, 36, 116, 101, 114, 99, 101, 115]
              ++ [0, 0, 0, 13, 10, 1, 10, 114, 101, 97, 100, 45, 119, 114, 105, 116, 101])]
          ++ rest)
    ∧ as_parse_roles sampleConfig
        (storeBytes zeroMem 0 [1, 10, 114, 101, 97, 100, 45, 119, 114, 105, 116, 101]) 0
      = ({ user := [], roles_size := 1,
           roles := [[114, 101, 97, 100, 45, 119, 114, 105, 116, 101, 0]] }, 12) :=
  ⟨(aerospike_create_user_request sampleConfig (sampleWorld []) zeroMem 1000
      [97, 108, 105, 99, 101] [115, 101, 99, 114, 101, 116]
      [[114, 101, 97, 100, 45, 119, 114, 105, 116, 101]]
      rfl rfl (by decide) (by decide) (by decide) (by decide) (by decide) (by decide)).1
      (by decide),
   (aerospike_create_user_request sampleConfig (sampleWorld []) zeroMem 1000
      [97, 108, 105, 99, 101] [115, 101, 99, 114, 101, 116]
      [[114, 101, 97, 100, 45, 119, 114, 105, 116, 101]]
      rfl rfl (by decide) (by decide) (by decide) (by decide) (by decide) (by decide)).2.2.2
      (storeBytes zeroMem 0 [1, 10, 114, 101, 97, 100, 45, 119, 114, 105, 116, 101]) 0
      (by decide)⟩

/-! ## Record parser -/

/-- C6: truncation policy. A User field whose declared payload length is
`len >= 0` leaves in `user` the first `min len (AS_USER_SIZE - 1)` wire bytes
and a terminator, never fails, and moves the cursor by the 5 header bytes
and the full `len`; each role entry leaves in its array the first
`min len (AS_ROLE_SIZE - 1)` wire bytes and a terminator and moves the cursor
by the length byte and the full `len`. The bytes kept are the whole name when
it fits the bound and exactly its first `N` bytes otherwise; for a NUL-free
name they are also the C string that `strcpy` then copies into the record. -/
theorem name_truncation (cfg : Config) (m : Mem) (st : FieldState) (name : List Nat)
    (p : Int) (names : List (List Nat))
    (hU : 1 ≤ cfg.AS_USER_SIZE) (hlen : name.length + 1 < 2 ^ 31)
    (hm : Holds m st.p (fieldBytes USER name))
    (hr : ∀ r ∈ names, r.length ≤ 255) (hmr : Holds m p (roleEntries names)) :
    parse_field cfg m st =
        some { p := st.p + 5 + name.length,
               user := name.take (min name.length (cfg.AS_USER_SIZE - 1)) ++ [0],
               user_roles := st.user_roles }
    ∧ as_parse_roles_loop cfg m names.length p =
        (names.map (fun r => r.take (min r.length (cfg.AS_ROLE_SIZE - 1)) ++ [0]),
          p + ((names.map (fun r => 1 + r.length)).sum : Nat))
    ∧ (∀ (s : List Nat) (N : Nat),
        (s.length ≤ N → s.take (min s.length N) = s)
        ∧ (N < s.length → s.take (min s.length N) = s.take N ∧ (s.take N).length = N))
    ∧ (NulFree name →
        cstr (name.take (min name.length (cfg.AS_USER_SIZE - 1)) ++ [0])
          = name.take (min name.length (cfg.AS_USER_SIZE - 1))) := by
  have htake : ∀ (s : List Nat) (N : Nat), s.take (min s.length N) = s.take N := by
    intro s N
    by_cases h : N ≤ s.length
    · rw [Nat.min_eq_right h]
    · rw [Nat.min_eq_left (by omega), List.take_of_length_le (le_refl _),
        List.take_of_length_le (by omega)]
  refine ⟨?_, ?_, ?_, ?_⟩
  · have h := parse_field_spec cfg m (.user name) st hU hlen hm
    simp only [WireField.encode, WireField.apply, fieldBytes_length] at h
    rw [h, htake]
    congr 2
    push_cast; ring
  · rw [as_parse_roles_loop_spec cfg m names p hr hmr, roleEntries_length]
    simp only [htake]
  · intro s N
    refine ⟨fun h => ?_, fun h => ⟨htake s N, ?_⟩⟩
    · rw [htake, List.take_of_length_le h]
    · rw [List.length_take, Nat.min_eq_left (by omega)]
  · intro hnf
    exact cstr_nulFree _ (fun b hb => hnf b (List.mem_of_mem_take hb))

/-- Witness of C6, with a user bound of 3 bytes and a role bound of 2: the
user "alice" decodes to "ali", the roles "rw" and "adm" to "rw" and "ad". -/
theorem name_truncation_witness :
    parse_field { sampleConfig with AS_USER_SIZE := 4, AS_ROLE_SIZE := 3 }
        (storeBytes (storeBytes zeroMem 0 (fieldBytes USER [97, 108, 105, 99, 101])) 100
          (roleEntries [[114, 119], [97, 100, 109]]))
        { p := 0, user := [0], user_roles := none }
      = some { p := 10, user := [97, 108, 105, 0], user_roles := none }
    ∧ as_parse_roles_loop { sampleConfig with AS_USER_SIZE := 4, AS_ROLE_SIZE := 3 }
        (storeBytes (storeBytes zeroMem 0 (fieldBytes USER [97, 108, 105, 99, 101])) 100
          (roleEntries [[114, 119], [97, 100, 109]])) 2 100
      = ([[114, 119, 0], [97, 100, 0]], 107) :=
  ⟨(name_truncation { sampleConfig with AS_USER_SIZE := 4, AS_ROLE_SIZE := 3 }
      (storeBytes (storeBytes zeroMem 0 (fieldBytes USER [97, 108, 105, 99, 101])) 100
        (roleEntries [[114, 119], [97, 100, 109]]))
      { p := 0, user := [0], user_roles := none } [97, 108, 105, 99, 101] 100
      [[114, 119], [97, 100, 109]] (by decide) (by decide) (by decide) (by decide)
      (by decide)).1,
   (name_truncation { sampleConfig with AS_USER_SIZE := 4, AS_ROLE_SIZE := 3 }
      (storeBytes (storeBytes zeroMem 0 (fieldBytes USER [97, 108, 105, 99, 101])) 100
        (roleEntries [[114, 119], [97, 100, 109]]))
      { p := 0, user := [0], user_roles := none } [97, 108, 105, 99, 101] 100
      [[114, 119], [97, 100, 109]] (by decide) (by decide) (by decide) (by decide)
      (by decide)).2.1⟩

/-- C7, as stated, fails: a record with an empty user name and an empty role
list is appended when it carries a Roles field with count 0. The block is the
22 bytes of `emptyRolesRecord`, parsed at address 0. -/
theorem empty_record_emitted :
    emptyRolesRecord.encode
        = [0, 0, 0, 1, 0, 0, 0, 0, 0, 0, 0, 0, 0, 0, 0, 0, 0, 0, 0, 2, 10, 0]
      ∧ as_parse_users sampleConfig (storeBytes zeroMem 0 emptyRolesRecord.encode) 0 22 [] 2
        = .ret (0, [{ user := [0], roles_size := 0, roles := [] }])
      ∧ cstr [0] = [] := by
  refine ⟨by decide, ?_, by decide⟩
  exact as_parse_users_records sampleConfig (storeBytes zeroMem 0 emptyRolesRecord.encode) 0
    [emptyRolesRecord] [] 2 (by decide) (by decide) (by decide) (by decide)

/-- C7, amended: in a block of well-formed records with result code 0 the
parser appends, in order, one record for each reply record that has a
nonempty user name or carries a Roles field (whatever its count), and nothing
for a reply record that has an empty user name and no Roles field. -/
theorem record_emitted_iff (cfg : Config) (m : Mem) (buffer : Int) (rs : List WireRecord)
    (users : List as_user_roles) (fuel : Nat)
    (hU : 1 ≤ cfg.AS_USER_SIZE) (hr : ∀ r ∈ rs, r.WF ∧ r.result = 0)
    (hm : Holds m buffer (encodeRecords rs)) (hfuel : rs.length < fuel) :
    as_parse_users cfg m buffer (encodeRecords rs).length users fuel
        = .ret (0, users ++ emittedRecords cfg rs)
    ∧ ∀ r : WireRecord,
        (r.emitted cfg = [] ↔
          (cstr (r.decoded cfg).1 = [] ∧ r.fields.any WireField.isRoles = false))
        ∧ (r.emitted cfg).length ≤ 1 :=
  ⟨as_parse_users_records cfg m buffer rs users fuel hU hr hm hfuel,
    fun r => ⟨emitted_eq_nil_iff cfg r, emitted_length_le cfg r⟩⟩

/-- Witness of C7 amended: a record with no field at all is dropped, the
record with an empty Roles field is kept. -/
theorem record_emitted_iff_witness :
    as_parse_users sampleConfig
        (storeBytes zeroMem 0 (encodeRecords
          [{ b0 := 0, result := 0, b2 := 0, pad := List.replicate 12 0, fields := [] },
            emptyRolesRecord]))
        0 38 [] 3
      = .ret (0, [{ user := [0], roles_size := 0, roles := [] }]) :=
  (record_emitted_iff sampleConfig
        (storeBytes zeroMem 0 (encodeRecords
          [{ b0 := 0, result := 0, b2 := 0, pad := List.replicate 12 0, fields := [] },
            emptyRolesRecord]))
        0 [{ b0 := 0, result := 0, b2 := 0, pad := List.replicate 12 0, fields := [] },
            emptyRolesRecord] [] 3 (by decide) (by decide) (by decide) (by decide)).1

/-! ## Streaming reader -/

/-- C8: on a stream of well-formed blocks whose records all carry result
code 0, closed by a proto header of payload length 0, `as_read_user_blocks`
returns 0 for every step budget above the byte length of the blocks, and the
result vector is what it was on entry followed by the emitted records of all
blocks in wire order; nothing after the closing header is read. A record with
a nonempty user name and no Roles field is emitted with `roles_size = 0` and
no roles. -/
theorem as_read_user_blocks_stream (cfg : Config) (w : World) (m : Mem) (buffer : Int)
    (users : List as_user_roles) (bs : List WireBlock) (v t : Nat) (rest : List Nat) (fuel : Nat)
    (hU : 1 ≤ cfg.AS_USER_SIZE)
    (hin : w.incoming = encodeBlocks bs ++ (blockBytes v t [] ++ rest))
    (hok : StreamOK bs) (hv : v < 256) (ht : t < 256)
    (hfuel : (encodeBlocks bs).length < fuel) :
    (∃ w2 m2, as_read_user_blocks cfg w m buffer users fuel
        = .ret (w2, m2, users ++ emittedBlocks cfg bs, 0)
      ∧ w2.incoming = rest)
    ∧ ∀ r : WireRecord, cstr (r.decoded cfg).1 ≠ [] → r.fields.any WireField.isRoles = false →
        r.emitted cfg = [{ user := cstr (r.decoded cfg).1 ++ [0], roles_size := 0, roles := [] }] := by
  refine ⟨?_, ?_⟩
  · obtain ⟨w2, m2, h1, h2, -⟩ :=
      as_read_user_blocks_done cfg w m buffer users bs v t rest fuel hU hin hok hv ht hfuel
    exact ⟨w2, m2, h1, h2⟩
  · intro r hne hro
    have hnone := (decoded_roles_none_iff cfg r).mpr hro
    have hhead : ¬ ((r.decoded cfg).1.headD 0 = 0) := fun h => hne ((cstr_eq_nil_iff _).mpr h)
    unfold WireRecord.emitted
    simp only [hhead, false_and, if_false, hnone, Option.getD_none]

/-- Witness of C8: block 1 holds "bob" with roles ["read"] and "carol" with
no roles, block 2 has payload length 0; the result is the list [bob, carol]. -/
theorem as_read_user_blocks_stream_witness :
    ∃ w2 m2, as_read_user_blocks sampleConfig
        (sampleWorld (encodeBlocks [bobCarolBlock] ++ (blockBytes 0 2 [] ++ [])))
        zeroMem 0 [] 100
      = .ret (w2, m2,
          [{ user := [98, 111, 98, 0], roles_size := 1, roles := [[114, 101, 97, 100, 0]] },
           { user := [99, 97, 114, 111, 108, 0], roles_size := 0, roles := [] }], 0)
      ∧ w2.incoming = [] :=
  (as_read_user_blocks_stream sampleConfig
    (sampleWorld (encodeBlocks [bobCarolBlock] ++ (blockBytes 0 2 [] ++ [])))
    zeroMem 0 [] [bobCarolBlock]
    0 2 [] 100 (by decide) rfl (by decide) (by decide) (by decide) (by decide)).1

/-- C9: when a record carries result code 50 and every earlier record of the
stream (in the blocks before and in its own block) is well formed with
result code 0, `as_read_user_blocks` returns 0, the result vector is what it
was on entry followed by the records emitted ahead of the sentinel, in wire
order, and the bytes that follow the block of the sentinel stay unread. -/
theorem as_read_user_blocks_query_end (cfg : Config) (w : World) (m : Mem) (buffer : Int)
    (users : List as_user_roles) (bs : List WireBlock) (v t : Nat) (rs : List WireRecord)
    (b0 : Nat) (junk rest : List Nat) (fuel : Nat)
    (hU : 1 ≤ cfg.AS_USER_SIZE)
    (hin : w.incoming
      = encodeBlocks bs ++ (blockBytes v t (encodeRecords rs ++ b0 :: 50 :: junk) ++ rest))
    (hok : StreamOK bs) (hv : v < 256) (ht : t < 256)
    (hrs : ∀ r ∈ rs, r.WF ∧ r.result = 0)
    (hbytes : ∀ x ∈ encodeRecords rs ++ b0 :: 50 :: junk, x < 256)
    (hlen : (encodeRecords rs ++ b0 :: 50 :: junk).length < 2 ^ 31)
    (hfuel : (encodeBlocks bs).length + (encodeRecords rs ++ b0 :: 50 :: junk).length < fuel) :
    ∃ w2 m2, as_read_user_blocks cfg w m buffer users fuel
        = .ret (w2, m2, users ++ emittedBlocks cfg bs ++ emittedRecords cfg rs, 0)
      ∧ w2.incoming = rest := by
  obtain ⟨w2, m2, h1, h2, -⟩ := as_read_user_blocks_stop cfg w m buffer users bs v t rs b0 50
    junk rest fuel hU hin hok hv ht hrs (by decide) hbytes hlen hfuel
  exact ⟨w2, m2, by simpa [QUERY_END] using h1, h2⟩

/-- Witness of C9: one block with "bob", then a record with result code 50;
the next header (here of payload length 0) stays unread. -/
theorem as_read_user_blocks_query_end_witness :
    ∃ w2 m2, as_read_user_blocks sampleConfig
        (sampleWorld (encodeBlocks [] ++ (blockBytes 0 2
          (encodeRecords [bobRecord] ++ 0 :: 50 :: List.replicate 14 0) ++ blockBytes 0 2 [])))
        zeroMem 0 [] 100
      = .ret (w2, m2,
          [{ user := [98, 111, 98, 0], roles_size := 1, roles := [[114, 101, 97, 100, 0]] }], 0)
      ∧ w2.incoming = [0, 2, 0, 0, 0, 0, 0, 0] :=
  as_read_user_blocks_query_end sampleConfig
    (sampleWorld (encodeBlocks [] ++ (blockBytes 0 2
      (encodeRecords [bobRecord] ++ 0 :: 50 :: List.replicate 14 0) ++ blockBytes 0 2 [])))
    zeroMem 0 [] [] 0 2 [bobRecord] 0 (List.replicate 14 0) (blockBytes 0 2 []) 100
    (by decide) rfl (by decide) (by decide) (by decide) (by decide) (by decide) (by decide)
    (by decide)

/-- C10: the claim does not hold of the code on a stream in which a record
is parsed ahead of the error. The server sends one block with the record of
"bob" and then a record with result code 2. `as_read_user_blocks` returns 2
with "bob" in the vector and leaves the next header unread, as the claim
says; `aerospike_query_users` then calls `as_free_users(&users, 0)` (line
565), which hands `cf_free` the address of slot 0, the slot array itself, and
frees the slot array a second time in `as_vector_destroy`: the call does not
return. When the record with result code 2 comes first, no record is in the
vector, and `aerospike_query_users` returns 2 with a null list and size 0. -/
theorem query_users_error_frees_slots :
    (∃ w2 m2, as_read_user_blocks sampleConfig
        (sampleWorld (encodeBlocks [] ++ (blockBytes 0 2
          (encodeRecords [bobRecord] ++ 0 :: 2 :: List.replicate 14 0) ++ blockBytes 0 2 [])))
        zeroMem 0 [] 100
      = .ret (w2, m2,
          [{ user := [98, 111, 98, 0], roles_size := 1, roles := [[114, 101, 97, 100, 0]] }], 2)
      ∧ w2.incoming = [0, 2, 0, 0, 0, 0, 0, 0])
    ∧ aerospike_query_users sampleConfig
        (sampleWorld (encodeBlocks [] ++ (blockBytes 0 2
          (encodeRecords [bobRecord] ++ 0 :: 2 :: List.replicate 14 0) ++ blockBytes 0 2 [])))
        zeroMem 0 100
      = .crash
    ∧ ∃ w3, aerospike_query_users sampleConfig
        (sampleWorld (encodeBlocks [] ++ (blockBytes 0 2
          (encodeRecords [] ++ 0 :: 2 :: List.replicate 14 0) ++ blockBytes 0 2 [])))
        zeroMem 0 100
      = .ret (w3, { status := 2, user_roles := none, user_roles_size := 0 }) := by
  have h1 := query_users_error_paths sampleConfig
    (sampleWorld (encodeBlocks [] ++ (blockBytes 0 2
      (encodeRecords [bobRecord] ++ 0 :: 2 :: List.replicate 14 0) ++ blockBytes 0 2 [])))
    zeroMem 0 [] 0 2 [bobRecord] 0 2 (List.replicate 14 0) (blockBytes 0 2 []) 100
    (by decide) rfl rfl rfl rfl (by decide) (by decide) (by decide) (by decide) (by decide)
    (by decide) (by decide) (by decide) (by decide)
  have h2 := query_users_error_paths sampleConfig
    (sampleWorld (encodeBlocks [] ++ (blockBytes 0 2
      (encodeRecords [] ++ 0 :: 2 :: List.replicate 14 0) ++ blockBytes 0 2 [])))
    zeroMem 0 [] 0 2 [] 0 2 (List.replicate 14 0) (blockBytes 0 2 []) 100
    (by decide) rfl rfl rfl rfl (by decide) (by decide) (by decide) (by decide) (by decide)
    (by decide) (by decide) (by decide) (by decide)
  obtain ⟨w2, m2, hr, hin⟩ := h1.2.1
  obtain ⟨w3, h3, -⟩ := h2.2.2.1 (by decide)
  exact ⟨⟨w2, m2, hr, hin⟩, h1.2.2.2 (by decide), w3, h3⟩

/-! ## Transport paths -/

/-- C11: in `as_execute`, once a node is found and a connection is leased:
when the send fails, the transport status of the send is returned and the
calls made are get-node, get-connection, write, close, release; when the send
succeeds and the server delivers the 24 reply bytes, the return value is the
byte at offset 9 of those bytes, whatever the reply holds, and the calls are
get-node, get-connection, write, read of 24 bytes, put-connection, release;
when the send succeeds and the read of the reply fails, the status of the
read is returned and the calls are get-node, get-connection, write, read,
close, release. A failed send or read never returns the connection to the
pool. -/
theorem as_execute_single_result (cfg : Config) (w : World) (m : Mem) (buffer end_ : Int)
    (hnode : w.node_available = true) (hconn : w.connection_status = 0) :
    ∃ bytes : List Nat,
      (w.write_status ≠ 0 →
        (as_execute cfg w m buffer end_).2.2 = w.write_status
        ∧ (as_execute cfg w m buffer end_).1.events
          = w.events ++ [.as_node_get_random, .as_node_get_connection, .as_socket_write bytes,
              .as_close, .as_node_release])
      ∧ (w.write_status = 0 → HEADER_SIZE ≤ w.incoming.length →
        (as_execute cfg w m buffer end_).2.2 = ((w.incoming.getD 9 0 % 256 : Nat) : Int)
        ∧ (as_execute cfg w m buffer end_).1.events
          = w.events ++ [.as_node_get_random, .as_node_get_connection, .as_socket_write bytes,
              .as_socket_read HEADER_SIZE, .as_node_put_connection, .as_node_release])
      ∧ (w.write_status = 0 → w.incoming.length < HEADER_SIZE → w.read_failure ≠ 0 →
        (as_execute cfg w m buffer end_).2.2 = w.read_failure
        ∧ (as_execute cfg w m buffer end_).1.events
          = w.events ++ [.as_node_get_random, .as_node_get_connection, .as_socket_write bytes,
              .as_socket_read HEADER_SIZE, .as_close, .as_node_release]) :=
  as_execute_cases cfg w m buffer end_ hnode hconn

/-- Witness of C11: a reply whose byte 9 is 5 makes `as_execute` return 5. -/
theorem as_execute_single_result_witness :
    (as_execute sampleConfig
      (sampleWorld ([0, 0, 0, 0, 0, 0, 0, 0, 0, 5] ++ List.replicate 14 0)) zeroMem 0 24).2.2
      = 5 := by
  obtain ⟨bytes, -, h2, -⟩ := as_execute_single_result sampleConfig
    (sampleWorld ([0, 0, 0, 0, 0, 0, 0, 0, 0, 5] ++ List.replicate 14 0)) zeroMem 0 24 rfl rfl
  exact (h2 rfl (by decide)).1

/-- C12, as stated, fails: the server answers the query with a record of
result code 2; `as_read_users` returns 2, the connection is returned to the
pool and is not closed. -/
theorem result_code_keeps_connection :
    ∃ w2 m2 users2, as_read_users sampleConfig
        (sampleWorld (encodeBlocks [] ++ (blockBytes 0 2
          (encodeRecords [] ++ 0 :: 2 :: List.replicate 14 0) ++ [])))
        zeroMem 0 24 [] 100 = .ret (w2, m2, users2, 2)
      ∧ Event.as_node_put_connection ∈ w2.events ∧ Event.as_close ∉ w2.events := by
  obtain ⟨w2, m2, h⟩ := as_read_users_stop sampleConfig
    (sampleWorld (encodeBlocks [] ++ (blockBytes 0 2
      (encodeRecords [] ++ 0 :: 2 :: List.replicate 14 0) ++ [])))
    zeroMem 0 24 [] [] 0 2 [] 0 2 (List.replicate 14 0) [] 100
    (by decide) rfl rfl rfl rfl (by decide) (by decide) (by decide) (by decide) (by decide)
    (by decide) (by decide) (by decide)
  rw [if_neg (by decide)] at h
  obtain ⟨bytes, reads, ho, he⟩ := as_read_users_events sampleConfig _ zeroMem 0 24 [] 100
    rfl rfl rfl w2 m2 _ _ h
  refine ⟨w2, m2, _, h, ?_, ?_⟩
  · rw [he]
    simp
  · rw [he]
    intro hmem
    simp only [sampleWorld, List.nil_append, List.mem_append, List.mem_cons,
      List.mem_singleton, List.not_mem_nil, or_false, ge_iff_le, Nat.ofNat_nonneg,
      reduceCtorEq, false_or, if_true] at hmem
    rcases hmem with hmem | hmem
    · obtain ⟨n, hn⟩ := ho _ hmem
      cases hn
    · simp at hmem

/-- C12 amended: in `as_read_users`, after a successful send, every run that
returns made the calls get-node, get-connection, write, socket reads only,
then one disposal of the connection and the release of the node; the
disposal is put-connection when the status returned is at least 0 and close
when it is negative. The status is 0 on a stream of well-formed blocks closed
by a header of payload length 0, it is the result code `c` (0 for 50) when a
record carries the nonzero code `c`, and it is -1 when the stream ends inside
a block header and the socket read fails: the connection is closed on a read
failure and returned to the pool in the other cases. -/
theorem as_read_users_disposition (cfg : Config) (w : World) (m : Mem) (buffer end_ : Int)
    (users : List as_user_roles) (fuel : Nat)
    (hU : 1 ≤ cfg.AS_USER_SIZE)
    (hnode : w.node_available = true) (hconn : w.connection_status = 0)
    (hwrite : w.write_status = 0) :
    (∀ (w2 : World) (m2 : Mem) (users2 : List as_user_roles) (s : Int),
      as_read_users cfg w m buffer end_ users fuel = .ret (w2, m2, users2, s) →
      ∃ (bytes : List Nat) (reads : List Event), OnlyReads reads
        ∧ w2.events = w.events
            ++ [.as_node_get_random, .as_node_get_connection, .as_socket_write bytes]
            ++ reads
            ++ [if s ≥ 0 then .as_node_put_connection else .as_close, .as_node_release])
    ∧ (∀ (bs : List WireBlock) (v t : Nat) (rest : List Nat),
        w.incoming = encodeBlocks bs ++ (blockBytes v t [] ++ rest) →
        StreamOK bs → v < 256 → t < 256 → (encodeBlocks bs).length < fuel →
        ∃ w2 m2 users2, as_read_users cfg w m buffer end_ users fuel
          = .ret (w2, m2, users2, 0))
    ∧ (∀ (bs : List WireBlock) (v t : Nat) (rs : List WireRecord) (b0 c : Nat)
        (junk rest : List Nat),
        w.incoming
          = encodeBlocks bs ++ (blockBytes v t (encodeRecords rs ++ b0 :: c :: junk) ++ rest) →
        StreamOK bs → v < 256 → t < 256 → (∀ r ∈ rs, r.WF ∧ r.result = 0) → c ≠ 0 →
        (∀ x ∈ encodeRecords rs ++ b0 :: c :: junk, x < 256) →
        (encodeRecords rs ++ b0 :: c :: junk).length < 2 ^ 31 →
        (encodeBlocks bs).length + (encodeRecords rs ++ b0 :: c :: junk).length < fuel →
        ∃ w2 m2 users2, as_read_users cfg w m buffer end_ users fuel
          = .ret (w2, m2, users2, if (c : Int) = QUERY_END then 0 else (c : Int)))
    ∧ (∀ (bs : List WireBlock) (tail : List Nat),
        w.incoming = encodeBlocks bs ++ tail → StreamOK bs → tail.length < 8 →
        w.read_failure ≠ 0 → (encodeBlocks bs).length < fuel →
        ∃ w2 m2 users2, as_read_users cfg w m buffer end_ users fuel
          = .ret (w2, m2, users2, -1)) := by
  refine ⟨?_, ?_, ?_, ?_⟩
  · intro w2 m2 users2 s h
    exact as_read_users_events cfg w m buffer end_ users fuel hnode hconn hwrite w2 m2 users2 s h
  · intro bs v t rest hin hok hv ht hfuel
    obtain ⟨w2, m2, h⟩ := as_read_users_done cfg w m buffer end_ users bs v t rest fuel hU
      hnode hconn hwrite hin hok hv ht hfuel
    exact ⟨w2, m2, _, h⟩
  · intro bs v t rs b0 c junk rest hin hok hv ht hrs hc hbytes hlen hfuel
    obtain ⟨w2, m2, h⟩ := as_read_users_stop cfg w m buffer end_ users bs v t rs b0 c junk rest
      fuel hU hnode hconn hwrite hin hok hv ht hrs hc hbytes hlen hfuel
    exact ⟨w2, m2, _, h⟩
  · intro bs tail hin hok htail hrf hfuel
    exact as_read_users_short cfg w m buffer end_ users bs tail fuel hU hnode hconn hwrite hin
      hok htail hrf hfuel

/-- Witness of C12 amended: the server sends 3 bytes and stops; the read of
the block header fails, `as_read_users` returns -1 and the last two calls are
close and release. -/
theorem as_read_users_disposition_witness :
    ∃ w2 m2 users2 bytes reads,
      as_read_users sampleConfig (sampleWorld (encodeBlocks [] ++ [0, 2, 0])) zeroMem 0 24 [] 100
        = .ret (w2, m2, users2, -1)
      ∧ OnlyReads reads
      ∧ w2.events = [] ++ [.as_node_get_random, .as_node_get_connection, .as_socket_write bytes]
          ++ reads ++ [.as_close, .as_node_release] := by
  have hc := as_read_users_disposition sampleConfig (sampleWorld (encodeBlocks [] ++ [0, 2, 0]))
    zeroMem 0 24 [] 100 (by decide) rfl rfl rfl
  obtain ⟨w2, m2, users2, h⟩ := hc.2.2.2 [] [0, 2, 0] rfl (by decide) (by decide) (by decide)
    (by decide)
  obtain ⟨bytes, reads, ho, he⟩ := hc.1 w2 m2 users2 (-1) h
  exact ⟨w2, m2, users2, bytes, reads, h, ho, he⟩

/-- C13: `as_execute` always returns, and the calls it adds to the log
contain exactly one release of the node when a node was found (none when no
node was found) and exactly one disposal of the connection (a close or a
put-connection, counted together) when a connection was leased (none when no
connection was leased). The same holds for every run of `as_read_users` that
returns, and `as_read_users` returns on every path but the one on which the
request was sent and `as_read_user_blocks` does not return. The log is
get-node alone, or get-node, get-connection, release, or get-node,
get-connection, write, socket reads, one disposal, release. -/
theorem release_exactly_once (cfg : Config) (w : World) (m : Mem) (buffer end_ : Int)
    (users : List as_user_roles) (fuel : Nat) :
    (∃ es, (as_execute cfg w m buffer end_).1.events = w.events ++ es
      ∧ (w.node_available = true → releases es = 1)
      ∧ (w.node_available = true → w.connection_status = 0 → disposals es = 1)
      ∧ (w.node_available = false → releases es = 0 ∧ disposals es = 0)
      ∧ (w.connection_status ≠ 0 → disposals es = 0))
    ∧ (∀ (w2 : World) (m2 : Mem) (users2 : List as_user_roles) (s : Int),
      as_read_users cfg w m buffer end_ users fuel = .ret (w2, m2, users2, s) →
      ∃ es, w2.events = w.events ++ es
        ∧ (w.node_available = true → releases es = 1)
        ∧ (w.node_available = true → w.connection_status = 0 → disposals es = 1)
        ∧ (w.node_available = false → releases es = 0 ∧ disposals es = 0)
        ∧ (w.connection_status ≠ 0 → disposals es = 0))
    ∧ ((∃ w2 m2 users2 s,
          as_read_users cfg w m buffer end_ users fuel = .ret (w2, m2, users2, s))
      ∨ (w.node_available = true ∧ w.connection_status = 0 ∧ w.write_status = 0
          ∧ ∀ r, as_read_user_blocks cfg
            (as_send cfg ((w.log .as_node_get_random).log .as_node_get_connection) m buffer
              end_).1
            (as_send cfg ((w.log .as_node_get_random).log .as_node_get_connection) m buffer
              end_).2.1
            buffer users fuel ≠ .ret r)) := by
  refine ⟨?_, ?_, as_read_users_returns cfg w m buffer end_ users fuel⟩
  · obtain ⟨es, he, hs⟩ := as_execute_events cfg w m buffer end_
    exact ⟨es, he, shape_counts w es hs⟩
  · intro w2 m2 users2 s h
    obtain ⟨es, he, hs⟩ := as_read_users_shapes cfg w m buffer end_ users fuel w2 m2 users2 s h
    exact ⟨es, he, shape_counts w es hs⟩

/-- Witness of C13: on a stream cut inside a block header `as_read_users`
returns -1 after one release and one disposal. -/
theorem release_exactly_once_witness :
    ∃ w2 m2 users2 es,
      as_read_users sampleConfig (sampleWorld (encodeBlocks [] ++ [0, 2, 0])) zeroMem 0 24 [] 100
        = .ret (w2, m2, users2, -1)
      ∧ w2.events = [] ++ es ∧ releases es = 1 ∧ disposals es = 1 := by
  obtain ⟨w2, m2, users2, h⟩ := as_read_users_short sampleConfig
    (sampleWorld (encodeBlocks [] ++ [0, 2, 0])) zeroMem 0 24 [] [] [0, 2, 0] 100
    (by decide) rfl rfl rfl rfl (by decide) (by decide) (by decide) (by decide)
  obtain ⟨es, he, h1, h2, -⟩ := (release_exactly_once sampleConfig
    (sampleWorld (encodeBlocks [] ++ [0, 2, 0])) zeroMem 0 24 [] 100).2.1 w2 m2 users2 (-1) h
  exact ⟨w2, m2, users2, es, h, he, h1 rfl, h2 rfl rfl⟩

/-! ## Session state -/

/-- C14: `aerospike_set_password` called with a null user. On a path where a
node is found and a connection is leased, the request handed to the socket
is the proto header, the command header of SET_PASSWORD with 2 fields, a
User field carrying the user name of the session and a Password field
carrying the hash of the new password. When the status returned is 0 the
session keeps its user name and its cached hash is the hash of the new
password; for every other status the session is what it was on entry. The
status is the byte at offset 9 of the reply when the send and the read of the
reply succeed, and the status of the send when the send fails. -/
theorem aerospike_set_password_session (cfg : Config) (w : World) (m : Mem) (buffer : Int)
    (cluster : as_cluster) (password : List Nat)
    (hu : NulFree cluster.user) (hul : cluster.user.length + 1 < 2 ^ 31)
    (hh : NulFree (cfg.as_password_get_constant_hash password))
    (hhl : (cfg.as_password_get_constant_hash password).length + 1 < 2 ^ 31) :
    (w.node_available = true → w.connection_status = 0 →
      ∃ rest, (aerospike_set_password cfg w m buffer cluster none password).1.events
        = w.events ++ [.as_node_get_random, .as_node_get_connection,
            .as_socket_write
              (protoHeader
                  (setPasswordBody cluster.user
                    (cfg.as_password_get_constant_hash password)).length
                ++ ([0, 0, 3, 2] ++ List.replicate 12 0
                  ++ (fieldBytes 0 cluster.user
                    ++ fieldBytes 1 (cfg.as_password_get_constant_hash password))))] ++ rest)
    ∧ ((aerospike_set_password cfg w m buffer cluster none password).2.2.2 = 0 →
        (aerospike_set_password cfg w m buffer cluster none password).2.2.1
          = { user := cluster.user, password := cfg.as_password_get_constant_hash password })
    ∧ ((aerospike_set_password cfg w m buffer cluster none password).2.2.2 ≠ 0 →
        (aerospike_set_password cfg w m buffer cluster none password).2.2.1 = cluster)
    ∧ (w.node_available = true → w.connection_status = 0 → w.write_status = 0 →
        HEADER_SIZE ≤ w.incoming.length →
        (aerospike_set_password cfg w m buffer cluster none password).2.2.2
          = ((w.incoming.getD 9 0 % 256 : Nat) : Int))
    ∧ (w.node_available = true → w.connection_status = 0 → w.write_status ≠ 0 →
        (aerospike_set_password cfg w m buffer cluster none password).2.2.2
          = w.write_status) := by
  obtain ⟨m3, hm3, heq⟩ := aerospike_set_password_eq cfg w m buffer cluster password
    hu hul hh hhl
  have hlen : (setPasswordBody cluster.user (cfg.as_password_get_constant_hash password)).length
      < 2 ^ 48 := by
    simp only [setPasswordBody, commandHeader, List.length_append, fieldBytes_length,
      List.length_cons, List.length_replicate, List.length_nil]
    norm_num at hul hhl ⊢
    omega
  rw [heq]
  refine ⟨?_, ?_, ?_, ?_, ?_⟩
  · intro hnode hconn
    exact as_execute_sends cfg w m3 buffer _ hnode hconn hlen hm3
  · intro hs
    exact if_pos hs
  · intro hs
    exact if_neg hs
  · intro hnode hconn hwrite hin
    obtain ⟨bytes, -, h2, -⟩ := as_execute_cases cfg w m3 buffer
      (buffer + 8
        + (setPasswordBody cluster.user (cfg.as_password_get_constant_hash password)).length)
      hnode hconn
    exact (h2 hwrite hin).1
  · intro hnode hconn hwrite
    obtain ⟨bytes, h1, -, -⟩ := as_execute_cases cfg w m3 buffer
      (buffer + 8
        + (setPasswordBody cluster.user (cfg.as_password_get_constant_hash password)).length)
      hnode hconn
    exact (h1 hwrite).1

/-- Witness of C14: `SetPassword(None, "newpass")` with session user "admin"
and cached hash "old". A reply with result code 0 replaces the cached hash by
the hash of "newpass"; a reply with result code 62 leaves the session as it
was. -/
theorem aerospike_set_password_session_witness :
    (aerospike_set_password sampleConfig (sampleWorld (List.replicate 24 0)) zeroMem 1000
        { user := [97, 100, 109, 105, 110], password := [111, 108, 100] } none
        [110, 101, 119, 112, 97, 115, 115]).2.2.1
      = { user := [97, 100, 109, 105, 110],
          password := [36, 115, 115, 97, 112, 119, 101, 110] }
    ∧ (aerospike_set_password sampleConfig
        (sampleWorld ([0, 0, 0, 0, 0, 0, 0, 0, 0, 62] ++ List.replicate 14 0)) zeroMem 1000
        { user := [97, 100, 109, 105, 110], password := [111, 108, 100] } none
        [110, 101, 119, 112, 97, 115, 115]).2.2.1
      = { user := [97, 100, 109, 105, 110], password := [111, 108, 100] } := by
  have h0 := aerospike_set_password_session sampleConfig (sampleWorld (List.replicate 24 0))
    zeroMem 1000 { user := [97, 100, 109, 105, 110], password := [111, 108, 100] }
    [110, 101, 119, 112, 97, 115, 115] (by decide) (by decide) (by decide) (by decide)
  have h1 := aerospike_set_password_session sampleConfig
    (sampleWorld ([0, 0, 0, 0, 0, 0, 0, 0, 0, 62] ++ List.replicate 14 0))
    zeroMem 1000 { user := [97, 100, 109, 105, 110], password := [111, 108, 100] }
    [110, 101, 119, 112, 97, 115, 115] (by decide) (by decide) (by decide) (by decide)
  refine ⟨h0.2.1 ?_, h1.2.2.1 ?_⟩
  · rw [h0.2.2.2.1 rfl rfl rfl (by decide)]
    decide
  · rw [h1.2.2.2.1 rfl rfl rfl (by decide)]
    decide

/-! ## Decode bounds -/

/-- C15, as stated, fails: a block of 16 bytes holds one record header that
announces one field. `as_parse_users` returns 0 after reading the 4 length
bytes and the id byte of a field at indices 16 to 20, past the declared
payload length 16. -/
theorem as_parse_users_reads_past_size :
    as_parse_users sampleConfig truncatedRecordMem 0 16 [] 3 = .ret (0, [])
    ∧ as_parse_users_reads sampleConfig truncatedRecordMem 0 16 3
        = [(1, 1), (3, 1), (16, 4), (20, 1)]
    ∧ ¬ ReadsWithin 0 (0 + 16) (as_parse_users_reads sampleConfig truncatedRecordMem 0 16 3) := by
  decide

/-- C15 amended: when the block is a sequence of records that respect the
size constraints of the wire format and carry result code 0, followed by
nothing or by a record with a nonzero result code, every range of bytes that
`as_parse_users` reads (result code, field count, field length and id, user
name bytes, role count, role length and role bytes) lies inside the block,
at indices below its length, and the parser returns. -/
theorem as_parse_users_reads_bounded (cfg : Config) (m : Mem) (buffer : Int)
    (rs : List WireRecord) (tail : List Nat) (users : List as_user_roles) (fuel : Nat)
    (hU : 1 ≤ cfg.AS_USER_SIZE) (hr : ∀ r ∈ rs, r.WF ∧ r.result = 0)
    (ht : tail = [] ∨ ∃ b0 c junk, tail = b0 :: c :: junk ∧ c ≠ 0)
    (hm : Holds m buffer (encodeRecords rs ++ tail)) (hfuel : rs.length < fuel) :
    ReadsWithin buffer (buffer + (encodeRecords rs ++ tail).length)
      (as_parse_users_reads cfg m buffer ((encodeRecords rs ++ tail).length : Nat) fuel)
    ∧ ∃ status users2,
        as_parse_users cfg m buffer ((encodeRecords rs ++ tail).length : Nat) users fuel
          = .ret (status, users2) := by
  refine ⟨as_parse_users_loop_reads_within cfg m fuel rs tail buffer hU hr ht hm, ?_⟩
  rcases ht with rfl | ⟨b0, c, junk, rfl, hc⟩
  · rw [List.append_nil] at hm ⊢
    exact ⟨_, _, as_parse_users_records cfg m buffer rs users fuel hU hr hm hfuel⟩
  · exact ⟨_, _, as_parse_users_stop cfg m buffer rs b0 c junk users fuel hU hr hc hm hfuel⟩

/-- Witness of C15 amended: the block of the records of "bob" and "carol". -/
theorem as_parse_users_reads_bounded_witness :
    ReadsWithin 0 (0 + (encodeRecords [bobRecord, carolRecord] ++ []).length)
      (as_parse_users_reads sampleConfig
        (storeBytes zeroMem 0 (encodeRecords [bobRecord, carolRecord] ++ [])) 0
        ((encodeRecords [bobRecord, carolRecord] ++ []).length : Nat) 5)
    ∧ ∃ status users2,
        as_parse_users sampleConfig
          (storeBytes zeroMem 0 (encodeRecords [bobRecord, carolRecord] ++ [])) 0
          ((encodeRecords [bobRecord, carolRecord] ++ []).length : Nat) [] 5
          = .ret (status, users2) :=
  as_parse_users_reads_bounded sampleConfig
    (storeBytes zeroMem 0 (encodeRecords [bobRecord, carolRecord] ++ [])) 0
    [bobRecord, carolRecord] [] [] 5 (by decide) (by decide) (Or.inl rfl) (by decide)
    (by decide)

/-! ## Unknown fields -/

/-- C16: a field whose id is neither User nor Roles, lying in a block whose
length fits the `int` handed to `as_parse_users`, moves the cursor by the 5
header bytes and the payload (wire length minus 1) and leaves the user name
and the role record of the record as they were; inserting such a field at any
position `k` among the fields of a record (the field count grows by one)
leaves the status and the records returned by `as_parse_users` unchanged. -/
theorem unknown_field_skipped (cfg : Config) (m m2 : Mem) (buffer : Int)
    (rs1 rs2 : List WireRecord) (r : WireRecord) (k id : Nat) (payload : List Nat)
    (users : List as_user_roles) (fuel : Nat)
    (hU : 1 ≤ cfg.AS_USER_SIZE)
    (hid : id < 256) (hu : id ≠ USER) (hro : id ≠ ROLES)
    (hrs : ∀ x ∈ rs1 ++ r :: rs2, x.WF ∧ x.result = 0) (hn : r.fields.length < 255)
    (hlen : (encodeRecords (rs1 ++ insertField r k (.other id payload) :: rs2)).length < 2 ^ 31)
    (hm : Holds m buffer (encodeRecords (rs1 ++ r :: rs2)))
    (hm2 : Holds m2 buffer (encodeRecords (rs1 ++ insertField r k (.other id payload) :: rs2)))
    (hfuel : rs1.length + rs2.length + 1 < fuel) :
    (∀ (m3 : Mem) (st : FieldState), Holds m3 st.p (fieldBytes id payload) →
        parse_field cfg m3 st
          = some { p := st.p + 5 + ((payload.length + 1 : Nat) - 1 : Nat),
                   user := st.user, user_roles := st.user_roles })
    ∧ as_parse_users cfg m2 buffer
          ((encodeRecords (rs1 ++ insertField r k (.other id payload) :: rs2)).length : Nat)
          users fuel
        = .ret (0, users ++ emittedRecords cfg (rs1 ++ r :: rs2))
    ∧ as_parse_users cfg m buffer ((encodeRecords (rs1 ++ r :: rs2)).length : Nat) users fuel
        = .ret (0, users ++ emittedRecords cfg (rs1 ++ r :: rs2)) := by
  have hr := hrs r (by simp)
  have hpl : payload.length + 1 < 2 ^ 31 := by
    have h1 := insertField_encode_length r k (.other id payload) hr.1.1
    simp only [WireField.encode, fieldBytes_length] at h1
    simp only [encodeRecords_append, encodeRecords, List.length_append] at hlen
    omega
  have hwf : (WireField.other id payload).WF := ⟨hid, hu, hro, hpl⟩
  have hrs2 : ∀ x ∈ rs1 ++ insertField r k (.other id payload) :: rs2, x.WF ∧ x.result = 0 := by
    intro x hx
    simp only [List.mem_append, List.mem_cons] at hx
    rcases hx with hx | rfl | hx
    · exact hrs x (by simp [hx])
    · exact ⟨insertField_WF r k _ hr.1 hn hwf, hr.2⟩
    · exact hrs x (by simp [hx])
  refine ⟨?_, ?_, ?_⟩
  · intro m3 st h3
    have h := parse_field_spec cfg m3 (.other id payload) st hU hwf h3
    rw [h]
    simp only [WireField.encode, fieldBytes_length, WireField.apply, Nat.add_sub_cancel]
    congr 2
    push_cast; ring
  · have h := as_parse_users_records cfg m2 buffer
      (rs1 ++ insertField r k (.other id payload) :: rs2) users fuel hU hrs2 hm2
      (by simp only [List.length_append, List.length_cons]; omega)
    rw [h]
    simp only [emittedRecords_append, emittedRecords, insertField_emitted]
  · exact as_parse_users_records cfg m buffer (rs1 ++ r :: rs2) users fuel hU hrs hm
      (by simp only [List.length_append, List.length_cons]; omega)

/-- Witness of C16: a field with id 7 and payload [1, 2, 3] inserted between
the User field and the Roles field of the record of "bob". -/
theorem unknown_field_skipped_witness :
    as_parse_users sampleConfig
        (storeBytes zeroMem 0
          (encodeRecords ([] ++ insertField bobRecord 1 (.other 7 [1, 2, 3]) :: [carolRecord])))
        0 ((encodeRecords
          ([] ++ insertField bobRecord 1 (.other 7 [1, 2, 3]) :: [carolRecord])).length : Nat)
        [] 5
      = .ret (0,
          [{ user := [98, 111, 98, 0], roles_size := 1, roles := [[114, 101, 97, 100, 0]] },
           { user := [99, 97, 114, 111, 108, 0], roles_size := 0, roles := [] }]) :=
  (unknown_field_skipped sampleConfig
    (storeBytes zeroMem 0 (encodeRecords ([] ++ bobRecord :: [carolRecord])))
    (storeBytes zeroMem 0
      (encodeRecords ([] ++ insertField bobRecord 1 (.other 7 [1, 2, 3]) :: [carolRecord])))
    0 [] [carolRecord] bobRecord 1 7 [1, 2, 3] [] 5
    (by decide) (by decide) (by decide) (by decide) (by decide) (by decide) (by decide)
    (by decide) (by decide) (by decide)).2.1

/-! ## Role count -/

/-- C17: `write_roles` returns a position for a role list of any length `n`
(NUL-free names of at most 255 bytes, the wire form fitting an `int`): the
count byte written is `n mod 256`, all `n` entries (length byte, role bytes)
are written in order, the wire length `1 + (1 + sum (1 + |role_i|))` and the
returned position cover all `n` entries; `as_parse_roles` on the payload
written returns `n mod 256` as count and the first `n mod 256` roles, and
stops after their entries. -/
theorem write_roles_count_narrowed (cfg : Config) (m : Mem) (p : Int) (roles : List (List Nat))
    (hr : ∀ r ∈ roles, NulFree r ∧ r.length ≤ 255)
    (hsize : 1 + (1 + (roleEntries roles).length) < 2 ^ 31) :
    loadBytes (write_roles cfg.host m p roles roles.length).1 p
          (5 + (1 + (roleEntries roles).length))
        = beBytes 4 (1 + (1 + (roleEntries roles).length))
            ++ ROLES :: (roles.length % 256) :: roleEntries roles
      ∧ (write_roles cfg.host m p roles roles.length).2 = p + 5 + 1 + (roleEntries roles).length
      ∧ as_parse_roles cfg (write_roles cfg.host m p roles roles.length).1 (p + 5)
          = ({ user := [], roles_size := roles.length % 256,
               roles := (roles.take (roles.length % 256)).map
                 (fun r => r.take (cfg.AS_ROLE_SIZE - 1) ++ [0]) },
              p + 5 + 1 + (roleEntries (roles.take (roles.length % 256))).length) := by
  obtain ⟨h1, h2, -⟩ := write_roles_any_spec cfg.host m p roles hr hsize
  refine ⟨h1, h2, ?_⟩
  have hH : Holds (write_roles cfg.host m p roles roles.length).1 p
      ((beBytes 4 (1 + (1 + (roleEntries roles).length)) ++ [ROLES])
        ++ (roles.length % 256) :: roleEntries roles) := by
    unfold Holds
    rw [show ((beBytes 4 (1 + (1 + (roleEntries roles).length)) ++ [ROLES])
        ++ (roles.length % 256) :: roleEntries roles).length
        = 5 + (1 + (roleEntries roles).length) by
      simp only [List.length_append, List.length_cons, beBytes_length, List.length_nil]; omega]
    rw [h1]
    simp only [List.append_assoc, List.singleton_append]
  obtain ⟨-, hP⟩ := hH.append
  rw [show ((beBytes 4 (1 + (1 + (roleEntries roles).length)) ++ [ROLES]).length : Int) = 5 by
    simp only [List.length_append, beBytes_length, List.length_singleton]; rfl] at hP
  exact as_parse_roles_take cfg _ roles (roles.length % 256) (p + 5)
    (Nat.mod_le _ _) (fun r h => (hr r h).2) hP

/-- Witness of C17: 257 roles "a" are written with count byte 1, and the
decoder returns the first role alone. -/
theorem write_roles_count_narrowed_witness :
    as_parse_roles sampleConfig
        (write_roles sampleConfig.host zeroMem 0 (List.replicate 257 [97]) (257 : Nat)).1 (0 + 5)
      = ({ user := [], roles_size := 1, roles := [[97, 0]] }, 8) := by
  have h := (write_roles_count_narrowed sampleConfig zeroMem 0 (List.replicate 257 [97])
    (by intro r hr; rw [List.eq_of_mem_replicate hr]; decide)
    (by
      have := roleEntries_length_le (List.replicate 257 [97])
        (by intro r hr; rw [List.eq_of_mem_replicate hr]; decide)
      rw [List.length_replicate] at this
      omega)).2.2
  rw [List.length_replicate] at h
  rw [h]
  decide

/-! ## Block size -/

/-- C18, as stated, fails: the header bytes 2-7 hold the 48-bit value 2^32,
which is not 0; `as_read_user_blocks` ends the stream with status 0 after the
read of the header and reads no payload byte. -/
theorem block_size_narrowed_to_int :
    ofBE [0, 1, 0, 0, 0, 0] = 4294967296
    ∧ ∃ w2 m2, as_read_user_blocks sampleConfig
        (sampleWorld ([0, 2, 0, 1, 0, 0, 0, 0] ++ List.replicate 16 7)) zeroMem 0 [] 5
          = .ret (w2, m2, [], 0)
        ∧ w2.events = [.as_socket_read 8] ∧ w2.incoming = List.replicate 16 7 := by
  refine ⟨by decide, ?_⟩
  have hbody := as_read_user_blocks_body_header sampleConfig 5
    { w := sampleWorld ([0, 2, 0, 1, 0, 0, 0, 0] ++ List.replicate 16 7), m := zeroMem, buf := 0,
      buffer_size := sampleConfig.AS_STACK_BUF_SIZE, users := [] }
    0 2 4294967296 (List.replicate 16 7) (by decide) (by decide) (by decide) (by decide)
  rw [if_neg (by decide)] at hbody
  have key : as_read_user_blocks sampleConfig
      (sampleWorld ([0, 2, 0, 1, 0, 0, 0, 0] ++ List.replicate 16 7)) zeroMem 0 [] 5
        = .ret ({ (sampleWorld ([0, 2, 0, 1, 0, 0, 0, 0] ++ List.replicate 16 7)) with
                    incoming := List.replicate 16 7
                    events := [] ++ [.as_socket_read 8] },
                storeBytes zeroMem 0 ([0, 2] ++ beBytes 6 4294967296), [], 0) := by
    unfold as_read_user_blocks
    rw [as_read_user_blocks_loop, hbody]
    simp only [Bool.true_eq_false, false_and, if_false]
    rw [if_neg (by decide)]
    rfl
  exact ⟨_, _, key, rfl, rfl⟩

/-- C18 amended: after a block header whose bytes 2-7 hold the 48-bit
big-endian value `s` (any version and type bytes), the size used by
`as_read_user_blocks` is `s` converted to `int`, which is `s` itself when
`s < 2^31`. When that `int` is at most 0 (as for `s = 0`) the turn leaves the
loop with status 0 and reads nothing more. When it is `n > 0` the turn reads
exactly `n` payload bytes into the decode buffer, grown to `n` when `n`
exceeds the capacity, and hands them to the parser; it fails with -1 when
the server sends fewer than `n` bytes, and in no case leaves the loop with
status 0. -/
theorem as_read_user_blocks_size (cfg : Config) (fuel : Nat) (st : BlockState)
    (v t s : Nat) (tail : List Nat)
    (hin : st.w.incoming = ([v, t] ++ beBytes 6 s) ++ tail) (hv : v < 256) (ht : t < 256)
    (hs : s < 2 ^ 48) :
    (toI32 (s : Int) ≤ 0 →
      as_read_user_blocks_body cfg st fuel =
        .ret ({ st with
                  w := { st.w with incoming := tail
                                   events := st.w.events ++ [.as_socket_read 8] }
                  m := storeBytes st.m st.buf ([v, t] ++ beBytes 6 s) }, 0, true))
    ∧ (∀ payload rest : List Nat, tail = payload ++ rest → toI32 (s : Int) = payload.length →
        0 < payload.length →
        as_read_user_blocks_body cfg st fuel =
          (match as_parse_users cfg
            (afterBlock st ([v, t] ++ beBytes 6 s) payload rest st.users).m
            (afterBlock st ([v, t] ++ beBytes 6 s) payload rest st.users).buf
            payload.length st.users fuel with
          | .crash => .crash
          | .exhausted => .exhausted
          | .ret (status, users) =>
            .ret (afterBlock st ([v, t] ++ beBytes 6 s) payload rest users, status, false))
        ∧ ∀ users, (afterBlock st ([v, t] ++ beBytes 6 s) payload rest users).w.events
              = st.w.events ++ [.as_socket_read 8] ++ [.as_socket_read payload.length]
            ∧ (afterBlock st ([v, t] ++ beBytes 6 s) payload rest users).buffer_size
              = max st.buffer_size payload.length
            ∧ (afterBlock st ([v, t] ++ beBytes 6 s) payload rest users).w.incoming = rest)
    ∧ (∀ n : Nat, toI32 (s : Int) = n → tail.length < n → st.w.read_failure ≠ 0 →
        ∃ st2, as_read_user_blocks_body cfg st fuel = .ret (st2, -1, true)
          ∧ st2.w.events = st.w.events ++ [.as_socket_read 8] ++ [.as_socket_read n])
    ∧ (0 < toI32 (s : Int) → ∀ st2, as_read_user_blocks_body cfg st fuel ≠ .ret (st2, 0, true))
    ∧ (s < 2 ^ 31 → toI32 (s : Int) = s) := by
  have hbody := as_read_user_blocks_body_header cfg fuel st v t s tail hin hv ht hs
  refine ⟨?_, ?_, ?_, ?_, fun h => toI32_of_nat s h⟩
  · intro h0
    rw [hbody, if_neg (by omega)]
  · intro payload rest htail hn hpos
    refine ⟨?_, fun users => ⟨rfl, ?_, ?_⟩⟩
    · rw [hbody, if_pos (by omega), hn, htail]
      exact as_read_user_blocks_payload_ok cfg fuel st _ payload rest
    · simp only [afterBlock]
      by_cases hg : (payload.length : Int) > st.buffer_size
      · simp only [hg, decide_True, if_true]
        omega
      · simp only [hg, decide_False, Bool.false_eq_true, if_false]
        omega
    · rfl
  · intro n hn hlt hrf
    rw [hbody, if_pos (by omega), hn]
    exact as_read_user_blocks_payload_short cfg fuel st _ tail n hlt hrf
  · intro hpos st2 h
    rw [hbody, if_pos hpos] at h
    have := as_read_user_blocks_payload_not_end cfg st _ _ _ fuel st2 0 h
    omega

/-- Witness of C18 amended: the header announces 5 payload bytes and the
server sends 2; the turn asks for exactly 5 bytes and fails with -1. -/
theorem as_read_user_blocks_size_witness :
    ∃ st2, as_read_user_blocks_body sampleConfig
        (BlockState.mk (sampleWorld ([0, 2, 0, 0, 0, 0, 0, 5] ++ [1, 2])) zeroMem 0 16384 []) 3
          = .ret (st2, -1, true)
      ∧ st2.w.events = [] ++ [.as_socket_read 8] ++ [.as_socket_read 5] :=
  (as_read_user_blocks_size sampleConfig 3
    (BlockState.mk (sampleWorld ([0, 2, 0, 0, 0, 0, 0, 5] ++ [1, 2])) zeroMem 0 16384 [])
    0 2 5 [1, 2] (by decide) (by decide) (by decide) (by decide)).2.2.1 5 (by decide) (by decide)
    (by decide)

/-! ## Declared length of a Roles field -/

/-- C19: a Roles field is decoded from its count byte and its length bytes
alone. Whatever the 4 bytes of its declared wire length are, the field loop
leaves the cursor `1 + sum (1 + len_i)` bytes after the 5-byte header and
holds the roles of the entries; two blocks of well-formed records that differ
only in the 4 length bytes of the Roles field of one record give the same
status, the same records and the same final cursor. -/
theorem roles_field_length_ignored (cfg : Config) (m m2 : Mem) (buffer : Int)
    (rs1 rs2 : List WireRecord) (r : WireRecord) (fs1 fs2 : List WireField)
    (names : List (List Nat)) (lenBytes lenBytes2 : List Nat) (users : List as_user_roles)
    (fuel : Nat)
    (hU : 1 ≤ cfg.AS_USER_SIZE) (hrs : ∀ x ∈ rs1 ++ r :: rs2, x.WF ∧ x.result = 0)
    (hf : r.fields = fs1 ++ WireField.roles names :: fs2)
    (hl : lenBytes.length = 4) (hl2 : lenBytes2.length = 4)
    (hm : Holds m buffer
      (encodeRecords rs1 ++ (encodeWithRolesLength r fs1 names fs2 lenBytes ++ encodeRecords rs2)))
    (hm2 : Holds m2 buffer
      (encodeRecords rs1
        ++ (encodeWithRolesLength r fs1 names fs2 lenBytes2 ++ encodeRecords rs2)))
    (hfuel : rs1.length + rs2.length + 1 < fuel) :
    (∀ (m3 : Mem) (st : FieldState), Holds m3 st.p (lenBytes ++ ROLES :: rolesPayload names) →
      parse_field cfg m3 st
        = some (FieldState.mk (st.p + 5 + ((1 + (names.map (fun x => 1 + x.length)).sum : Nat) : Int))
            st.user
            (some (as_user_roles.mk [] names.length
              (names.map (fun x => x.take (cfg.AS_ROLE_SIZE - 1) ++ [0]))))))
    ∧ as_parse_users_loop cfg m (buffer + ((encodeRecords (rs1 ++ r :: rs2)).length : Nat)) fuel
          buffer users
        = .ret (0, users ++ emittedRecords cfg (rs1 ++ r :: rs2),
            buffer + ((encodeRecords (rs1 ++ r :: rs2)).length : Nat))
    ∧ as_parse_users_loop cfg m2 (buffer + ((encodeRecords (rs1 ++ r :: rs2)).length : Nat)) fuel
          buffer users
        = .ret (0, users ++ emittedRecords cfg (rs1 ++ r :: rs2),
            buffer + ((encodeRecords (rs1 ++ r :: rs2)).length : Nat)) := by
  have hwf : (WireField.roles names).WF :=
    (hrs r (by simp)).1.2.2 _ (by rw [hf]; simp)
  refine ⟨?_, ?_, ?_⟩
  · intro m3 st h3
    rw [parse_field_roles_any cfg m3 st names lenBytes hl hwf.2 h3]
    simp only [rolesPayload, List.length_cons, roleEntries_length]
    congr 3
    omega
  · exact as_parse_users_loop_roles_any cfg m buffer rs1 rs2 r fs1 fs2 names lenBytes users fuel
      hU hrs hf hl hm hfuel
  · exact as_parse_users_loop_roles_any cfg m2 buffer rs1 rs2 r fs1 fs2 names lenBytes2 users fuel
      hU hrs hf hl2 hm2 hfuel

/-- Witness of C19: the block of "bob" and "carol", the Roles field of "bob"
declaring the length 6 in one memory and the bytes ff ff ff ff in the other. -/
theorem roles_field_length_ignored_witness :
    as_parse_users_loop sampleConfig
        (storeBytes zeroMem 0 (encodeRecords [] ++ (encodeWithRolesLength bobRecord
          [.user [98, 111, 98]] [[114, 101, 97, 100]] [] [255, 255, 255, 255]
            ++ encodeRecords [carolRecord])))
        61 5 0 []
      = .ret (0,
          [{ user := [98, 111, 98, 0], roles_size := 1, roles := [[114, 101, 97, 100, 0]] },
           { user := [99, 97, 114, 111, 108, 0], roles_size := 0, roles := [] }], 61) :=
  (roles_field_length_ignored sampleConfig
    (storeBytes zeroMem 0 (encodeRecords [] ++ (encodeWithRolesLength bobRecord
      [.user [98, 111, 98]] [[114, 101, 97, 100]] [] [0, 0, 0, 6]
        ++ encodeRecords [carolRecord])))
    (storeBytes zeroMem 0 (encodeRecords [] ++ (encodeWithRolesLength bobRecord
      [.user [98, 111, 98]] [[114, 101, 97, 100]] [] [255, 255, 255, 255]
        ++ encodeRecords [carolRecord])))
    0 [] [carolRecord] bobRecord [.user [98, 111, 98]] [] [[114, 101, 97, 100]]
    [0, 0, 0, 6] [255, 255, 255, 255] [] 5
    (by decide) (by decide) rfl rfl rfl (by decide) (by decide) (by decide)).2.2

/-! ## Termination of the record parser -/

/-- C20, as stated, fails: the block has 32 bytes, two record headers with
result code 0 of which the second announces one field; no field lies in the
block, so every field of the block declares a legal length. The parser reads
the header of the announced field behind the block, where the memory holds
ff ff ff ec 05 (length -20, unknown id), moves the cursor back to the second
record header at offset 16 and repeats: it returns for no step budget. -/
theorem truncated_record_never_returns :
    loadBytes staleFieldMem 0 32 = List.replicate 16 0 ++ ([0, 0, 0, 1] ++ List.replicate 12 0)
    ∧ ¬ ∃ fuel status users2,
        as_parse_users sampleConfig staleFieldMem 0 32 [] fuel = .ret (status, users2) := by
  refine ⟨by decide, ?_⟩
  rintro ⟨fuel, status, users2, h⟩
  rw [as_parse_users_stale] at h
  cases h

/-- C20 amended: when every field header that `as_parse_users` decodes for a
block of length `size`, in the block and behind its end when a record
announces more fields than the block holds, declares a wire length between 1
and 2^31 - 1, the parser returns for every step budget above
`ceil(size / 16)`, one unit being spent per turn of the record loop, so at
most `ceil(size / 16)` records are processed, and at most that many records
are appended to the result vector. Each field moves the cursor by at least 5
bytes and each record by at least 16 bytes. -/
theorem as_parse_users_terminates (cfg : Config) (m : Mem) (buffer : Int) (size : Int)
    (users : List as_user_roles) (fuel : Nat)
    (hU : 1 ≤ cfg.AS_USER_SIZE)
    (hfuel : (size.toNat + 15) / 16 < fuel)
    (hlegal : recordsLegal cfg m (buffer + size) fuel buffer = true) :
    (∃ status users2, as_parse_users cfg m buffer size users fuel = .ret (status, users2)
      ∧ users2.length ≤ users.length + (size.toNat + 15) / 16)
    ∧ (∀ st : FieldState, fieldLengthLegal m st.p = true →
        ∃ st2, parse_field cfg m st = some st2 ∧ st.p + 5 ≤ st2.p)
    ∧ (∀ (p : Int) (k : Nat),
        fieldLengthsLegal cfg m k (FieldState.mk (p + HEADER_REMAINING) [0] none) = true →
        ∃ st2, parse_fields cfg m k (FieldState.mk (p + HEADER_REMAINING) [0] none) = some st2
          ∧ p + 16 + 5 * (k : Int) ≤ st2.p) := by
  refine ⟨?_, fun st h => parse_field_advance cfg m st hU h, ?_⟩
  · obtain ⟨status, users2, p2, h1, h2⟩ := as_parse_users_loop_terminates cfg m (buffer + size)
      hU fuel buffer users (by rw [show buffer + size - buffer = size by ring]; exact hfuel)
      hlegal
    rw [show buffer + size - buffer = size by ring] at h2
    refine ⟨status, users2, ?_, h2⟩
    unfold as_parse_users
    rw [h1]
  · intro p k h
    obtain ⟨st2, h1, h2⟩ := parse_fields_advance cfg m k _ hU h
    exact ⟨st2, h1, by simpa [HEADER_REMAINING] using h2⟩

/-- Witness of C20 amended: the block of "bob" and "carol" has 61 bytes; the
parser returns within 5 steps and appends at most 4 records. -/
theorem as_parse_users_terminates_witness :
    ∃ status users2,
      as_parse_users sampleConfig
          (storeBytes zeroMem 0 (encodeRecords [bobRecord, carolRecord])) 0 61 [] 5
        = .ret (status, users2)
      ∧ users2.length ≤ ([] : List as_user_roles).length + ((61 : Int).toNat + 15) / 16 :=
  (as_parse_users_terminates sampleConfig
    (storeBytes zeroMem 0 (encodeRecords [bobRecord, carolRecord])) 0 61 [] 5
    (by decide) (by decide) (by decide)).1

end AsAdmin
